import Mathlib

/-!
# KeiranScript compiler: lexer, parser and code generator

A shallow embedding of `lexer.go`, `ast.go`, `parser.go` and `compiler.go`, followed by
theorems about the embedded functions.

Conventions of the embedding.

* A Go `string` is a byte sequence and the lexer classifies each byte `c` through `rune(c)`,
  the code point equal to the byte. A source text is therefore represented by the list of
  these code points (`List Char`, every character below 256), and the texts cut out of it are
  Lean strings over the same characters.
* A Go `panic` ends the run. The explicit panics of the lexer, the parser and the code
  generator are the failures `LexError`, `ParseError` and `InternalError`; an index outside a
  slice and a nil block pointer are the run-time panics `IndexOutOfRange` and `NilDereference`.
* The parser is recursive and its loops need not end, so every parser function takes a
  recursion budget (`fuel`) that is decreased by one at each call and each loop iteration;
  `Res.outOfFuel` is the answer of the model when the budget is used up, it is not an outcome
  of the Go program. A run of the Go parser that never returns is a run that answers
  `outOfFuel` for every budget.
-/

namespace KS

/-! ## Outcomes -/

/-- The ways a run of the compiler can be aborted. -/
inductive Failure where
  | LexError (msg : String)
  | ParseError (msg : String)
  | InternalError (msg : String)
  | IndexOutOfRange
  | NilDereference
deriving DecidableEq, Repr

/-- Outcome of a modelled function: a value, an abort, or an exhausted recursion budget. -/
inductive Res (α : Type) where
  | ok (a : α)
  | fail (e : Failure)
  | outOfFuel
deriving DecidableEq, Repr

/-- Sequencing: aborts and budget exhaustion are passed on unchanged. -/
def Res.bind {α β : Type} : Res α → (α → Res β) → Res β
  | .ok a, k => k a
  | .fail e, _ => .fail e
  | .outOfFuel, _ => .outOfFuel

instance : Monad Res where
  pure := Res.ok
  bind := Res.bind

/-! ## Tokens (`lexer.go`) -/

/-- The token tags of `lexer.go`, in the order of the `iota` block. -/
inductive TokenType where
  | TOKEN_EOF
  | TOKEN_IDENT
  | TOKEN_NUMBER
  | TOKEN_STRING
  | TOKEN_PLUS
  | TOKEN_MINUS
  | TOKEN_MULTIPLY
  | TOKEN_DIVIDE
  | TOKEN_ASSIGN
  | TOKEN_SEMICOLON
  | TOKEN_PRINT
  | TOKEN_IF
  | TOKEN_ELSE
  | TOKEN_WHILE
  | TOKEN_LPAREN
  | TOKEN_RPAREN
  | TOKEN_LBRACE
  | TOKEN_RBRACE
  | TOKEN_EQ
  | TOKEN_NEQ
  | TOKEN_LT
  | TOKEN_GT
  | TOKEN_AND
  | TOKEN_OR
  | TOKEN_TRUE
  | TOKEN_FALSE
deriving DecidableEq, Repr

open TokenType

/-- A token: its tag (`Type` in the source) and the text matched. -/
structure Token where
  Typ : TokenType
  Value : String
deriving DecidableEq, Repr

/-! ## Character classes

`unicode.IsSpace`, `unicode.IsLetter` and `unicode.IsDigit` of the Go standard library,
restricted to the code points a byte can hold (Latin-1). -/

/-- The call `unicode.IsSpace` on Latin-1: tab, line feed, vertical tab, form feed, carriage return,
space, U+0085 and U+00A0. -/
def isSpace (c : Char) : Bool :=
  let n := c.toNat
  n == 9 || n == 10 || n == 11 || n == 12 || n == 13 || n == 32 || n == 0x85 || n == 0xA0

/-- The call `unicode.IsLetter` on Latin-1: the ASCII letters, U+00AA, U+00B5, U+00BA and
U+00C0..U+00FF without the signs U+00D7 and U+00F7. -/
def isLetter (c : Char) : Bool :=
  let n := c.toNat
  (65 ≤ n && n ≤ 90) || (97 ≤ n && n ≤ 122) || n == 0xAA || n == 0xB5 || n == 0xBA ||
    (0xC0 ≤ n && n ≤ 0xD6) || (0xD8 ≤ n && n ≤ 0xF6) || (0xF8 ≤ n && n ≤ 0xFF)

/-- The call `unicode.IsDigit` on Latin-1: the ASCII digits. -/
def isDigit (c : Char) : Bool :=
  let n := c.toNat
  48 ≤ n && n ≤ 57

/-! ## Lexer (`lexer.go`) -/

/-- The loop `for l.pos < len(l.input) && p(l.input[l.pos]) { l.pos++ }`, returning the final
position. At most `len(l.input) - pos` iterations are possible, which is the budget the callers
pass. -/
def scanWhile (p : Char → Bool) (input : List Char) : Nat → Nat → Nat
  | 0, pos => pos
  | fuel + 1, pos =>
    match input[pos]? with
    | some c => if p c then scanWhile p input fuel (pos + 1) else pos
    | none => pos

/-- The slice `l.input[start:stop]` as a string. -/
def slice (input : List Char) (start stop : Nat) : String :=
  String.mk ((input.drop start).take (stop - start))

/-- The function `peekNext`: the byte after the cursor, or 0 at the end of the input. -/
def peekNext (input : List Char) (pos : Nat) : Char :=
  match input[pos + 1]? with
  | some c => c
  | none => Char.ofNat 0

/-- The keyword table of `readIdentifier`. -/
def keywordType (value : String) : TokenType :=
  if value = "print" then TOKEN_PRINT
  else if value = "if" then TOKEN_IF
  else if value = "else" then TOKEN_ELSE
  else if value = "while" then TOKEN_WHILE
  else if value = "true" then TOKEN_TRUE
  else if value = "false" then TOKEN_FALSE
  else TOKEN_IDENT

/-- The function `readIdentifier`: the maximal run of letters and digits from the cursor, classified against
the keywords. Returns the token and the new cursor. -/
def readIdentifier (input : List Char) (pos : Nat) : Token × Nat :=
  let stop := scanWhile (fun c => isLetter c || isDigit c) input (input.length - pos) pos
  let value := slice input pos stop
  (⟨keywordType value, value⟩, stop)

/-- The function `readNumber`: the maximal run of digits from the cursor. -/
def readNumber (input : List Char) (pos : Nat) : Token × Nat :=
  let stop := scanWhile isDigit input (input.length - pos) pos
  (⟨TOKEN_NUMBER, slice input pos stop⟩, stop)

/-- The function `readString`: skips the opening quote, scans to the next quote, panics when the input ends
first. -/
def readString (input : List Char) (pos : Nat) : Res (Token × Nat) :=
  let start := pos + 1
  let stop := scanWhile (fun c => c != '"') input (input.length - start) start
  if stop = input.length then
    .fail (.LexError "Unterminated string")
  else
    .ok (⟨TOKEN_STRING, slice input start stop⟩, stop + 1)

/-- One iteration of the loop of `Tokenize` at a cursor holding the byte `c`: the token produced
(none for white space) and the new cursor, or the panic. -/
def lexStep (input : List Char) (pos : Nat) (c : Char) : Res (Option Token × Nat) :=
  if isSpace c then .ok (none, pos + 1)
  else if isLetter c then
    let r := readIdentifier input pos
    .ok (some r.1, r.2)
  else if isDigit c then
    let r := readNumber input pos
    .ok (some r.1, r.2)
  else if c = '"' then
    match readString input pos with
    | .ok r => .ok (some r.1, r.2)
    | .fail e => .fail e
    | .outOfFuel => .outOfFuel
  else if c = '+' then .ok (some ⟨TOKEN_PLUS, "+"⟩, pos + 1)
  else if c = '-' then .ok (some ⟨TOKEN_MINUS, "-"⟩, pos + 1)
  else if c = '*' then .ok (some ⟨TOKEN_MULTIPLY, "*"⟩, pos + 1)
  else if c = '/' then .ok (some ⟨TOKEN_DIVIDE, "/"⟩, pos + 1)
  else if c = '=' then
    if peekNext input pos = '=' then .ok (some ⟨TOKEN_EQ, "=="⟩, pos + 2)
    else .ok (some ⟨TOKEN_ASSIGN, "="⟩, pos + 1)
  else if c = '!' then
    if peekNext input pos = '=' then .ok (some ⟨TOKEN_NEQ, "!="⟩, pos + 2)
    else .fail (.LexError ("Unexpected character: ".push c))
  else if c = '<' then .ok (some ⟨TOKEN_LT, "<"⟩, pos + 1)
  else if c = '>' then .ok (some ⟨TOKEN_GT, ">"⟩, pos + 1)
  else if c = '&' then
    if peekNext input pos = '&' then .ok (some ⟨TOKEN_AND, "&&"⟩, pos + 2)
    else .fail (.LexError ("Unexpected character: ".push c))
  else if c = '|' then
    if peekNext input pos = '|' then .ok (some ⟨TOKEN_OR, "||"⟩, pos + 2)
    else .fail (.LexError ("Unexpected character: ".push c))
  else if c = ';' then .ok (some ⟨TOKEN_SEMICOLON, ";"⟩, pos + 1)
  else if c = '(' then .ok (some ⟨TOKEN_LPAREN, "("⟩, pos + 1)
  else if c = ')' then .ok (some ⟨TOKEN_RPAREN, ")"⟩, pos + 1)
  else if c = '{' then .ok (some ⟨TOKEN_LBRACE, "\x7b"⟩, pos + 1)
  else if c = '}' then .ok (some ⟨TOKEN_RBRACE, "\x7d"⟩, pos + 1)
  else .fail (.LexError ("Unknown character: ".push c))

/-- The call `tokens = append(tokens, t)` when the iteration produced a token. -/
def appendToken (tokens : List Token) : Option Token → List Token
  | some t => tokens ++ [t]
  | none => tokens

/-- The loop of `Tokenize` from cursor `pos` with the tokens gathered so far; the end marker is
appended when the cursor leaves the input. Every iteration moves the cursor forward, so
`len(l.input)` iterations suffice (`tokenizeLoop_total`). -/
def tokenizeLoop (input : List Char) : Nat → Nat → List Token → Res (List Token)
  | 0, pos, tokens =>
    match input[pos]? with
    | none => .ok (tokens ++ [⟨TOKEN_EOF, ""⟩])
    | some _ => .outOfFuel
  | fuel + 1, pos, tokens =>
    match input[pos]? with
    | none => .ok (tokens ++ [⟨TOKEN_EOF, ""⟩])
    | some c =>
      match lexStep input pos c with
      | .ok r => tokenizeLoop input fuel r.2 (appendToken tokens r.1)
      | .fail e => .fail e
      | .outOfFuel => .outOfFuel

/-- The function `NewLexer(input).Tokenize()`. -/
def Tokenize (input : String) : Res (List Token) :=
  tokenizeLoop input.data input.data.length 0 []

/-! ## Syntax trees (`ast.go`) -/

/-- The expression nodes. `Operator` is a token tag, as in the source, so an operator outside
the ten binary operators can be written down. `nil` is the nil interface value, the only
`Expression` that is none of the five node types. -/
inductive Expression where
  | NumberLiteral (Value : Int)
  | StringLiteral (Value : String)
  | BooleanLiteral (Value : Bool)
  | Identifier (Name : String)
  | BinaryExpression (Left : Expression) (Operator : TokenType) (Right : Expression)
  | nil
deriving DecidableEq, Repr

/-- The statement nodes. A `*Block` field is `none` for the nil pointer and `some stmts` for a
block with the statements `stmts`. -/
inductive Statement where
  | AssignmentStatement (Identifier : String) (Value : Expression)
  | PrintStatement (Expression : Expression)
  | IfStatement (Condition : Expression) (ThenBranch : Option (List Statement))
      (ElseBranch : Option (List Statement))
  | WhileStatement (Condition : Expression) (Body : Option (List Statement))
  | Block (Statements : List Statement)
deriving Repr

/-- A program: its top-level statements. -/
structure Program where
  Statements : List Statement
deriving Repr

/-! ## Parser (`parser.go`) -/

/-- The read `p.tokens[pos]`, a run-time panic when `pos` is outside the slice. -/
def tokenAt (tokens : List Token) (pos : Nat) : Res Token :=
  match tokens[pos]? with
  | some t => .ok t
  | none => .fail .IndexOutOfRange

/-- The check `if p.tokens[pos].Type != ty { panic(msg) }`. -/
def expect (tokens : List Token) (pos : Nat) (ty : TokenType) (msg : String) : Res Unit :=
  match tokens[pos]? with
  | some t => if t.Typ = ty then .ok () else .fail (.ParseError msg)
  | none => .fail .IndexOutOfRange

/-- The digit loop of `strconv.ParseUint(s, 10, 64)`: `none` for a byte that is not a decimal
digit, and the largest unsigned value as soon as the number leaves the 64-bit range. -/
def parseUintLoop : List Char → Nat → Option Nat
  | [], n => some n
  | c :: cs, n =>
    if isDigit c then
      if n ≥ (2 ^ 64 - 1) / 10 + 1 then some (2 ^ 64 - 1)
      else if n * 10 + (c.toNat - 48) > 2 ^ 64 - 1 then some (2 ^ 64 - 1)
      else parseUintLoop cs (n * 10 + (c.toNat - 48))
    else none

/-- The call `value, _ := strconv.Atoi(s)` on a 64-bit platform: an optional sign and decimal
digits; 0 for a malformed text, the nearest bound of the `int` range for a number outside it. -/
def Atoi (s : String) : Int :=
  match s.data with
  | [] => 0
  | c :: rest =>
    let digits := if c = '-' ∨ c = '+' then rest else c :: rest
    if digits = [] then 0
    else
      match parseUintLoop digits 0 with
      | none => 0
      | some un =>
        if c = '-' then (if un > 2 ^ 63 then -(2 ^ 63 : Int) else -(un : Int))
        else (if un ≥ 2 ^ 63 then (2 ^ 63 - 1 : Int) else (un : Int))

/-- The call `stmts = append(stmts, stmt)` under `if stmt != nil`. -/
def appendStmt (stmts : List Statement) : Option Statement → List Statement
  | some s => stmts ++ [s]
  | none => stmts

mutual

/-- The function `parseExpression`. -/
def parseExpression : Nat → List Token → Nat → Res (Expression × Nat)
  | 0, _, _ => .outOfFuel
  | fuel + 1, tokens, pos => parseLogicalOr fuel tokens pos
termination_by structural fuel => fuel

/-- The function `parseLogicalOr`: an operand, then the loop over `||`. -/
def parseLogicalOr : Nat → List Token → Nat → Res (Expression × Nat)
  | 0, _, _ => .outOfFuel
  | fuel + 1, tokens, pos =>
    (parseLogicalAnd fuel tokens pos).bind fun r => parseLogicalOrLoop fuel tokens r.1 r.2
termination_by structural fuel => fuel

/-- The `for` loop of `parseLogicalOr`, with the expression built so far. -/
def parseLogicalOrLoop : Nat → List Token → Expression → Nat → Res (Expression × Nat)
  | 0, _, _, _ => .outOfFuel
  | fuel + 1, tokens, expr, pos =>
    match tokens[pos]? with
    | none => .ok (expr, pos)
    | some t =>
      if t.Typ = TOKEN_OR then
        (parseLogicalAnd fuel tokens (pos + 1)).bind fun r =>
          parseLogicalOrLoop fuel tokens (.BinaryExpression expr t.Typ r.1) r.2
      else .ok (expr, pos)
termination_by structural fuel => fuel

/-- The function `parseLogicalAnd`: an operand, then the loop over `&&`. -/
def parseLogicalAnd : Nat → List Token → Nat → Res (Expression × Nat)
  | 0, _, _ => .outOfFuel
  | fuel + 1, tokens, pos =>
    (parseEquality fuel tokens pos).bind fun r => parseLogicalAndLoop fuel tokens r.1 r.2
termination_by structural fuel => fuel

/-- The `for` loop of `parseLogicalAnd`. -/
def parseLogicalAndLoop : Nat → List Token → Expression → Nat → Res (Expression × Nat)
  | 0, _, _, _ => .outOfFuel
  | fuel + 1, tokens, expr, pos =>
    match tokens[pos]? with
    | none => .ok (expr, pos)
    | some t =>
      if t.Typ = TOKEN_AND then
        (parseEquality fuel tokens (pos + 1)).bind fun r =>
          parseLogicalAndLoop fuel tokens (.BinaryExpression expr t.Typ r.1) r.2
      else .ok (expr, pos)
termination_by structural fuel => fuel

/-- The function `parseEquality`: an operand, then the loop over `==` and `!=`. -/
def parseEquality : Nat → List Token → Nat → Res (Expression × Nat)
  | 0, _, _ => .outOfFuel
  | fuel + 1, tokens, pos =>
    (parseComparison fuel tokens pos).bind fun r => parseEqualityLoop fuel tokens r.1 r.2
termination_by structural fuel => fuel

/-- The `for` loop of `parseEquality`. -/
def parseEqualityLoop : Nat → List Token → Expression → Nat → Res (Expression × Nat)
  | 0, _, _, _ => .outOfFuel
  | fuel + 1, tokens, expr, pos =>
    match tokens[pos]? with
    | none => .ok (expr, pos)
    | some t =>
      if t.Typ = TOKEN_EQ ∨ t.Typ = TOKEN_NEQ then
        (parseComparison fuel tokens (pos + 1)).bind fun r =>
          parseEqualityLoop fuel tokens (.BinaryExpression expr t.Typ r.1) r.2
      else .ok (expr, pos)
termination_by structural fuel => fuel

/-- The function `parseComparison`: an operand, then the loop over `<` and `>`. -/
def parseComparison : Nat → List Token → Nat → Res (Expression × Nat)
  | 0, _, _ => .outOfFuel
  | fuel + 1, tokens, pos =>
    (parseAdditive fuel tokens pos).bind fun r => parseComparisonLoop fuel tokens r.1 r.2
termination_by structural fuel => fuel

/-- The `for` loop of `parseComparison`. -/
def parseComparisonLoop : Nat → List Token → Expression → Nat → Res (Expression × Nat)
  | 0, _, _, _ => .outOfFuel
  | fuel + 1, tokens, expr, pos =>
    match tokens[pos]? with
    | none => .ok (expr, pos)
    | some t =>
      if t.Typ = TOKEN_LT ∨ t.Typ = TOKEN_GT then
        (parseAdditive fuel tokens (pos + 1)).bind fun r =>
          parseComparisonLoop fuel tokens (.BinaryExpression expr t.Typ r.1) r.2
      else .ok (expr, pos)
termination_by structural fuel => fuel

/-- The function `parseAdditive`: an operand, then the loop over `+` and `-`. -/
def parseAdditive : Nat → List Token → Nat → Res (Expression × Nat)
  | 0, _, _ => .outOfFuel
  | fuel + 1, tokens, pos =>
    (parseMultiplicative fuel tokens pos).bind fun r => parseAdditiveLoop fuel tokens r.1 r.2
termination_by structural fuel => fuel

/-- The `for` loop of `parseAdditive`. -/
def parseAdditiveLoop : Nat → List Token → Expression → Nat → Res (Expression × Nat)
  | 0, _, _, _ => .outOfFuel
  | fuel + 1, tokens, expr, pos =>
    match tokens[pos]? with
    | none => .ok (expr, pos)
    | some t =>
      if t.Typ = TOKEN_PLUS ∨ t.Typ = TOKEN_MINUS then
        (parseMultiplicative fuel tokens (pos + 1)).bind fun r =>
          parseAdditiveLoop fuel tokens (.BinaryExpression expr t.Typ r.1) r.2
      else .ok (expr, pos)
termination_by structural fuel => fuel

/-- The function `parseMultiplicative`: an operand, then the loop over `*` and `/`. -/
def parseMultiplicative : Nat → List Token → Nat → Res (Expression × Nat)
  | 0, _, _ => .outOfFuel
  | fuel + 1, tokens, pos =>
    (parsePrimary fuel tokens pos).bind fun r => parseMultiplicativeLoop fuel tokens r.1 r.2
termination_by structural fuel => fuel

/-- The `for` loop of `parseMultiplicative`. -/
def parseMultiplicativeLoop : Nat → List Token → Expression → Nat → Res (Expression × Nat)
  | 0, _, _, _ => .outOfFuel
  | fuel + 1, tokens, expr, pos =>
    match tokens[pos]? with
    | none => .ok (expr, pos)
    | some t =>
      if t.Typ = TOKEN_MULTIPLY ∨ t.Typ = TOKEN_DIVIDE then
        (parsePrimary fuel tokens (pos + 1)).bind fun r =>
          parseMultiplicativeLoop fuel tokens (.BinaryExpression expr t.Typ r.1) r.2
      else .ok (expr, pos)
termination_by structural fuel => fuel

/-- The function `parsePrimary`: a literal, an identifier, or an expression in parentheses. -/
def parsePrimary : Nat → List Token → Nat → Res (Expression × Nat)
  | 0, _, _ => .outOfFuel
  | fuel + 1, tokens, pos =>
    match tokens[pos]? with
    | none => .fail .IndexOutOfRange
    | some t =>
      match t.Typ with
      | TOKEN_NUMBER => .ok (.NumberLiteral (Atoi t.Value), pos + 1)
      | TOKEN_STRING => .ok (.StringLiteral t.Value, pos + 1)
      | TOKEN_TRUE => .ok (.BooleanLiteral true, pos + 1)
      | TOKEN_FALSE => .ok (.BooleanLiteral false, pos + 1)
      | TOKEN_IDENT => .ok (.Identifier t.Value, pos + 1)
      | TOKEN_LPAREN =>
        (parseExpression fuel tokens (pos + 1)).bind fun r =>
          (expect tokens r.2 TOKEN_RPAREN "Expected ')' after expression").bind fun _ =>
            .ok (r.1, r.2 + 1)
      | _ => .fail (.ParseError "Unexpected token in expression")
termination_by structural fuel => fuel

end

/-- The function `parseAssignment`. -/
def parseAssignment : Nat → List Token → Nat → Res (Statement × Nat)
  | 0, _, _ => .outOfFuel
  | fuel + 1, tokens, pos =>
    (tokenAt tokens pos).bind fun ident =>
    (expect tokens (pos + 1) TOKEN_ASSIGN "Expected '=' after identifier in assignment").bind
      fun _ =>
    (parseExpression fuel tokens (pos + 2)).bind fun r =>
    (expect tokens r.2 TOKEN_SEMICOLON "Expected ';' at end of assignment").bind fun _ =>
    .ok (.AssignmentStatement ident.Value r.1, r.2 + 1)

/-- The function `parsePrintStatement`. -/
def parsePrintStatement : Nat → List Token → Nat → Res (Statement × Nat)
  | 0, _, _ => .outOfFuel
  | fuel + 1, tokens, pos =>
    (parseExpression fuel tokens (pos + 1)).bind fun r =>
    (expect tokens r.2 TOKEN_SEMICOLON "Expected ';' at end of print statement").bind fun _ =>
    .ok (.PrintStatement r.1, r.2 + 1)

mutual

/-- The function `parseStatement`: dispatch on the tag under the cursor; `none` with the cursor unmoved for
any tag that starts no statement (`return nil`). -/
def parseStatement : Nat → List Token → Nat → Res (Option Statement × Nat)
  | 0, _, _ => .outOfFuel
  | fuel + 1, tokens, pos =>
    match tokens[pos]? with
    | none => .fail .IndexOutOfRange
    | some t =>
      match t.Typ with
      | TOKEN_IDENT => (parseAssignment fuel tokens pos).bind fun r => .ok (some r.1, r.2)
      | TOKEN_PRINT => (parsePrintStatement fuel tokens pos).bind fun r => .ok (some r.1, r.2)
      | TOKEN_IF => (parseIfStatement fuel tokens pos).bind fun r => .ok (some r.1, r.2)
      | TOKEN_WHILE => (parseWhileStatement fuel tokens pos).bind fun r => .ok (some r.1, r.2)
      | _ => .ok (none, pos)
termination_by structural fuel => fuel

/-- The function `parseIfStatement`. -/
def parseIfStatement : Nat → List Token → Nat → Res (Statement × Nat)
  | 0, _, _ => .outOfFuel
  | fuel + 1, tokens, pos =>
    (expect tokens (pos + 1) TOKEN_LPAREN "Expected '(' after 'if'").bind fun _ =>
    (parseExpression fuel tokens (pos + 2)).bind fun c =>
    (expect tokens c.2 TOKEN_RPAREN "Expected ')' after if condition").bind fun _ =>
    (parseBlock fuel tokens (c.2 + 1)).bind fun th =>
    match tokens[th.2]? with
    | none => .ok (.IfStatement c.1 (some th.1) none, th.2)
    | some t =>
      if t.Typ = TOKEN_ELSE then
        (parseBlock fuel tokens (th.2 + 1)).bind fun el =>
          .ok (.IfStatement c.1 (some th.1) (some el.1), el.2)
      else .ok (.IfStatement c.1 (some th.1) none, th.2)
termination_by structural fuel => fuel

/-- The function `parseWhileStatement`. -/
def parseWhileStatement : Nat → List Token → Nat → Res (Statement × Nat)
  | 0, _, _ => .outOfFuel
  | fuel + 1, tokens, pos =>
    (expect tokens (pos + 1) TOKEN_LPAREN "Expected '(' after 'while'").bind fun _ =>
    (parseExpression fuel tokens (pos + 2)).bind fun c =>
    (expect tokens c.2 TOKEN_RPAREN "Expected ')' after while condition").bind fun _ =>
    (parseBlock fuel tokens (c.2 + 1)).bind fun body =>
    .ok (.WhileStatement c.1 (some body.1), body.2)
termination_by structural fuel => fuel

/-- The function `parseBlock`: the opening brace, the statement loop, the closing brace. Returns the
statements of the block. -/
def parseBlock : Nat → List Token → Nat → Res (List Statement × Nat)
  | 0, _, _ => .outOfFuel
  | fuel + 1, tokens, pos =>
    (expect tokens pos TOKEN_LBRACE "Expected '\x7b' at start of block").bind fun _ =>
    (parseBlockLoop fuel tokens (pos + 1) []).bind fun r =>
    .ok (r.1, r.2 + 1)
termination_by structural fuel => fuel

/-- The loop `for p.tokens[p.pos].Type != TOKEN_RBRACE` of `parseBlock`, with the statements
gathered so far; it returns with the cursor on the closing brace. -/
def parseBlockLoop : Nat → List Token → Nat → List Statement → Res (List Statement × Nat)
  | 0, _, _, _ => .outOfFuel
  | fuel + 1, tokens, pos, stmts =>
    match tokens[pos]? with
    | none => .fail .IndexOutOfRange
    | some t =>
      if t.Typ = TOKEN_RBRACE then .ok (stmts, pos)
      else
        (parseStatement fuel tokens pos).bind fun r =>
          parseBlockLoop fuel tokens r.2 (appendStmt stmts r.1)
termination_by structural fuel => fuel

end

/-- The loop of `Parse` from cursor `pos` with the statements gathered so far. -/
def parseLoop : Nat → List Token → Nat → List Statement → Res Program
  | 0, _, _, _ => .outOfFuel
  | fuel + 1, tokens, pos, stmts =>
    match tokens[pos]? with
    | none => .ok ⟨stmts⟩
    | some t =>
      if t.Typ = TOKEN_EOF then .ok ⟨stmts⟩
      else
        (parseStatement fuel tokens pos).bind fun r =>
          parseLoop fuel tokens r.2 (appendStmt stmts r.1)

/-- The call `NewParser(tokens).Parse()` with recursion budget `fuel`. -/
def Parse (fuel : Nat) (tokens : List Token) : Res Program :=
  parseLoop fuel tokens 0 []

/-! ## Code generator (`compiler.go`) -/

/-- The state of the code generator. The map of the field `variables` is kept in `vars` as the
list of its entries in insertion order; a name is inserted only when absent, so the size of the
map is the length of the list. -/
structure Compiler where
  vars : List (String × Nat)
  code : List String
  labelCount : Nat
  os : String
  arch : String
deriving DecidableEq, Repr

/-- The function `NewCompiler`. -/
def NewCompiler (os arch : String) : Compiler :=
  ⟨[], [], 0, os, arch⟩

/-- The statement `c.code = append(c.code, line)`. -/
def Compiler.emit (c : Compiler) (line : String) : Compiler :=
  { c with code := c.code ++ [line] }

/-- Several `append`s in a row. -/
def Compiler.emitAll (c : Compiler) (lines : List String) : Compiler :=
  { c with code := c.code ++ lines }

/-- The text `label_k`. -/
def labelName (k : Nat) : String :=
  "label_" ++ toString k

/-- The function `nextLabel`: increments the counter and names the label after the new value. -/
def nextLabel (c : Compiler) : String × Compiler :=
  (labelName (c.labelCount + 1), { c with labelCount := c.labelCount + 1 })

/-- The lines of `generatePrologue` for a platform identifier. -/
def prologueLines (os : String) : List String :=
  if os = "linux" then ["global _start", "section .text", "_start:"]
  else if os = "darwin" then ["global start", "section .text", "start:"]
  else if os = "windows" then ["global main", "extern ExitProcess", "section .text", "main:"]
  else []

/-- The lines of `generateEpilogue` for a platform identifier. -/
def epilogueLines (os : String) : List String :=
  if os = "linux" then ["    mov eax, 60", "    xor edi, edi", "    syscall"]
  else if os = "darwin" then ["    mov rax, 0x2000001", "    xor rdi, rdi", "    syscall"]
  else if os = "windows" then ["    push 0", "    call ExitProcess"]
  else []

/-- The function `generatePrologue`. -/
def generatePrologue (c : Compiler) : Compiler :=
  c.emitAll (prologueLines c.os)

/-- The function `generateEpilogue`. -/
def generateEpilogue (c : Compiler) : Compiler :=
  c.emitAll (epilogueLines c.os)

/-- The `switch e.Operator` of `compileExpression`, entered after `mov eax, left` was emitted,
with the operand text `right`; the panic of the `default` case for any other tag. -/
def compileOperator (c : Compiler) (op : TokenType) (right : String) : Res Compiler :=
  match op with
  | TOKEN_PLUS => .ok (c.emit ("    add eax, " ++ right))
  | TOKEN_MINUS => .ok (c.emit ("    sub eax, " ++ right))
  | TOKEN_MULTIPLY => .ok (c.emit ("    imul eax, " ++ right))
  | TOKEN_DIVIDE => .ok (c.emitAll ["    xor edx, edx", "    div " ++ right])
  | TOKEN_EQ => .ok (c.emitAll ["    cmp eax, " ++ right, "    sete al", "    movzx eax, al"])
  | TOKEN_NEQ => .ok (c.emitAll ["    cmp eax, " ++ right, "    setne al", "    movzx eax, al"])
  | TOKEN_LT => .ok (c.emitAll ["    cmp eax, " ++ right, "    setl al", "    movzx eax, al"])
  | TOKEN_GT => .ok (c.emitAll ["    cmp eax, " ++ right, "    setg al", "    movzx eax, al"])
  | TOKEN_AND =>
    let (endLabel, c) := nextLabel c
    .ok (c.emitAll ["    cmp eax, 0", "    je " ++ endLabel, "    cmp " ++ right ++ ", 0",
      "    setne al", "    movzx eax, al", endLabel ++ ":"])
  | TOKEN_OR =>
    let (trueLabel, c) := nextLabel c
    let (endLabel, c) := nextLabel c
    .ok (c.emitAll ["    cmp eax, 0", "    jne " ++ trueLabel, "    cmp " ++ right ++ ", 0",
      "    setne al", "    movzx eax, al", "    jmp " ++ endLabel, trueLabel ++ ":",
      "    mov eax, 1", endLabel ++ ":"])
  | _ => .fail (.InternalError "ill add smth here later")

/-- The function `compileExpression`: returns the operand text of the value and the new state. -/
def compileExpression (c : Compiler) : Expression → Res (String × Compiler)
  | .NumberLiteral v => .ok (toString v, c)
  | .StringLiteral _ => .ok ("str_" ++ toString c.vars.length, c)
  | .BooleanLiteral v => .ok (if v then "1" else "0", c)
  | .Identifier name => .ok ("[var_" ++ name ++ "]", c)
  | .BinaryExpression l op r =>
    (compileExpression c l).bind fun left =>
    (compileExpression left.2 r).bind fun right =>
    (compileOperator (right.2.emit ("    mov eax, " ++ left.1)) op right.1).bind fun c =>
    .ok ("eax", c)
  | .nil => .fail (.InternalError "Unknown expression type")

/-- The variable-table update of `compileAssignment`: a name not yet in the map gets the
current size of the map as its slot. -/
def declare (vars : List (String × Nat)) (name : String) : List (String × Nat) :=
  match vars.lookup name with
  | some _ => vars
  | none => vars ++ [(name, vars.length)]

/-- The function `compileAssignment` on the fields of an assignment. -/
def compileAssignment (c : Compiler) (ident : String) (value : Expression) : Res Compiler :=
  (compileExpression c value).bind fun v =>
  .ok ({ v.2 with vars := declare v.2.vars ident }.emit
    ("    mov [var_" ++ ident ++ "], " ++ v.1))

/-- The function `compilePrint` on the expression of a print statement. -/
def compilePrint (c : Compiler) (e : Expression) : Res Compiler :=
  (compileExpression c e).bind fun v =>
  .ok (v.2.emitAll ["    push " ++ v.1, "    call print_int", "    add esp, 4"])

mutual

/-- The function `compileStatement`; the bodies of `compileIf` and `compileWhile` are its
third and fourth branch. -/
def compileStatement (c : Compiler) : Statement → Res Compiler
  | .AssignmentStatement ident value => compileAssignment c ident value
  | .PrintStatement e => compilePrint c e
  | .IfStatement cond thenBranch elseBranch =>
    (compileExpression c cond).bind fun condition =>
    let (elseLabel, c) := nextLabel condition.2
    let (endLabel, c) := nextLabel c
    let c := c.emitAll ["    cmp " ++ condition.1 ++ ", 0", "    je " ++ elseLabel]
    (compileBlock c thenBranch).bind fun c =>
    let c := c.emitAll ["    jmp " ++ endLabel, elseLabel ++ ":"]
    (compileElse c elseBranch).bind fun c =>
    .ok (c.emit (endLabel ++ ":"))
  | .WhileStatement cond body =>
    let (startLabel, c) := nextLabel c
    let (endLabel, c) := nextLabel c
    let c := c.emit (startLabel ++ ":")
    (compileExpression c cond).bind fun condition =>
    let c := condition.2.emitAll ["    cmp " ++ condition.1 ++ ", 0", "    je " ++ endLabel]
    (compileBlock c body).bind fun c =>
    .ok (c.emitAll ["    jmp " ++ startLabel, endLabel ++ ":"])
  | .Block stmts => compileStatements c stmts

/-- The loop `for _, s := range block.Statements { c.compileStatement(s) }` over a block
pointer that is dereferenced without a check (`ThenBranch`, `Body`). -/
def compileBlock (c : Compiler) : Option (List Statement) → Res Compiler
  | none => .fail .NilDereference
  | some stmts => compileStatements c stmts

/-- The same loop under `if stmt.ElseBranch != nil`. -/
def compileElse (c : Compiler) : Option (List Statement) → Res Compiler
  | none => .ok c
  | some stmts => compileStatements c stmts

/-- The loop `for _, s := range stmts { c.compileStatement(s) }`. -/
def compileStatements (c : Compiler) : List Statement → Res Compiler
  | [] => .ok c
  | s :: rest => (compileStatement c s).bind fun c => compileStatements c rest

end

/-- The state of the code generator when `Compile` reaches its `return`. -/
def compileProgram (c : Compiler) (program : Program) : Res Compiler :=
  (compileStatements (generatePrologue c) program.Statements).bind fun c =>
  .ok (generateEpilogue c)

/-- The function `Compile`: the emitted lines joined by line feeds. -/
def Compile (c : Compiler) (program : Program) : Res String :=
  (compileProgram c program).bind fun c => .ok ("\n".intercalate c.code)

/-- The pipeline of `main`: `Tokenize`, `Parse`, `Compile` on a fresh compiler, with the
recursion budget `fuel` for the parser. -/
def compileSource (fuel : Nat) (source os arch : String) : Res String :=
  (Tokenize source).bind fun tokens =>
  (Parse fuel tokens).bind fun program =>
  Compile (NewCompiler os arch) program

/-- The emitted lines of the pipeline, before they are joined. -/
def compileSourceLines (fuel : Nat) (source os arch : String) : Res (List String) :=
  (Tokenize source).bind fun tokens =>
  (Parse fuel tokens).bind fun program =>
  (compileProgram (NewCompiler os arch) program).bind fun c => .ok c.code

/-! ## Notions used to state the properties -/

/-- The run of `g` returns `r`: the answer is `r`, not `outOfFuel`, for every recursion budget
from some budget on. -/
def Returns {α : Type} (g : Nat → Res α) (r : Res α) : Prop :=
  r ≠ .outOfFuel ∧ ∃ F₀, ∀ F, F₀ ≤ F → g F = r

/-- The run of `g` never returns: no recursion budget is enough. -/
def Diverges {α : Type} (g : Nat → Res α) : Prop :=
  ∀ F, g F = .outOfFuel

/-- The precedence level of the grammar of `parser.go` at which a tag is consumed as a binary
operator: 1 for `||` (`parseLogicalOr`), 2 for `&&`, 3 for `==` and `!=`, 4 for `<` and `>`,
5 for `+` and `-`, 6 for `*` and `/` (`parseMultiplicative`); 0 for every other tag. -/
def precedence : TokenType → Nat
  | TOKEN_OR => 1
  | TOKEN_AND => 2
  | TOKEN_EQ => 3
  | TOKEN_NEQ => 3
  | TOKEN_LT => 4
  | TOKEN_GT => 4
  | TOKEN_PLUS => 5
  | TOKEN_MINUS => 5
  | TOKEN_MULTIPLY => 6
  | TOKEN_DIVIDE => 6
  | _ => 0

mutual

/-- The expression parser with the precedence level as an argument: level 0 is
`parseExpression`, levels 1 to 6 are `parseLogicalOr` to `parseMultiplicative`, every higher
level is `parsePrimary` (`parseAt_eq`). It is used to reason about the six levels at once. -/
def parseAt : Nat → Nat → List Token → Nat → Res (Expression × Nat)
  | 0, _, _, _ => .outOfFuel
  | fuel + 1, level, tokens, pos =>
    if level = 0 then parseAt fuel 1 tokens pos
    else if level ≤ 6 then
      (parseAt fuel (level + 1) tokens pos).bind fun r => loopAt fuel level tokens r.1 r.2
    else
      match tokens[pos]? with
      | none => .fail .IndexOutOfRange
      | some t =>
        match t.Typ with
        | TOKEN_NUMBER => .ok (.NumberLiteral (Atoi t.Value), pos + 1)
        | TOKEN_STRING => .ok (.StringLiteral t.Value, pos + 1)
        | TOKEN_TRUE => .ok (.BooleanLiteral true, pos + 1)
        | TOKEN_FALSE => .ok (.BooleanLiteral false, pos + 1)
        | TOKEN_IDENT => .ok (.Identifier t.Value, pos + 1)
        | TOKEN_LPAREN =>
          (parseAt fuel 0 tokens (pos + 1)).bind fun r =>
            (expect tokens r.2 TOKEN_RPAREN "Expected ')' after expression").bind fun _ =>
              .ok (r.1, r.2 + 1)
        | _ => .fail (.ParseError "Unexpected token in expression")
termination_by structural fuel => fuel

/-- The operator loop of precedence level `level`. -/
def loopAt : Nat → Nat → List Token → Expression → Nat → Res (Expression × Nat)
  | 0, _, _, _, _ => .outOfFuel
  | fuel + 1, level, tokens, expr, pos =>
    match tokens[pos]? with
    | none => .ok (expr, pos)
    | some t =>
      if precedence t.Typ = level then
        (parseAt fuel (level + 1) tokens (pos + 1)).bind fun r =>
          loopAt fuel level tokens (.BinaryExpression expr t.Typ r.1) r.2
      else .ok (expr, pos)
termination_by structural fuel => fuel

end

/-- The answer `r` is `outOfFuel` or it is the answer `r'`: all that a larger budget may
change. -/
def Res.le {α : Type} (r r' : Res α) : Prop :=
  r = .outOfFuel ∨ r = r'

/-- The tag of the token at a cursor, if the cursor is inside the tokens. -/
def tagAt (tokens : List Token) (pos : Nat) : Option TokenType :=
  (tokens[pos]?).map (·.Typ)

/-- The tags on which `parseStatement` parses a statement; on every other tag it returns nil
without moving the cursor. -/
def startsStatement (ty : TokenType) : Bool :=
  ty = TOKEN_IDENT || ty = TOKEN_PRINT || ty = TOKEN_IF || ty = TOKEN_WHILE

/-- The two statement loops of the parser: the loop of `Parse` and the loop of
`parseBlock`. -/
inductive LoopKind where
  | top
  | block
deriving DecidableEq, Repr

/-- The tag on which a statement loop ends instead of calling `parseStatement`: the end marker
for the loop of `Parse`, the closing brace for the loop of `parseBlock`. -/
def LoopKind.stop : LoopKind → TokenType
  | .top => TOKEN_EOF
  | .block => TOKEN_RBRACE

/-- The cursors at which the statement loops come to stand during `Parse`: the loop of `Parse`
starts at cursor 0; a loop standing on a token other than its end tag moves to the cursor
returned by `parseStatement`; the block loop of a then-branch, of an else-branch and of a while
body starts behind the opening brace of a statement that begins at a cursor reached before. -/
inductive StmtPos (tokens : List Token) : LoopKind → Nat → Prop where
  | start : StmtPos tokens .top 0
  | next {kind : LoopKind} {pos pos' : Nat} {ty : TokenType} {s : Option Statement} :
      StmtPos tokens kind pos → tagAt tokens pos = some ty → ty ≠ kind.stop →
      Returns (fun F => parseStatement F tokens pos) (.ok (s, pos')) →
      StmtPos tokens kind pos'
  | thenBlock {kind : LoopKind} {pos q : Nat} {c : Expression} :
      StmtPos tokens kind pos → tagAt tokens pos = some TOKEN_IF →
      tagAt tokens (pos + 1) = some TOKEN_LPAREN →
      Returns (fun F => parseExpression F tokens (pos + 2)) (.ok (c, q)) →
      tagAt tokens q = some TOKEN_RPAREN → tagAt tokens (q + 1) = some TOKEN_LBRACE →
      StmtPos tokens .block (q + 2)
  | elseBlock {kind : LoopKind} {pos q q' : Nat} {c : Expression} {th : List Statement} :
      StmtPos tokens kind pos → tagAt tokens pos = some TOKEN_IF →
      tagAt tokens (pos + 1) = some TOKEN_LPAREN →
      Returns (fun F => parseExpression F tokens (pos + 2)) (.ok (c, q)) →
      tagAt tokens q = some TOKEN_RPAREN →
      Returns (fun F => parseBlock F tokens (q + 1)) (.ok (th, q')) →
      tagAt tokens q' = some TOKEN_ELSE → tagAt tokens (q' + 1) = some TOKEN_LBRACE →
      StmtPos tokens .block (q' + 2)
  | whileBody {kind : LoopKind} {pos q : Nat} {c : Expression} :
      StmtPos tokens kind pos → tagAt tokens pos = some TOKEN_WHILE →
      tagAt tokens (pos + 1) = some TOKEN_LPAREN →
      Returns (fun F => parseExpression F tokens (pos + 2)) (.ok (c, q)) →
      tagAt tokens q = some TOKEN_RPAREN → tagAt tokens (q + 1) = some TOKEN_LBRACE →
      StmtPos tokens .block (q + 2)

/-- The states at which the loop of `Tokenize` comes to stand: it starts at cursor 0 with no
token, and an iteration that does not panic leads to the cursor and the tokens it leaves. -/
inductive ScanReaches (input : List Char) : Nat → List Token → Prop where
  | start : ScanReaches input 0 []
  | step {pos : Nat} {tokens : List Token} {c : Char} {r : Option Token × Nat} :
      ScanReaches input pos tokens → input[pos]? = some c → lexStep input pos c = .ok r →
      ScanReaches input r.2 (appendToken tokens r.1)

/-- The line that defines the label `label_k`. -/
def labelLine (k : Nat) : String :=
  labelName k ++ ":"

/-- The number of lines among `lines` that define the label `label_k`. -/
def labelHits (k : Nat) (lines : List String) : Nat :=
  lines.count (labelLine k)

/-- The first character of a line. -/
def firstChar (s : String) : Option Char :=
  s.data.head?

/-- The labels an operator tag makes `compileExpression` define: one for `&&`, two for `||`. -/
def operatorLabels (wAnd wOr : Nat) (op : TokenType) : Nat :=
  (if op = TOKEN_AND then wAnd else 0) + (if op = TOKEN_OR then wOr else 0)

/-- The weighted number of `&&` and `||` nodes of an expression. -/
def Expression.weigh (wAnd wOr : Nat) : Expression → Nat
  | .BinaryExpression l op r => l.weigh wAnd wOr + r.weigh wAnd wOr + operatorLabels wAnd wOr op
  | _ => 0

mutual

/-- The weighted number of if statements, while statements, `&&` nodes and `||` nodes of a
statement. -/
def Statement.weigh (wIf wWhile wAnd wOr : Nat) : Statement → Nat
  | .AssignmentStatement _ v => v.weigh wAnd wOr
  | .PrintStatement e => e.weigh wAnd wOr
  | .IfStatement c t e =>
    wIf + c.weigh wAnd wOr + weighBlock wIf wWhile wAnd wOr t + weighBlock wIf wWhile wAnd wOr e
  | .WhileStatement c b => wWhile + c.weigh wAnd wOr + weighBlock wIf wWhile wAnd wOr b
  | .Block stmts => weighList wIf wWhile wAnd wOr stmts

/-- The weighted count over a block pointer; nothing for nil. -/
def weighBlock (wIf wWhile wAnd wOr : Nat) : Option (List Statement) → Nat
  | none => 0
  | some stmts => weighList wIf wWhile wAnd wOr stmts

/-- The weighted count over a statement list. -/
def weighList (wIf wWhile wAnd wOr : Nat) : List Statement → Nat
  | [] => 0
  | s :: rest => s.weigh wIf wWhile wAnd wOr + weighList wIf wWhile wAnd wOr rest

end

/-- The number of if statements of a program. -/
def Program.ifStatements (p : Program) : Nat := weighList 1 0 0 0 p.Statements

/-- The number of while statements of a program. -/
def Program.whileStatements (p : Program) : Nat := weighList 0 1 0 0 p.Statements

/-- The number of `&&` expressions of a program. -/
def Program.andExpressions (p : Program) : Nat := weighList 0 0 1 0 p.Statements

/-- The number of `||` expressions of a program. -/
def Program.orExpressions (p : Program) : Nat := weighList 0 0 0 1 p.Statements

mutual

/-- The names assigned in a statement, in the order in which `compileStatement` meets the
assignments. -/
def Statement.assigned : Statement → List String
  | .AssignmentStatement ident _ => [ident]
  | .PrintStatement _ => []
  | .IfStatement _ t e => assignedBlock t ++ assignedBlock e
  | .WhileStatement _ b => assignedBlock b
  | .Block stmts => assignedList stmts

/-- The names assigned under a block pointer. -/
def assignedBlock : Option (List Statement) → List String
  | none => []
  | some stmts => assignedList stmts

/-- The names assigned in a statement list. -/
def assignedList : List Statement → List String
  | [] => []
  | s :: rest => s.assigned ++ assignedList rest

end

/-- What a run of the code generator from the state `c` to the state `c'` does, when the
assignments met are to `names` and `n` labels are taken: platform and architecture are kept,
the names are declared in order, the label counter grows by `n`, and lines are appended in
which each of the `n` new labels is defined exactly once and no other label is defined. -/
structure Step (c c' : Compiler) (names : List String) (n : Nat) : Prop where
  os : c'.os = c.os
  arch : c'.arch = c.arch
  vars : c'.vars = names.foldl declare c.vars
  labels : c'.labelCount = c.labelCount + n
  code : ∃ new, c'.code = c.code ++ new ∧
    ∀ k, labelHits k new = if c.labelCount < k ∧ k ≤ c.labelCount + n then 1 else 0

/-- The number read back from decimal digits, most significant first. -/
def digitsValue (ds : List Char) : Nat :=
  ds.foldl (fun acc c => acc * 10 + (c.toNat - 48)) 0

/-- The distinct names of a list, in the order of their first occurrence. -/
def firstAssigned (names : List String) : List String :=
  names.foldl (fun acc x => if x ∈ acc then acc else acc ++ [x]) []

/-- The variable table that gives the names the slots 0, 1, 2, ... in their order. -/
def slotsOf (keys : List String) : List (String × Nat) :=
  keys.zip (List.range keys.length)

/-- The names assigned in a program, in the order in which `Compile` meets the assignments. -/
def Program.assigned (p : Program) : List String :=
  assignedList p.Statements

/-- The loop of `Tokenize`, standing at cursor `pos` with `tokens` gathered, appends the single
token `t` and moves the cursor by `width`: the scan reaches that next state, and every token
sequence that `Tokenize` returns continues `tokens` with `t`. -/
def ScanYields (input : String) (pos : Nat) (tokens : List Token) (t : Token) (width : Nat) :
    Prop :=
  ScanReaches input.data (pos + width) (tokens ++ [t]) ∧
    ∀ result, Tokenize input = .ok result → ∃ more, result = tokens ++ t :: more

/-- The state `c` moved under other platform fields, with the lines `pre` emitted before its
own. -/
def Compiler.rebase (c : Compiler) (pre : List String) (os arch : String) : Compiler :=
  ⟨c.vars, pre ++ c.code, c.labelCount, os, arch⟩

/-- The lines of the statement loop of `Compile` alone: the loop run from a fresh state with
nothing emitted before it. -/
def bodyLines (program : Program) : Res (List String) :=
  (compileStatements (NewCompiler "" "") program.Statements).bind fun c => .ok c.code

/-- The operand of a jump instruction: the text after `    je `, `    jne ` or `    jmp ` when
the line is such an instruction, nothing for every other line. -/
def jumpTarget (line : String) : Option String :=
  if line.data.take 7 = "    je ".data then some ⟨line.data.drop 7⟩
  else if line.data.take 8 = "    jne ".data then some ⟨line.data.drop 8⟩
  else if line.data.take 8 = "    jmp ".data then some ⟨line.data.drop 8⟩
  else none

/-- Every jump instruction among `lines` names a label `label_k` with `lo < k ≤ hi`. -/
def JumpsWithin (lo hi : Nat) (lines : List String) : Prop :=
  ∀ line ∈ lines, ∀ target, jumpTarget line = some target →
    ∃ k, lo < k ∧ k ≤ hi ∧ target = labelName k

/-- The fifth character of a line is not `j`: the line is no instruction with a mnemonic that
starts with `j`. -/
def plainLine (line : String) : Bool :=
  match line.data[4]? with
  | some ch => ch != 'j'
  | none => true

/-- What a run of the code generator from `c` to `c'` does to jumps: the label counter does
not fall, and every jump instruction among the appended lines names a label taken during the
run. -/
def JumpStep (c c' : Compiler) : Prop :=
  c.labelCount ≤ c'.labelCount ∧
    ∃ new, c'.code = c.code ++ new ∧ JumpsWithin c.labelCount c'.labelCount new

/-- The ten operator tags for which the `switch e.Operator` of `compileExpression` has a
case. -/
def isBinaryOperator : TokenType → Bool
  | TOKEN_PLUS => true
  | TOKEN_MINUS => true
  | TOKEN_MULTIPLY => true
  | TOKEN_DIVIDE => true
  | TOKEN_EQ => true
  | TOKEN_NEQ => true
  | TOKEN_LT => true
  | TOKEN_GT => true
  | TOKEN_AND => true
  | TOKEN_OR => true
  | _ => false

/-- Every node of the expression is one of the five node types, and every operator of a
`BinaryExpression` is one of the ten binary operators. -/
def Expression.known : Expression → Bool
  | .BinaryExpression l op r => l.known && isBinaryOperator op && r.known
  | .nil => false
  | _ => true

mutual

/-- Every expression of the statement is known, every if statement in it has a then-block and
every while statement a body. -/
def Statement.known : Statement → Bool
  | .AssignmentStatement _ v => v.known
  | .PrintStatement e => e.known
  | .IfStatement c t e => c.known && knownBlock t && knownElse e
  | .WhileStatement c b => c.known && knownBlock b
  | .Block stmts => knownList stmts

/-- A block pointer that must not be nil. -/
def knownBlock : Option (List Statement) → Bool
  | none => false
  | some stmts => knownList stmts

/-- A block pointer that may be nil: the else branch. -/
def knownElse : Option (List Statement) → Bool
  | none => true
  | some stmts => knownList stmts

/-- All statements of a list are known. -/
def knownList : List Statement → Bool
  | [] => true
  | s :: rest => s.known && knownList rest

end

/-- All statements of a program are known. -/
def Program.known (p : Program) : Bool := knownList p.Statements

/-- The index of the first end marker of a token sequence; the length of the sequence when it
holds none. -/
def firstEof (tokens : List Token) : Nat :=
  tokens.findIdx fun t => decide (t.Typ = TOKEN_EOF)

/-- The run with answer `r` read no token outside the sequence, and a value it returned
satisfies `post`. -/
def InRange {α : Type} (post : α → Prop) (r : Res α) : Prop :=
  r ≠ .fail .IndexOutOfRange ∧ ∀ x, r = .ok x → post x

/-- The text the lexer gives to the token of a binary operator. -/
def operatorText : TokenType → String
  | TOKEN_PLUS => "+"
  | TOKEN_MINUS => "-"
  | TOKEN_MULTIPLY => "*"
  | TOKEN_DIVIDE => "/"
  | TOKEN_EQ => "=="
  | TOKEN_NEQ => "!="
  | TOKEN_LT => "<"
  | TOKEN_GT => ">"
  | TOKEN_AND => "&&"
  | TOKEN_OR => "||"
  | _ => ""

/-- The fully parenthesised token rendering of an expression: a literal or identifier is one
token, a number holding its decimal text, and a binary expression is `(`, the rendering of the
left operand, the operator token, the rendering of the right operand, `)`. -/
def Expression.toks : Expression → List Token
  | .NumberLiteral v => [⟨TOKEN_NUMBER, toString v⟩]
  | .StringLiteral s => [⟨TOKEN_STRING, s⟩]
  | .BooleanLiteral b => [if b then ⟨TOKEN_TRUE, "true"⟩ else ⟨TOKEN_FALSE, "false"⟩]
  | .Identifier name => [⟨TOKEN_IDENT, name⟩]
  | .BinaryExpression l op r =>
    [⟨TOKEN_LPAREN, "("⟩] ++ l.toks ++ [⟨op, operatorText op⟩] ++ r.toks ++
      [⟨TOKEN_RPAREN, ")"⟩]
  | .nil => []

/-- The expressions of the round trip: number literals from 0 to the largest `int` of a 64-bit
platform, string literals, boolean literals, identifiers, and binary expressions over the ten
binary operators. -/
def Expression.renderable : Expression → Bool
  | .NumberLiteral v => decide (0 ≤ v) && decide (v ≤ 9223372036854775807)
  | .BinaryExpression l op r => l.renderable && isBinaryOperator op && r.renderable
  | .nil => false
  | _ => true

/-! ## Inputs of the examples -/

/-- The tokens of `1 + 2 * 3`, closed by the end marker. -/
def tokensOnePlusTwoTimesThree : List Token :=
  [⟨TOKEN_NUMBER, "1"⟩, ⟨TOKEN_PLUS, "+"⟩, ⟨TOKEN_NUMBER, "2"⟩, ⟨TOKEN_MULTIPLY, "*"⟩,
    ⟨TOKEN_NUMBER, "3"⟩, ⟨TOKEN_EOF, ""⟩]

/-- The tokens of `1 - 2 - 3`, closed by the end marker. -/
def tokensOneMinusTwoMinusThree : List Token :=
  [⟨TOKEN_NUMBER, "1"⟩, ⟨TOKEN_MINUS, "-"⟩, ⟨TOKEN_NUMBER, "2"⟩, ⟨TOKEN_MINUS, "-"⟩,
    ⟨TOKEN_NUMBER, "3"⟩, ⟨TOKEN_EOF, ""⟩]

/-- The tokens of the source `;`. -/
def tokensSemicolon : List Token :=
  [⟨TOKEN_SEMICOLON, ";"⟩, ⟨TOKEN_EOF, ""⟩]

/-- The tokens of the source `; x = 1;`. -/
def tokensSemicolonAssign : List Token :=
  [⟨TOKEN_SEMICOLON, ";"⟩, ⟨TOKEN_IDENT, "x"⟩, ⟨TOKEN_ASSIGN, "="⟩, ⟨TOKEN_NUMBER, "1"⟩,
    ⟨TOKEN_SEMICOLON, ";"⟩, ⟨TOKEN_EOF, ""⟩]

/-- The tokens of the source `while (x) { ; }`. -/
def tokensStrayInBlock : List Token :=
  [⟨TOKEN_WHILE, "while"⟩, ⟨TOKEN_LPAREN, "("⟩, ⟨TOKEN_IDENT, "x"⟩, ⟨TOKEN_RPAREN, ")"⟩,
    ⟨TOKEN_LBRACE, "\x7b"⟩, ⟨TOKEN_SEMICOLON, ";"⟩, ⟨TOKEN_RBRACE, "\x7d"⟩, ⟨TOKEN_EOF, ""⟩]

/-- The tokens of `1 * 2 + 3`, closed by the end marker. -/
def tokensOneTimesTwoPlusThree : List Token :=
  [⟨TOKEN_NUMBER, "1"⟩, ⟨TOKEN_MULTIPLY, "*"⟩, ⟨TOKEN_NUMBER, "2"⟩, ⟨TOKEN_PLUS, "+"⟩,
    ⟨TOKEN_NUMBER, "3"⟩, ⟨TOKEN_EOF, ""⟩]

/-- The tokens of the source `while (x) { x = 1;`. -/
def tokensOpenWhile : List Token :=
  [⟨TOKEN_WHILE, "while"⟩, ⟨TOKEN_LPAREN, "("⟩, ⟨TOKEN_IDENT, "x"⟩, ⟨TOKEN_RPAREN, ")"⟩,
    ⟨TOKEN_LBRACE, "\x7b"⟩, ⟨TOKEN_IDENT, "x"⟩, ⟨TOKEN_ASSIGN, "="⟩, ⟨TOKEN_NUMBER, "1"⟩,
    ⟨TOKEN_SEMICOLON, ";"⟩, ⟨TOKEN_EOF, ""⟩]

/-- The tokens of the source `x = 5`. -/
def tokensNoSemicolon : List Token :=
  [⟨TOKEN_IDENT, "x"⟩, ⟨TOKEN_ASSIGN, "="⟩, ⟨TOKEN_NUMBER, "5"⟩, ⟨TOKEN_EOF, ""⟩]

/-- The source text of the end-to-end example. -/
def whileExampleSource : String := "x = 1; while (x < 3) \x7b print x; x = x + 1; \x7d"

/-- The tokens of the end-to-end example. -/
def whileExampleTokens : List Token :=
  [⟨TOKEN_IDENT, "x"⟩, ⟨TOKEN_ASSIGN, "="⟩, ⟨TOKEN_NUMBER, "1"⟩, ⟨TOKEN_SEMICOLON, ";"⟩,
    ⟨TOKEN_WHILE, "while"⟩, ⟨TOKEN_LPAREN, "("⟩, ⟨TOKEN_IDENT, "x"⟩, ⟨TOKEN_LT, "<"⟩,
    ⟨TOKEN_NUMBER, "3"⟩, ⟨TOKEN_RPAREN, ")"⟩, ⟨TOKEN_LBRACE, "\x7b"⟩, ⟨TOKEN_PRINT, "print"⟩,
    ⟨TOKEN_IDENT, "x"⟩, ⟨TOKEN_SEMICOLON, ";"⟩, ⟨TOKEN_IDENT, "x"⟩, ⟨TOKEN_ASSIGN, "="⟩,
    ⟨TOKEN_IDENT, "x"⟩, ⟨TOKEN_PLUS, "+"⟩, ⟨TOKEN_NUMBER, "1"⟩, ⟨TOKEN_SEMICOLON, ";"⟩,
    ⟨TOKEN_RBRACE, "\x7d"⟩, ⟨TOKEN_EOF, ""⟩]

/-- The program of the end-to-end example. -/
def whileExampleProgram : Program :=
  ⟨[.AssignmentStatement "x" (.NumberLiteral 1),
    .WhileStatement (.BinaryExpression (.Identifier "x") TOKEN_LT (.NumberLiteral 3))
      (some [.PrintStatement (.Identifier "x"),
        .AssignmentStatement "x"
          (.BinaryExpression (.Identifier "x") TOKEN_PLUS (.NumberLiteral 1))])]⟩

/-- The lines emitted for the end-to-end example on `linux`. -/
def whileExampleLines : List String :=
  ["global _start", "section .text", "_start:", "    mov [var_x], 1", "label_1:",
    "    mov eax, [var_x]", "    cmp eax, 3", "    setl al", "    movzx eax, al",
    "    cmp eax, 0", "    je label_2", "    push [var_x]", "    call print_int",
    "    add esp, 4", "    mov eax, [var_x]", "    add eax, 1", "    mov [var_x], eax",
    "    jmp label_1", "label_2:", "    mov eax, 60", "    xor edi, edi", "    syscall"]

/-- The program of `a = 1; b = 2; a = 3;`. -/
def slotExampleProgram : Program :=
  ⟨[.AssignmentStatement "a" (.NumberLiteral 1), .AssignmentStatement "b" (.NumberLiteral 2),
    .AssignmentStatement "a" (.NumberLiteral 3)]⟩

/-- The state of the code generator after `slotExampleProgram` on `linux`. -/
def slotExampleFinal : Compiler :=
  ⟨[("a", 0), ("b", 1)],
    ["global _start", "section .text", "_start:", "    mov [var_a], 1", "    mov [var_b], 2",
      "    mov [var_a], 3", "    mov eax, 60", "    xor edi, edi", "    syscall"],
    0, "linux", "amd64"⟩

/-- The program of `if (false && x) {}`. -/
def ifAndProgram : Program :=
  ⟨[.IfStatement (.BinaryExpression (.BooleanLiteral false) TOKEN_AND (.Identifier "x"))
    (some []) none]⟩

/-- The state of the code generator after `ifAndProgram` on `linux`. -/
def ifAndFinal : Compiler :=
  ⟨[],
    ["global _start", "section .text", "_start:", "    mov eax, 0", "    cmp eax, 0",
      "    je label_1", "    cmp [var_x], 0", "    setne al", "    movzx eax, al", "label_1:",
      "    cmp eax, 0", "    je label_2", "    jmp label_3", "label_2:", "label_3:",
      "    mov eax, 60", "    xor edi, edi", "    syscall"],
    3, "linux", "amd64"⟩

/-- The program of `if (true || x) {}`. -/
def ifOrProgram : Program :=
  ⟨[.IfStatement (.BinaryExpression (.BooleanLiteral true) TOKEN_OR (.Identifier "x"))
    (some []) none]⟩

/-- The state of the code generator after `ifOrProgram` on `linux`. -/
def ifOrFinal : Compiler :=
  ⟨[],
    ["global _start", "section .text", "_start:", "    mov eax, 1", "    cmp eax, 0",
      "    jne label_1", "    cmp [var_x], 0", "    setne al", "    movzx eax, al",
      "    jmp label_2", "label_1:", "    mov eax, 1", "label_2:", "    cmp eax, 0",
      "    je label_3", "    jmp label_4", "label_3:", "label_4:", "    mov eax, 60",
      "    xor edi, edi", "    syscall"],
    4, "linux", "amd64"⟩

/-- The source text of an assignment whose right operand of `+` is a product. -/
def nestedRightSource : String := "x = 1 + 2 * 3;"

/-- The tokens of `x = 1 + 2 * 3;`. -/
def nestedRightTokens : List Token :=
  [⟨TOKEN_IDENT, "x"⟩, ⟨TOKEN_ASSIGN, "="⟩, ⟨TOKEN_NUMBER, "1"⟩, ⟨TOKEN_PLUS, "+"⟩,
    ⟨TOKEN_NUMBER, "2"⟩, ⟨TOKEN_MULTIPLY, "*"⟩, ⟨TOKEN_NUMBER, "3"⟩, ⟨TOKEN_SEMICOLON, ";"⟩,
    ⟨TOKEN_EOF, ""⟩]

/-- The program of `x = 1 + 2 * 3;`. -/
def nestedRightProgram : Program :=
  ⟨[.AssignmentStatement "x"
    (.BinaryExpression (.NumberLiteral 1) TOKEN_PLUS
      (.BinaryExpression (.NumberLiteral 2) TOKEN_MULTIPLY (.NumberLiteral 3)))]⟩

/-- The then-block of the example `if (x) \x7b print 1; \x7d`. -/
def ifExampleThen : Option (List Statement) :=
  some [.PrintStatement (.NumberLiteral 1)]

/-- The state of the code generator after the example if statement, from a fresh state. -/
def ifExampleResult : Compiler :=
  ⟨[], ["    cmp [var_x], 0", "    je label_1", "    push 1", "    call print_int",
    "    add esp, 4", "    jmp label_2", "label_1:", "label_2:"], 2, "linux", "amd64"⟩

/-- The body of the example `while (x) \x7b x = 0; \x7d`. -/
def whileBodyExample : Option (List Statement) :=
  some [.AssignmentStatement "x" (.NumberLiteral 0)]

/-- The state of the code generator after the example while statement, from a fresh state. -/
def whileResultExample : Compiler :=
  ⟨[("x", 0)], ["label_1:", "    cmp [var_x], 0", "    je label_2", "    mov [var_x], 0",
    "    jmp label_1", "label_2:"], 2, "linux", "amd64"⟩

/-- The expression `(1 + (2 * x))`, as the parser builds it. -/
def roundTripExample : Expression :=
  .BinaryExpression (.NumberLiteral 1) TOKEN_PLUS
    (.BinaryExpression (.NumberLiteral 2) TOKEN_MULTIPLY (.Identifier "x"))

/-- The else-block of the example `if (x) \x7b print 1; \x7d else \x7b print 2; \x7d`. -/
def ifElseExampleElse : Option (List Statement) :=
  some [.PrintStatement (.NumberLiteral 2)]

/-- The state of the code generator after the example if statement with the else branch, from a
fresh state. -/
def ifElseExampleResult : Compiler :=
  ⟨[], ["    cmp [var_x], 0", "    je label_1", "    push 1", "    call print_int",
    "    add esp, 4", "    jmp label_2", "label_1:", "    push 2", "    call print_int",
    "    add esp, 4", "label_2:"], 2, "linux", "amd64"⟩

/-! ## Outcomes: basic facts -/

@[simp] theorem Res.bind_ok {α β : Type} (a : α) (k : α → Res β) : (Res.ok a).bind k = k a := rfl

@[simp] theorem Res.bind_fail {α β : Type} (e : Failure) (k : α → Res β) :
    (Res.fail e : Res α).bind k = .fail e := rfl

@[simp] theorem Res.bind_outOfFuel {α β : Type} (k : α → Res β) :
    (Res.outOfFuel : Res α).bind k = .outOfFuel := rfl

theorem Res.le_refl {α : Type} (r : Res α) : r.le r := Or.inr rfl

theorem Res.le_trans {α : Type} {a b c : Res α} (h₁ : a.le b) (h₂ : b.le c) : a.le c := by
  rcases h₁ with h | h
  · exact Or.inl h
  · subst h; exact h₂

theorem Res.bind_le {α β : Type} {r r' : Res α} {k k' : α → Res β} (h : r.le r')
    (hk : ∀ a, (k a).le (k' a)) : (r.bind k).le (r'.bind k') := by
  rcases h with h | h
  · subst h; exact Or.inl rfl
  · subst h
    cases r with
    | ok a => exact hk a
    | fail e => exact Or.inr rfl
    | outOfFuel => exact Or.inl rfl

theorem Res.le_eq {α : Type} {r r' : Res α} (h : r.le r') (hne : r ≠ .outOfFuel) : r' = r := by
  rcases h with h | h
  · exact absurd h hne
  · exact h.symm

/-- A function of the budget whose answers only change from `outOfFuel` when the budget grows
by one keeps every other answer for all larger budgets. -/
theorem Res.le_of_le_succ {α : Type} {g : Nat → Res α} (h : ∀ f, (g f).le (g (f + 1)))
    {f f' : Nat} (hff : f ≤ f') : (g f).le (g f') := by
  induction hff with
  | refl => exact Res.le_refl _
  | step _ ih => exact Res.le_trans ih (h _)

theorem Returns.of_eq {α : Type} {g : Nat → Res α} (h : ∀ f, (g f).le (g (f + 1))) {f : Nat}
    {r : Res α} (hr : g f = r) (hne : r ≠ .outOfFuel) : Returns g r :=
  ⟨hne, f, fun F hF => by
    have := Res.le_eq (Res.le_of_le_succ h hF) (by rw [hr]; exact hne)
    rw [this, hr]⟩

theorem Returns.unique {α : Type} {g : Nat → Res α} {r r' : Res α} (h : Returns g r)
    (h' : Returns g r') : r = r' := by
  obtain ⟨_, F, hF⟩ := h
  obtain ⟨_, F', hF'⟩ := h'
  rw [← hF (max F F') (le_max_left _ _), hF' (max F F') (le_max_right _ _)]

/-- Sequencing of returning runs: a function that, with budget `F + d`, runs `h` and then `k`
with budget `F`, returns what `k` returns on the value returned by `h`. -/
theorem Returns.bind_of_ok {α β : Type} {g : Nat → Res β} {h : Nat → Res α}
    {k : Nat → α → Res β} (d : Nat) (hg : ∀ F, g (F + d) = (h F).bind (k F)) {a : α}
    {r : Res β} (hh : Returns h (.ok a)) (hk : Returns (fun F => k F a) r) : Returns g r := by
  obtain ⟨_, F₁, h₁⟩ := hh
  obtain ⟨hne, F₂, h₂⟩ := hk
  refine ⟨hne, max F₁ F₂ + d, fun F hF => ?_⟩
  obtain ⟨F', rfl⟩ : ∃ F', F = F' + d := ⟨F - d, by omega⟩
  rw [hg, h₁ F' (by omega), Res.bind_ok]
  exact h₂ F' (by omega)

/-- An answer that does not depend on the budget is returned. -/
theorem Returns.const {α : Type} {g : Nat → Res α} {r : Res α} (hne : r ≠ .outOfFuel)
    (h : ∀ F, g F = r) : Returns g r :=
  ⟨hne, 0, fun F _ => h F⟩

/-! ## The expression parser and its precedence levels -/

theorem precedence_or (t : TokenType) : t = TOKEN_OR ↔ precedence t = 1 := by
  cases t <;> simp [precedence]

theorem precedence_and (t : TokenType) : t = TOKEN_AND ↔ precedence t = 2 := by
  cases t <;> simp [precedence]

theorem precedence_equality (t : TokenType) :
    (t = TOKEN_EQ ∨ t = TOKEN_NEQ) ↔ precedence t = 3 := by
  cases t <;> simp [precedence]

theorem precedence_comparison (t : TokenType) :
    (t = TOKEN_LT ∨ t = TOKEN_GT) ↔ precedence t = 4 := by
  cases t <;> simp [precedence]

theorem precedence_additive (t : TokenType) :
    (t = TOKEN_PLUS ∨ t = TOKEN_MINUS) ↔ precedence t = 5 := by
  cases t <;> simp [precedence]

theorem precedence_multiplicative (t : TokenType) :
    (t = TOKEN_MULTIPLY ∨ t = TOKEN_DIVIDE) ↔ precedence t = 6 := by
  cases t <;> simp [precedence]

theorem precedence_le (t : TokenType) : precedence t ≤ 6 := by
  cases t <;> simp [precedence]

/-- The fourteen functions of the expression parser are the instances of `parseAt` and
`loopAt` at their precedence levels. -/
theorem parseAt_eq (f : Nat) :
    (∀ tokens pos, parseExpression f tokens pos = parseAt f 0 tokens pos) ∧
    (∀ tokens pos, parseLogicalOr f tokens pos = parseAt f 1 tokens pos) ∧
    (∀ tokens e pos, parseLogicalOrLoop f tokens e pos = loopAt f 1 tokens e pos) ∧
    (∀ tokens pos, parseLogicalAnd f tokens pos = parseAt f 2 tokens pos) ∧
    (∀ tokens e pos, parseLogicalAndLoop f tokens e pos = loopAt f 2 tokens e pos) ∧
    (∀ tokens pos, parseEquality f tokens pos = parseAt f 3 tokens pos) ∧
    (∀ tokens e pos, parseEqualityLoop f tokens e pos = loopAt f 3 tokens e pos) ∧
    (∀ tokens pos, parseComparison f tokens pos = parseAt f 4 tokens pos) ∧
    (∀ tokens e pos, parseComparisonLoop f tokens e pos = loopAt f 4 tokens e pos) ∧
    (∀ tokens pos, parseAdditive f tokens pos = parseAt f 5 tokens pos) ∧
    (∀ tokens e pos, parseAdditiveLoop f tokens e pos = loopAt f 5 tokens e pos) ∧
    (∀ tokens pos, parseMultiplicative f tokens pos = parseAt f 6 tokens pos) ∧
    (∀ tokens e pos, parseMultiplicativeLoop f tokens e pos = loopAt f 6 tokens e pos) ∧
    (∀ tokens pos, parsePrimary f tokens pos = parseAt f 7 tokens pos) := by
  induction f with
  | zero =>
    refine ⟨?_, ?_, ?_, ?_, ?_, ?_, ?_, ?_, ?_, ?_, ?_, ?_, ?_, ?_⟩ <;> intros <;> rfl
  | succ f ih =>
    obtain ⟨hE, hOr, hOrL, hAnd, hAndL, hEq, hEqL, hCmp, hCmpL, hAdd, hAddL, hMul, hMulL, hPri⟩ :=
      ih
    refine ⟨?_, ?_, ?_, ?_, ?_, ?_, ?_, ?_, ?_, ?_, ?_, ?_, ?_, ?_⟩
    · intro tokens pos
      simp [parseExpression, parseAt, hOr]
    · intro tokens pos
      simp [parseLogicalOr, parseAt, hAnd, hOrL]
    · intro tokens e pos
      simp only [parseLogicalOrLoop, loopAt, precedence_or, hAnd, hOrL]
    · intro tokens pos
      simp [parseLogicalAnd, parseAt, hEq, hAndL]
    · intro tokens e pos
      simp only [parseLogicalAndLoop, loopAt, precedence_and, hEq, hAndL]
    · intro tokens pos
      simp [parseEquality, parseAt, hCmp, hEqL]
    · intro tokens e pos
      simp only [parseEqualityLoop, loopAt, precedence_equality, hCmp, hEqL]
    · intro tokens pos
      simp [parseComparison, parseAt, hAdd, hCmpL]
    · intro tokens e pos
      simp only [parseComparisonLoop, loopAt, precedence_comparison, hAdd, hCmpL]
    · intro tokens pos
      simp [parseAdditive, parseAt, hMul, hAddL]
    · intro tokens e pos
      simp only [parseAdditiveLoop, loopAt, precedence_additive, hMul, hAddL]
    · intro tokens pos
      simp [parseMultiplicative, parseAt, hPri, hMulL]
    · intro tokens e pos
      simp only [parseMultiplicativeLoop, loopAt, precedence_multiplicative, hPri, hMulL]
    · intro tokens pos
      simp [parsePrimary, parseAt, hE]

/-- One more unit of budget changes no answer of `parseAt` and `loopAt` other than
`outOfFuel`. -/
theorem parseAt_le_succ (f : Nat) :
    (∀ level tokens pos,
      (parseAt f level tokens pos).le (parseAt (f + 1) level tokens pos)) ∧
    (∀ level tokens e pos,
      (loopAt f level tokens e pos).le (loopAt (f + 1) level tokens e pos)) := by
  induction f with
  | zero => exact ⟨fun _ _ _ => Or.inl rfl, fun _ _ _ _ => Or.inl rfl⟩
  | succ f ih =>
    obtain ⟨hP, hL⟩ := ih
    constructor
    · intro level tokens pos
      rw [parseAt, parseAt]
      split
      · exact hP _ _ _
      · split
        · exact Res.bind_le (hP _ _ _) fun r => hL _ _ _ _
        · split
          · exact Res.le_refl _
          · split
            any_goals exact Res.le_refl _
            exact Res.bind_le (hP _ _ _) fun r => Res.le_refl _
    · intro level tokens e pos
      rw [loopAt, loopAt]
      split
      · exact Res.le_refl _
      · split
        · exact Res.bind_le (hP _ _ _) fun r => hL _ _ _ _
        · exact Res.le_refl _

theorem parseAt_mono (level : Nat) (tokens : List Token) (pos : Nat) (f : Nat) :
    (parseAt f level tokens pos).le (parseAt (f + 1) level tokens pos) :=
  (parseAt_le_succ f).1 level tokens pos

theorem loopAt_mono (level : Nat) (tokens : List Token) (e : Expression) (pos : Nat) (f : Nat) :
    (loopAt f level tokens e pos).le (loopAt (f + 1) level tokens e pos) :=
  (parseAt_le_succ f).2 level tokens e pos

theorem parseExpression_mono (tokens : List Token) (pos : Nat) (f : Nat) :
    (parseExpression f tokens pos).le (parseExpression (f + 1) tokens pos) := by
  rw [(parseAt_eq f).1, (parseAt_eq (f + 1)).1]
  exact parseAt_mono 0 tokens pos f

theorem parsePrimary_mono (tokens : List Token) (pos : Nat) (f : Nat) :
    (parsePrimary f tokens pos).le (parsePrimary (f + 1) tokens pos) := by
  rw [(parseAt_eq f).2.2.2.2.2.2.2.2.2.2.2.2.2, (parseAt_eq (f + 1)).2.2.2.2.2.2.2.2.2.2.2.2.2]
  exact parseAt_mono 7 tokens pos f

theorem parsePrimary_eq_parseAt (tokens : List Token) (pos : Nat) (f : Nat) :
    parsePrimary f tokens pos = parseAt f 7 tokens pos :=
  (parseAt_eq f).2.2.2.2.2.2.2.2.2.2.2.2.2 tokens pos

theorem parseExpression_eq_parseAt (tokens : List Token) (pos : Nat) (f : Nat) :
    parseExpression f tokens pos = parseAt f 0 tokens pos :=
  (parseAt_eq f).1 tokens pos

/-- A level between 1 and 6 runs the next level and then its operator loop. -/
theorem parseAt_returns_of_loop {level : Nat} (h1 : 1 ≤ level) (h6 : level ≤ 6)
    {tokens : List Token} {pos q : Nat} {e : Expression} {r : Res (Expression × Nat)}
    (hop : Returns (fun F => parseAt F (level + 1) tokens pos) (.ok (e, q)))
    (hloop : Returns (fun F => loopAt F level tokens e q) r) :
    Returns (fun F => parseAt F level tokens pos) r := by
  refine Returns.bind_of_ok (h := fun F => parseAt F (level + 1) tokens pos)
    (k := fun F x => loopAt F level tokens x.1 x.2) 1 (fun F => ?_) hop hloop
  show parseAt (F + 1) level tokens pos = _
  rw [parseAt]
  simp [show level ≠ 0 by omega, h6]

/-- The operator loop stops at a token that is not an operator of its level, and at the end of
the tokens. -/
theorem loopAt_returns_stop {level : Nat} {tokens : List Token} {q : Nat} (e : Expression)
    (hq : ∀ t, tokens[q]? = some t → precedence t.Typ ≠ level) :
    Returns (fun F => loopAt F level tokens e q) (.ok (e, q)) := by
  refine ⟨by simp, 1, fun F hF => ?_⟩
  obtain ⟨F', rfl⟩ : ∃ F', F = F' + 1 := ⟨F - 1, by omega⟩
  show loopAt (F' + 1) level tokens e q = _
  rw [loopAt]
  cases ht : tokens[q]? with
  | none => rfl
  | some t => simp [hq t ht]

/-- The operator loop at an operator of its level parses the right operand at the next level,
builds the binary node and goes on. -/
theorem loopAt_returns_step {level : Nat} {tokens : List Token} {q q' : Nat} {t : Token}
    {e e' : Expression} {r : Res (Expression × Nat)}
    (ht : tokens[q]? = some t) (hp : precedence t.Typ = level)
    (hop : Returns (fun F => parseAt F (level + 1) tokens (q + 1)) (.ok (e', q')))
    (hloop : Returns (fun F => loopAt F level tokens (.BinaryExpression e t.Typ e') q') r) :
    Returns (fun F => loopAt F level tokens e q) r := by
  refine Returns.bind_of_ok (h := fun F => parseAt F (level + 1) tokens (q + 1))
    (k := fun F x => loopAt F level tokens (.BinaryExpression e t.Typ x.1) x.2)
    1 (fun F => ?_) hop hloop
  show loopAt (F + 1) level tokens e q = _
  rw [loopAt]
  simp [ht, hp]

/-- An expression returned at level `hi` with the cursor on a token that is no operator of the
levels from `lo` up to `hi` is returned unchanged at level `lo`. -/
theorem parseAt_returns_lift {tokens : List Token} {pos q : Nat} {e : Expression}
    (d : Nat) : ∀ (lo hi : Nat), hi = lo + d → 1 ≤ lo → hi ≤ 7 →
    Returns (fun F => parseAt F hi tokens pos) (.ok (e, q)) →
    (∀ t, tokens[q]? = some t → precedence t.Typ < lo ∨ hi ≤ precedence t.Typ) →
    Returns (fun F => parseAt F lo tokens pos) (.ok (e, q)) := by
  induction d with
  | zero =>
    intro lo hi h _ _ hr _
    have : hi = lo := by omega
    subst this
    exact hr
  | succ d ih =>
    intro lo hi h h1 h7 hr hq
    have hnext := ih (lo + 1) hi (by omega) (by omega) h7 hr (fun t ht => by
      rcases hq t ht with h' | h'
      · exact Or.inl (by omega)
      · exact Or.inr h')
    refine parseAt_returns_of_loop h1 (by omega) hnext (loopAt_returns_stop e fun t ht => ?_)
    rcases hq t ht with h' | h' <;> omega

/-- The function `parseExpression` returns what `parseLogicalOr` (level 1) returns. -/
theorem parseExpression_returns_of_level_one {tokens : List Token} {pos : Nat}
    {r : Res (Expression × Nat)} (h : Returns (fun F => parseAt F 1 tokens pos) r) :
    Returns (fun F => parseExpression F tokens pos) r := by
  obtain ⟨hne, F₀, hF⟩ := h
  refine ⟨hne, F₀ + 1, fun F hle => ?_⟩
  obtain ⟨F', rfl⟩ : ∃ F', F = F' + 1 := ⟨F - 1, by omega⟩
  show parseExpression (F' + 1) tokens pos = r
  rw [parseExpression_eq_parseAt, parseAt]
  simp
  exact hF F' (by omega)

theorem parsePrimary_returns_iff {tokens : List Token} {pos : Nat}
    {r : Res (Expression × Nat)} :
    Returns (fun F => parsePrimary F tokens pos) r ↔
      Returns (fun F => parseAt F 7 tokens pos) r := by
  simp only [Returns, parsePrimary_eq_parseAt]

/-- A primary expression followed by a token that is no operator of the levels from `lo` on is
returned unchanged at level `lo`. -/
theorem parseAt_returns_primary {tokens : List Token} {pos q : Nat} {e : Expression}
    {lo : Nat} (h1 : 1 ≤ lo) (h7 : lo ≤ 7)
    (h : Returns (fun F => parsePrimary F tokens pos) (.ok (e, q)))
    (hq : ∀ t, tokens[q]? = some t → precedence t.Typ < lo) :
    Returns (fun F => parseAt F lo tokens pos) (.ok (e, q)) :=
  parseAt_returns_lift (7 - lo) lo 7 (by omega) h1 le_rfl (parsePrimary_returns_iff.1 h)
    fun t ht => Or.inl (hq t ht)

/-- Two operands of the next level around one operator of level `level`, followed by a token
that is no operator of that level, give one binary node at level `level`. -/
theorem parseAt_returns_binary {level : Nat} (h1 : 1 ≤ level) (h6 : level ≤ 6)
    {tokens : List Token} {pos q q' : Nat} {t : Token} {x y : Expression}
    (hx : Returns (fun F => parseAt F (level + 1) tokens pos) (.ok (x, q)))
    (ht : tokens[q]? = some t) (hp : precedence t.Typ = level)
    (hy : Returns (fun F => parseAt F (level + 1) tokens (q + 1)) (.ok (y, q')))
    (hstop : ∀ t', tokens[q']? = some t' → precedence t'.Typ ≠ level) :
    Returns (fun F => parseAt F level tokens pos) (.ok (.BinaryExpression x t.Typ y, q')) :=
  parseAt_returns_of_loop h1 h6 hx
    (loopAt_returns_step ht hp hy (loopAt_returns_stop _ hstop))

/-! ## Operator precedence and associativity -/

/-- C1. Operator precedence: let `a`, `b`, `c` be primary operands (`parsePrimary` returns them
from the cursors `p₀`, `p₁ + 1` and `p₂ + 1`), separated by the binary operators `t₁` and `t₂`
and followed by a token that is no binary operator or by nothing. When `t₂` is of a strictly
higher precedence level than `t₁`, `parseExpression` returns `a t₁ (b t₂ c)`; when `t₁` is of
a strictly higher level than `t₂`, it returns `(a t₁ b) t₂ c`. -/
theorem parseExpression_precedence (tokens : List Token) (p₀ p₁ p₂ p₃ : Nat)
    (a b c : Expression) (t₁ t₂ : Token)
    (ha : Returns (fun F => parsePrimary F tokens p₀) (.ok (a, p₁)))
    (h₁ : tokens[p₁]? = some t₁)
    (hb : Returns (fun F => parsePrimary F tokens (p₁ + 1)) (.ok (b, p₂)))
    (h₂ : tokens[p₂]? = some t₂)
    (hc : Returns (fun F => parsePrimary F tokens (p₂ + 1)) (.ok (c, p₃)))
    (hend : ∀ t, tokens[p₃]? = some t → precedence t.Typ = 0)
    (hop₁ : 0 < precedence t₁.Typ) (hop₂ : 0 < precedence t₂.Typ) :
    (precedence t₁.Typ < precedence t₂.Typ →
      Returns (fun F => parseExpression F tokens p₀)
        (.ok (.BinaryExpression a t₁.Typ (.BinaryExpression b t₂.Typ c), p₃))) ∧
    (precedence t₂.Typ < precedence t₁.Typ →
      Returns (fun F => parseExpression F tokens p₀)
        (.ok (.BinaryExpression (.BinaryExpression a t₁.Typ b) t₂.Typ c, p₃))) := by
  have h₁6 := precedence_le t₁.Typ
  have h₂6 := precedence_le t₂.Typ
  constructor
  · intro hlt
    -- the right operand `b t₂ c` is built at the level of `t₂` and handed down
    have hbc : Returns (fun F => parseAt F (precedence t₂.Typ) tokens (p₁ + 1))
        (.ok (.BinaryExpression b t₂.Typ c, p₃)) :=
      parseAt_returns_binary hop₂ h₂6
        (parseAt_returns_primary (by omega) (by omega) hb fun t ht => by
          rw [h₂] at ht; cases ht; omega)
        h₂ rfl
        (parseAt_returns_primary (by omega) (by omega) hc fun t ht => by
          rw [hend t ht]; omega)
        (fun t ht => by rw [hend t ht]; omega)
    have hbc' := parseAt_returns_lift (precedence t₂.Typ - (precedence t₁.Typ + 1))
      (precedence t₁.Typ + 1) (precedence t₂.Typ) (by omega) (by omega) (by omega) hbc
      (fun t ht => Or.inl (by rw [hend t ht]; omega))
    have hroot := parseAt_returns_binary hop₁ h₁6
      (parseAt_returns_primary (by omega) (by omega) ha fun t ht => by
        rw [h₁] at ht; cases ht; omega)
      h₁ rfl hbc' (fun t ht => by rw [hend t ht]; omega)
    exact parseExpression_returns_of_level_one
      (parseAt_returns_lift (precedence t₁.Typ - 1) 1 (precedence t₁.Typ) (by omega) le_rfl
        (by omega) hroot (fun t ht => Or.inl (by rw [hend t ht]; omega)))
  · intro hlt
    -- the left operand `a t₁ b` is complete at the level of `t₁` when `t₂` is met
    have hab : Returns (fun F => parseAt F (precedence t₁.Typ) tokens p₀)
        (.ok (.BinaryExpression a t₁.Typ b, p₂)) :=
      parseAt_returns_binary hop₁ h₁6
        (parseAt_returns_primary (by omega) (by omega) ha fun t ht => by
          rw [h₁] at ht; cases ht; omega)
        h₁ rfl
        (parseAt_returns_primary (by omega) (by omega) hb fun t ht => by
          rw [h₂] at ht; cases ht; omega)
        (fun t ht => by rw [h₂] at ht; cases ht; omega)
    have hab' := parseAt_returns_lift (precedence t₁.Typ - (precedence t₂.Typ + 1))
      (precedence t₂.Typ + 1) (precedence t₁.Typ) (by omega) (by omega) (by omega) hab
      (fun t ht => Or.inl (by rw [h₂] at ht; cases ht; omega))
    have hroot := parseAt_returns_binary hop₂ h₂6 hab' h₂ rfl
      (parseAt_returns_primary (by omega) (by omega) hc fun t ht => by
        rw [hend t ht]; omega)
      (fun t ht => by rw [hend t ht]; omega)
    exact parseExpression_returns_of_level_one
      (parseAt_returns_lift (precedence t₂.Typ - 1) 1 (precedence t₂.Typ) (by omega) le_rfl
        (by omega) hroot (fun t ht => Or.inl (by rw [hend t ht]; omega)))

/-- C1 at `1 + 2 * 3`: the root is the `+` node and its right child the `*` node; and at
`1 * 2 + 3`: the root is the `+` node and its left child the `*` node. -/
theorem parseExpression_precedence_witness :
    Returns (fun F => parseExpression F tokensOnePlusTwoTimesThree 0)
      (.ok (.BinaryExpression (.NumberLiteral 1) TOKEN_PLUS
        (.BinaryExpression (.NumberLiteral 2) TOKEN_MULTIPLY (.NumberLiteral 3)), 5)) ∧
    Returns (fun F => parseExpression F tokensOneTimesTwoPlusThree 0)
      (.ok (.BinaryExpression (.BinaryExpression (.NumberLiteral 1) TOKEN_MULTIPLY
        (.NumberLiteral 2)) TOKEN_PLUS (.NumberLiteral 3), 5)) :=
  ⟨(parseExpression_precedence tokensOnePlusTwoTimesThree 0 1 3 5 (.NumberLiteral 1)
      (.NumberLiteral 2) (.NumberLiteral 3) ⟨TOKEN_PLUS, "+"⟩ ⟨TOKEN_MULTIPLY, "*"⟩
      (Returns.of_eq (parsePrimary_mono _ _) (f := 1) (by decide) (by simp))
      (by decide)
      (Returns.of_eq (parsePrimary_mono _ _) (f := 1) (by decide) (by simp))
      (by decide)
      (Returns.of_eq (parsePrimary_mono _ _) (f := 1) (by decide) (by simp))
      (fun t ht => by
        have : t = ⟨TOKEN_EOF, ""⟩ := by
          simpa [tokensOnePlusTwoTimesThree] using ht.symm
        subst this; decide)
      (by decide) (by decide)).1 (by decide),
    (parseExpression_precedence tokensOneTimesTwoPlusThree 0 1 3 5 (.NumberLiteral 1)
      (.NumberLiteral 2) (.NumberLiteral 3) ⟨TOKEN_MULTIPLY, "*"⟩ ⟨TOKEN_PLUS, "+"⟩
      (Returns.of_eq (parsePrimary_mono _ _) (f := 1) (by decide) (by simp))
      (by decide)
      (Returns.of_eq (parsePrimary_mono _ _) (f := 1) (by decide) (by simp))
      (by decide)
      (Returns.of_eq (parsePrimary_mono _ _) (f := 1) (by decide) (by simp))
      (fun t ht => by
        have : t = ⟨TOKEN_EOF, ""⟩ := by
          simpa [tokensOneTimesTwoPlusThree] using ht.symm
        subst this; decide)
      (by decide) (by decide)).2 (by decide)⟩

/-- C2. Left associativity: let `a`, `b`, `c` be primary operands separated by two binary
operators `t₁` and `t₂` of the same precedence level and followed by a token that is no binary
operator or by nothing; then `parseExpression` returns `(a t₁ b) t₂ c`. -/
theorem parseExpression_left_assoc (tokens : List Token) (p₀ p₁ p₂ p₃ : Nat)
    (a b c : Expression) (t₁ t₂ : Token)
    (ha : Returns (fun F => parsePrimary F tokens p₀) (.ok (a, p₁)))
    (h₁ : tokens[p₁]? = some t₁)
    (hb : Returns (fun F => parsePrimary F tokens (p₁ + 1)) (.ok (b, p₂)))
    (h₂ : tokens[p₂]? = some t₂)
    (hc : Returns (fun F => parsePrimary F tokens (p₂ + 1)) (.ok (c, p₃)))
    (hend : ∀ t, tokens[p₃]? = some t → precedence t.Typ = 0)
    (hop : 0 < precedence t₁.Typ) (hsame : precedence t₂.Typ = precedence t₁.Typ) :
    Returns (fun F => parseExpression F tokens p₀)
      (.ok (.BinaryExpression (.BinaryExpression a t₁.Typ b) t₂.Typ c, p₃)) := by
  have h6 := precedence_le t₁.Typ
  have hroot : Returns (fun F => parseAt F (precedence t₁.Typ) tokens p₀)
      (.ok (.BinaryExpression (.BinaryExpression a t₁.Typ b) t₂.Typ c, p₃)) :=
    parseAt_returns_of_loop hop h6
      (parseAt_returns_primary (by omega) (by omega) ha fun t ht => by
        rw [h₁] at ht; cases ht; omega)
      (loopAt_returns_step h₁ rfl
        (parseAt_returns_primary (by omega) (by omega) hb fun t ht => by
          rw [h₂] at ht; cases ht; omega)
        (loopAt_returns_step h₂ hsame
          (parseAt_returns_primary (by omega) (by omega) hc fun t ht => by
            rw [hend t ht]; omega)
          (loopAt_returns_stop _ fun t ht => by rw [hend t ht]; omega)))
  exact parseExpression_returns_of_level_one
    (parseAt_returns_lift (precedence t₁.Typ - 1) 1 (precedence t₁.Typ) (by omega) le_rfl
      (by omega) hroot (fun t ht => Or.inl (by rw [hend t ht]; omega)))

/-- C2 at `1 - 2 - 3`: the result is `(1 - 2) - 3`. -/
theorem parseExpression_left_assoc_witness :
    Returns (fun F => parseExpression F tokensOneMinusTwoMinusThree 0)
      (.ok (.BinaryExpression (.BinaryExpression (.NumberLiteral 1) TOKEN_MINUS
        (.NumberLiteral 2)) TOKEN_MINUS (.NumberLiteral 3), 5)) :=
  parseExpression_left_assoc tokensOneMinusTwoMinusThree 0 1 3 5 (.NumberLiteral 1)
    (.NumberLiteral 2) (.NumberLiteral 3) ⟨TOKEN_MINUS, "-"⟩ ⟨TOKEN_MINUS, "-"⟩
    (Returns.of_eq (parsePrimary_mono _ _) (f := 1) (by decide) (by simp))
    (by decide)
    (Returns.of_eq (parsePrimary_mono _ _) (f := 1) (by decide) (by simp))
    (by decide)
    (Returns.of_eq (parsePrimary_mono _ _) (f := 1) (by decide) (by simp))
    (fun t ht => by
      have : t = ⟨TOKEN_EOF, ""⟩ := by
        simpa [tokensOneMinusTwoMinusThree] using ht.symm
      subst this; decide)
    (by decide) (by decide)

/-! ## The recursion budget of the statement parser -/

theorem parseAssignment_mono (tokens : List Token) (pos : Nat) (f : Nat) :
    (parseAssignment f tokens pos).le (parseAssignment (f + 1) tokens pos) := by
  cases f with
  | zero => exact Or.inl rfl
  | succ f =>
    rw [parseAssignment, parseAssignment]
    exact Res.bind_le (Res.le_refl _) fun _ => Res.bind_le (Res.le_refl _) fun _ =>
      Res.bind_le (parseExpression_mono _ _ _) fun _ => Res.le_refl _

theorem parsePrintStatement_mono (tokens : List Token) (pos : Nat) (f : Nat) :
    (parsePrintStatement f tokens pos).le (parsePrintStatement (f + 1) tokens pos) := by
  cases f with
  | zero => exact Or.inl rfl
  | succ f =>
    rw [parsePrintStatement, parsePrintStatement]
    exact Res.bind_le (parseExpression_mono _ _ _) fun _ => Res.le_refl _

/-- One more unit of budget changes no answer of the statement parser other than
`outOfFuel`. -/
theorem parseStatement_le_succ (f : Nat) :
    (∀ tokens pos, (parseStatement f tokens pos).le (parseStatement (f + 1) tokens pos)) ∧
    (∀ tokens pos, (parseIfStatement f tokens pos).le (parseIfStatement (f + 1) tokens pos)) ∧
    (∀ tokens pos,
      (parseWhileStatement f tokens pos).le (parseWhileStatement (f + 1) tokens pos)) ∧
    (∀ tokens pos, (parseBlock f tokens pos).le (parseBlock (f + 1) tokens pos)) ∧
    (∀ tokens pos stmts,
      (parseBlockLoop f tokens pos stmts).le (parseBlockLoop (f + 1) tokens pos stmts)) := by
  induction f with
  | zero =>
    exact ⟨fun _ _ => Or.inl rfl, fun _ _ => Or.inl rfl, fun _ _ => Or.inl rfl,
      fun _ _ => Or.inl rfl, fun _ _ _ => Or.inl rfl⟩
  | succ f ih =>
    obtain ⟨hS, hIf, hWh, hB, hBL⟩ := ih
    refine ⟨?_, ?_, ?_, ?_, ?_⟩
    · intro tokens pos
      rw [parseStatement, parseStatement]
      split
      · exact Res.le_refl _
      · split
        · exact Res.bind_le (parseAssignment_mono _ _ _) fun _ => Res.le_refl _
        · exact Res.bind_le (parsePrintStatement_mono _ _ _) fun _ => Res.le_refl _
        · exact Res.bind_le (hIf _ _) fun _ => Res.le_refl _
        · exact Res.bind_le (hWh _ _) fun _ => Res.le_refl _
        · exact Res.le_refl _
    · intro tokens pos
      rw [parseIfStatement, parseIfStatement]
      refine Res.bind_le (Res.le_refl _) fun _ => Res.bind_le (parseExpression_mono _ _ _)
        fun c => Res.bind_le (Res.le_refl _) fun _ => Res.bind_le (hB _ _) fun th => ?_
      split
      · exact Res.le_refl _
      · split
        · exact Res.bind_le (hB _ _) fun _ => Res.le_refl _
        · exact Res.le_refl _
    · intro tokens pos
      rw [parseWhileStatement, parseWhileStatement]
      exact Res.bind_le (Res.le_refl _) fun _ => Res.bind_le (parseExpression_mono _ _ _)
        fun c => Res.bind_le (Res.le_refl _) fun _ => Res.bind_le (hB _ _) fun _ =>
          Res.le_refl _
    · intro tokens pos
      rw [parseBlock, parseBlock]
      exact Res.bind_le (Res.le_refl _) fun _ => Res.bind_le (hBL _ _ _) fun _ =>
        Res.le_refl _
    · intro tokens pos stmts
      rw [parseBlockLoop, parseBlockLoop]
      split
      · exact Res.le_refl _
      · split
        · exact Res.le_refl _
        · exact Res.bind_le (hS _ _) fun _ => hBL _ _ _

theorem parseStatement_mono (tokens : List Token) (pos : Nat) (f : Nat) :
    (parseStatement f tokens pos).le (parseStatement (f + 1) tokens pos) :=
  (parseStatement_le_succ f).1 tokens pos

theorem parseBlock_mono (tokens : List Token) (pos : Nat) (f : Nat) :
    (parseBlock f tokens pos).le (parseBlock (f + 1) tokens pos) :=
  (parseStatement_le_succ f).2.2.2.1 tokens pos

theorem parseBlockLoop_mono (tokens : List Token) (pos : Nat) (stmts : List Statement)
    (f : Nat) :
    (parseBlockLoop f tokens pos stmts).le (parseBlockLoop (f + 1) tokens pos stmts) :=
  (parseStatement_le_succ f).2.2.2.2 tokens pos stmts

/-- A run that answers `outOfFuel` for every budget from some budget on never returns. -/
theorem Diverges.of_le_succ {α : Type} {g : Nat → Res α} (h : ∀ f, (g f).le (g (f + 1)))
    {F₀ : Nat} (hF : ∀ F, F₀ ≤ F → g F = .outOfFuel) : Diverges g := by
  intro F
  by_contra hne
  have := Res.le_eq (Res.le_of_le_succ h (le_max_left F F₀)) hne
  rw [hF _ (le_max_right F F₀)] at this
  exact hne this.symm

/-- With the monotonicity in the budget, a run that returns `r` answers `r` or `outOfFuel`
at every budget. -/
theorem Returns.cases {α : Type} {g : Nat → Res α} (h : ∀ f, (g f).le (g (f + 1)))
    {r : Res α} (hr : Returns g r) (F : Nat) : g F = .outOfFuel ∨ g F = r := by
  obtain ⟨_, F₀, hF⟩ := hr
  have := Res.le_of_le_succ h (le_max_left F F₀)
  rw [hF _ (le_max_right F F₀)] at this
  exact this

/-! ## Tokens that start no statement -/

theorem tagAt_eq_some {tokens : List Token} {pos : Nat} {ty : TokenType}
    (h : tagAt tokens pos = some ty) : ∃ t, tokens[pos]? = some t ∧ t.Typ = ty := by
  unfold tagAt at h
  cases ht : tokens[pos]? with
  | none => simp [ht] at h
  | some t => exact ⟨t, rfl, by simpa [ht] using h⟩

theorem expect_ok {tokens : List Token} {pos : Nat} {ty : TokenType}
    (h : tagAt tokens pos = some ty) (msg : String) : expect tokens pos ty msg = .ok () := by
  obtain ⟨t, ht, hty⟩ := tagAt_eq_some h
  simp [expect, ht, hty]

theorem parseLoop_succ_enter {tokens : List Token} {pos : Nat} {ty : TokenType}
    (h : tagAt tokens pos = some ty) (hne : ty ≠ TOKEN_EOF) (f : Nat) (stmts : List Statement) :
    parseLoop (f + 1) tokens pos stmts =
      (parseStatement f tokens pos).bind fun r =>
        parseLoop f tokens r.2 (appendStmt stmts r.1) := by
  obtain ⟨t, ht, hty⟩ := tagAt_eq_some h
  rw [parseLoop]
  simp only [ht, hty, hne, if_false]

theorem parseBlockLoop_succ_enter {tokens : List Token} {pos : Nat} {ty : TokenType}
    (h : tagAt tokens pos = some ty) (hne : ty ≠ TOKEN_RBRACE) (f : Nat)
    (stmts : List Statement) :
    parseBlockLoop (f + 1) tokens pos stmts =
      (parseStatement f tokens pos).bind fun r =>
        parseBlockLoop f tokens r.2 (appendStmt stmts r.1) := by
  obtain ⟨t, ht, hty⟩ := tagAt_eq_some h
  rw [parseBlockLoop]
  simp only [ht, hty, hne, if_false]

theorem parseStatement_succ_ident {tokens : List Token} {pos : Nat}
    (h : tagAt tokens pos = some TOKEN_IDENT) (f : Nat) :
    parseStatement (f + 1) tokens pos =
      (parseAssignment f tokens pos).bind fun r => .ok (some r.1, r.2) := by
  obtain ⟨t, ht, hty⟩ := tagAt_eq_some h
  rw [parseStatement]
  simp only [ht, hty]

theorem parseStatement_succ_print {tokens : List Token} {pos : Nat}
    (h : tagAt tokens pos = some TOKEN_PRINT) (f : Nat) :
    parseStatement (f + 1) tokens pos =
      (parsePrintStatement f tokens pos).bind fun r => .ok (some r.1, r.2) := by
  obtain ⟨t, ht, hty⟩ := tagAt_eq_some h
  rw [parseStatement]
  simp only [ht, hty]

theorem parseStatement_succ_if {tokens : List Token} {pos : Nat}
    (h : tagAt tokens pos = some TOKEN_IF) (f : Nat) :
    parseStatement (f + 1) tokens pos =
      (parseIfStatement f tokens pos).bind fun r => .ok (some r.1, r.2) := by
  obtain ⟨t, ht, hty⟩ := tagAt_eq_some h
  rw [parseStatement]
  simp only [ht, hty]

theorem parseStatement_succ_while {tokens : List Token} {pos : Nat}
    (h : tagAt tokens pos = some TOKEN_WHILE) (f : Nat) :
    parseStatement (f + 1) tokens pos =
      (parseWhileStatement f tokens pos).bind fun r => .ok (some r.1, r.2) := by
  obtain ⟨t, ht, hty⟩ := tagAt_eq_some h
  rw [parseStatement]
  simp only [ht, hty]

/-- On a tag that starts no statement `parseStatement` returns nil and leaves the cursor where
it is. -/
theorem parseStatement_stray {tokens : List Token} {pos : Nat} {ty : TokenType}
    (h : tagAt tokens pos = some ty) (hs : startsStatement ty = false) (f : Nat) :
    parseStatement (f + 1) tokens pos = .ok (none, pos) := by
  obtain ⟨t, ht, rfl⟩ := tagAt_eq_some h
  rw [parseStatement]
  simp only [ht]
  cases hty : t.Typ <;> simp [startsStatement, hty] at hs ⊢

/-- The loop of `Parse` never leaves a token that starts no statement and is not the end
marker. -/
theorem parseLoop_stray_diverges {tokens : List Token} {pos : Nat} {ty : TokenType}
    (h : tagAt tokens pos = some ty) (hs : startsStatement ty = false) (he : ty ≠ TOKEN_EOF) :
    ∀ (f : Nat) (stmts : List Statement), parseLoop f tokens pos stmts = .outOfFuel := by
  intro f
  induction f with
  | zero => intro _; rfl
  | succ f ih =>
    intro stmts
    rw [parseLoop_succ_enter h he]
    cases f with
    | zero => rfl
    | succ f =>
      rw [parseStatement_stray h hs, Res.bind_ok]
      exact ih stmts

/-- The loop of `parseBlock` never leaves a token that starts no statement and is not the
closing brace; the end marker is such a token. -/
theorem parseBlockLoop_stray_diverges {tokens : List Token} {pos : Nat} {ty : TokenType}
    (h : tagAt tokens pos = some ty) (hs : startsStatement ty = false)
    (he : ty ≠ TOKEN_RBRACE) :
    ∀ (f : Nat) (stmts : List Statement), parseBlockLoop f tokens pos stmts = .outOfFuel := by
  intro f
  induction f with
  | zero => intro _; rfl
  | succ f ih =>
    intro stmts
    rw [parseBlockLoop_succ_enter h he]
    cases f with
    | zero => rfl
    | succ f =>
      rw [parseStatement_stray h hs, Res.bind_ok]
      exact ih stmts

/-- A while statement at the start of the tokens whose block loop never returns keeps `Parse`
from returning. -/
theorem Parse_diverges_of_while_block {tokens : List Token} {c : Expression} {q : Nat}
    (hwh : tagAt tokens 0 = some TOKEN_WHILE) (hlp : tagAt tokens 1 = some TOKEN_LPAREN)
    (hc : Returns (fun F => parseExpression F tokens 2) (.ok (c, q)))
    (hrp : tagAt tokens q = some TOKEN_RPAREN) (hlb : tagAt tokens (q + 1) = some TOKEN_LBRACE)
    (hloop : ∀ f, parseBlockLoop f tokens (q + 2) [] = .outOfFuel) :
    Diverges (fun F => Parse F tokens) := by
  have hBlock : ∀ f, parseBlock f tokens (q + 1) = .outOfFuel := by
    intro f
    cases f with
    | zero => rfl
    | succ f => rw [parseBlock, expect_ok hlb, Res.bind_ok, hloop f, Res.bind_outOfFuel]
  have hWhile : ∀ f, parseWhileStatement f tokens 0 = .outOfFuel := by
    intro f
    cases f with
    | zero => rfl
    | succ f =>
      rw [parseWhileStatement, expect_ok hlp, Res.bind_ok]
      rcases Returns.cases (parseExpression_mono _ _) hc f with h | h
      · rw [h, Res.bind_outOfFuel]
      · rw [h, Res.bind_ok, expect_ok hrp, Res.bind_ok, hBlock f, Res.bind_outOfFuel]
  intro F
  show parseLoop F tokens 0 [] = .outOfFuel
  cases F with
  | zero => rfl
  | succ F =>
    rw [parseLoop_succ_enter hwh (by decide)]
    cases F with
    | zero => rfl
    | succ F =>
      rw [parseStatement_succ_while hwh, hWhile F, Res.bind_outOfFuel, Res.bind_outOfFuel]

/-- C7. The source `;` lexes to a semicolon and the end marker, and `Parse` never returns on
these tokens: `parseStatement` returns nil without moving the cursor and the loop of `Parse`
calls it again at the same token. The same holds for `; x = 1;`, and for a stray token inside
a block, as in `while (x) { ; }`. The specification states that the stray token is skipped and
parsing goes on with the next token. -/
theorem Parse_stray_semicolon_diverges :
    Tokenize ";" = .ok tokensSemicolon ∧
    Diverges (fun F => Parse F tokensSemicolon) ∧
    Tokenize "; x = 1;" = .ok tokensSemicolonAssign ∧
    Diverges (fun F => Parse F tokensSemicolonAssign) ∧
    Tokenize "while (x) \x7b ; \x7d" = .ok tokensStrayInBlock ∧
    Diverges (fun F => Parse F tokensStrayInBlock) :=
  ⟨by decide,
    fun F => parseLoop_stray_diverges (show tagAt _ 0 = some TOKEN_SEMICOLON by decide)
      (by decide) (by decide) F [],
    by decide,
    fun F => parseLoop_stray_diverges (show tagAt _ 0 = some TOKEN_SEMICOLON by decide)
      (by decide) (by decide) F [],
    by decide,
    Parse_diverges_of_while_block (c := .Identifier "x") (q := 3) (by decide) (by decide)
      (Returns.of_eq (parseExpression_mono _ _) (f := 8) (by decide) nofun)
      (by decide) (by decide)
      (fun f => parseBlockLoop_stray_diverges
        (show tagAt tokensStrayInBlock 5 = some TOKEN_SEMICOLON by decide) (by decide)
        (by decide) f [])⟩

/-- C9. The source `while (x) { x = 1;` lexes to ten tokens, and `Parse` never returns on
them: after the assignment the loop of `parseBlock` stands on the end marker, which is not a
closing brace and starts no statement, so `parseStatement` is called there again and again.
The specification states that `Parse` fails with a `ParseError`. -/
theorem Parse_missing_brace_diverges :
    Tokenize "while (x) \x7b x = 1;" = .ok tokensOpenWhile ∧
    Diverges (fun F => Parse F tokensOpenWhile) := by
  refine ⟨by decide, ?_⟩
  have hEnd : ∀ (f : Nat) (stmts : List Statement),
      parseBlockLoop f tokensOpenWhile 9 stmts = .outOfFuel :=
    parseBlockLoop_stray_diverges (show tagAt _ 9 = some TOKEN_EOF by decide) (by decide)
      (by decide)
  have hStmt : Returns (fun F => parseStatement F tokensOpenWhile 5)
      (.ok (some (.AssignmentStatement "x" (.NumberLiteral 1)), 9)) :=
    Returns.of_eq (parseStatement_mono _ _) (f := 10) (by rfl) nofun
  refine Parse_diverges_of_while_block (c := .Identifier "x") (q := 3) (by decide) (by decide)
    (Returns.of_eq (parseExpression_mono _ _) (f := 8) (by decide) nofun)
    (by decide) (by decide) fun f => ?_
  cases f with
  | zero => rfl
  | succ f =>
    rw [parseBlockLoop_succ_enter (show tagAt _ 5 = some TOKEN_IDENT by decide) (by decide)]
    rcases Returns.cases (parseStatement_mono _ _) hStmt f with h | h
    · rw [h, Res.bind_outOfFuel]
    · rw [h, Res.bind_ok]
      exact hEnd f _

/-- C8. The pipeline of `main` never returns on the source `;`, whatever the platform:
`Tokenize` returns the semicolon and the end marker and `Parse` loops on the semicolon. The
specification states that compilation terminates on every source text. -/
theorem compileSource_semicolon_diverges (os arch : String) :
    Diverges (fun F => compileSource F ";" os arch) := by
  intro F
  show ((Tokenize ";").bind fun tokens => (Parse F tokens).bind fun program =>
    Compile (NewCompiler os arch) program) = .outOfFuel
  have h1 : Tokenize ";" = .ok tokensSemicolon := by decide
  have h2 : Parse F tokensSemicolon = .outOfFuel :=
    parseLoop_stray_diverges (show tagAt _ 0 = some TOKEN_SEMICOLON by decide) (by decide) (by decide) F []
  rw [h1, Res.bind_ok, h2, Res.bind_outOfFuel]

/-! ## Failures of a statement abort `Parse` -/

theorem scanWhile_ge (p : Char → Bool) (input : List Char) (fuel : Nat) :
    ∀ pos, pos ≤ scanWhile p input fuel pos := by
  induction fuel with
  | zero => intro pos; exact le_rfl
  | succ fuel ih =>
    intro pos
    rw [scanWhile]
    split
    · split
      · exact Nat.le_of_succ_le (ih (pos + 1))
      · exact le_rfl
    · exact le_rfl

theorem scanWhile_first {p : Char → Bool} {input : List Char} {pos : Nat} {c : Char}
    (h : input[pos]? = some c) (hp : p c = true) (fuel : Nat) :
    pos + 1 ≤ scanWhile p input (fuel + 1) pos := by
  rw [scanWhile]
  simp only [h, hp, if_true]
  exact scanWhile_ge p input fuel (pos + 1)

/-- When every byte from the cursor on satisfies `p`, the scan ends at the end of the
input. -/
theorem scanWhile_all {p : Char → Bool} {input : List Char}
    (hp : ∀ c ∈ input, p c = true) (fuel : Nat) :
    ∀ pos, pos ≤ input.length → input.length - pos ≤ fuel →
      scanWhile p input fuel pos = input.length := by
  induction fuel with
  | zero =>
    intro pos h1 h2
    rw [scanWhile]
    omega
  | succ fuel ih =>
    intro pos h1 h2
    rw [scanWhile]
    cases hc : input[pos]? with
    | none =>
      have := List.getElem?_eq_none_iff.1 hc
      simp only
      omega
    | some c =>
      have hlt : pos < input.length := by
        by_contra hge
        rw [List.getElem?_eq_none_iff.2 (by omega)] at hc
        cases hc
      have hmem : c ∈ input := List.getElem?_mem hc
      simp only [hp c hmem, if_true]
      exact ih (pos + 1) hlt (by omega)

/-- The scan depends on the input only from the cursor on. -/
theorem scanWhile_drop (p : Char → Bool) (input : List Char) (fuel : Nat) :
    ∀ start pos, scanWhile p input fuel (start + pos) =
      start + scanWhile p (input.drop start) fuel pos := by
  induction fuel with
  | zero => intro start pos; rfl
  | succ fuel ih =>
    intro start pos
    rw [scanWhile, scanWhile, List.getElem?_drop]
    cases input[start + pos]? with
    | none => rfl
    | some c =>
      simp only
      split
      · rw [← ih start (pos + 1)]
        rfl
      · rfl

theorem ite_cases {α : Type} {c : Prop} [Decidable c] {a b r : α} {P : Prop}
    (h : (if c then a else b) = r) (ha : c → a = r → P) (hb : ¬c → b = r → P) : P := by
  by_cases hc : c
  · rw [if_pos hc] at h; exact ha hc h
  · rw [if_neg hc] at h; exact hb hc h

/-- Every iteration of the loop of `Tokenize` that does not panic moves the cursor forward. -/
theorem lexStep_advances {input : List Char} {pos : Nat} {c : Char}
    {r : Option Token × Nat} (hc : input[pos]? = some c) (h : lexStep input pos c = .ok r) :
    pos < r.2 := by
  have hlt : pos < input.length := by
    by_contra hge
    rw [List.getElem?_eq_none_iff.2 (by omega)] at hc
    cases hc
  obtain ⟨n, hn⟩ : ∃ n, input.length - pos = n + 1 := ⟨input.length - pos - 1, by omega⟩
  unfold lexStep at h
  refine ite_cases h (fun _ h => ?_) (fun _ h => ?_)
  · cases h; exact Nat.lt_succ_self pos
  refine ite_cases h (fun hl h => ?_) (fun _ h => ?_)
  · cases h
    simp only [readIdentifier, hn]
    exact scanWhile_first hc (by simp [hl]) n
  refine ite_cases h (fun hd h => ?_) (fun _ h => ?_)
  · cases h
    simp only [readNumber, hn]
    exact scanWhile_first hc hd n
  refine ite_cases h (fun _ h => ?_) (fun _ h => ?_)
  · unfold readString at h
    have := scanWhile_ge (fun c => c != '"') input (input.length - (pos + 1)) (pos + 1)
    by_cases hs : scanWhile (fun c => c != '"') input (input.length - (pos + 1)) (pos + 1) =
        input.length
    · simp only [hs, if_true] at h
      cases h
    · simp only [hs, if_false] at h
      cases h
      show pos < _ + 1
      omega
  repeat' refine ite_cases h (fun _ h => ?_) (fun _ h => ?_)
  all_goals first
    | (cases h; done)
    | (cases h; exact Nat.lt_succ_self pos)
    | (cases h; exact Nat.lt_succ_of_lt (Nat.lt_succ_self pos))
/-- The loop of `Tokenize`, started with a budget that exceeds the budget `F` by the number of
iterations made, arrives at every state the scan reaches with the budget `F` left; the
iterations made are at most the cursor. -/
theorem ScanReaches.loop_eq {input : List Char} {pos : Nat} {tokens : List Token}
    (h : ScanReaches input pos tokens) :
    ∃ k, k ≤ pos ∧ ∀ F, tokenizeLoop input (F + k) 0 [] = tokenizeLoop input F pos tokens := by
  induction h with
  | start => exact ⟨0, le_rfl, fun F => rfl⟩
  | @step pos tokens c r _ hc hr ih =>
    obtain ⟨k, hk, hF⟩ := ih
    refine ⟨k + 1, by have := lexStep_advances hc hr; omega, fun F => ?_⟩
    rw [← Nat.add_assoc, Nat.add_right_comm, hF (F + 1), tokenizeLoop]
    simp only [hc, hr]

/-! ## Unterminated string -/

/-- C6. Unterminated string: when the loop of `Tokenize` comes to stand on a `"` and no `"`
occurs in the rest of the input, `Tokenize` fails with the `LexError` of the unterminated
string; no token sequence is returned. -/
theorem Tokenize_unterminated_string (input : String) (pos : Nat) (tokens : List Token)
    (hreach : ScanReaches input.data pos tokens)
    (hquote : input.data[pos]? = some '"')
    (hrest : '"' ∉ input.data.drop (pos + 1)) :
    Tokenize input = .fail (.LexError "Unterminated string") := by
  have hlt : pos < input.data.length := by
    by_contra hge
    rw [List.getElem?_eq_none_iff.2 (by omega)] at hquote
    cases hquote
  have hstop : scanWhile (fun c => c != '"') input.data (input.data.length - (pos + 1))
      (pos + 1) = input.data.length := by
    have h0 := scanWhile_drop (fun c => c != '"') input.data
      (input.data.length - (pos + 1)) (pos + 1) 0
    rw [Nat.add_zero] at h0
    rw [h0, @scanWhile_all (fun c => c != '"') (input.data.drop (pos + 1))
      (fun c hc => by
        have : c ≠ '"' := fun h => hrest (h ▸ hc)
        simpa using this)
      _ 0 (Nat.zero_le _) (by simp)]
    simp only [List.length_drop]
    omega
  have hstep : lexStep input.data pos '"' = .fail (.LexError "Unterminated string") := by
    have h1 : isSpace '"' = false := by decide
    have h2 : isLetter '"' = false := by decide
    have h3 : isDigit '"' = false := by decide
    simp only [lexStep, h1, h2, h3, Bool.false_eq_true, if_false, if_true, readString, hstop]
  obtain ⟨k, hk, hF⟩ := hreach.loop_eq
  obtain ⟨n, hn⟩ : ∃ n, input.data.length = (n + 1) + k :=
    ⟨input.data.length - k - 1, by omega⟩
  unfold Tokenize
  rw [hn, hF (n + 1), tokenizeLoop]
  simp only [hquote, hstep]

/-- C6 at the source `print "hello`: the scan reads the keyword and the blank, stands on the
quote at cursor 6, and `Tokenize` fails with the `LexError`. -/
theorem Tokenize_unterminated_string_witness :
    Tokenize "print \"hello" = .fail (.LexError "Unterminated string") :=
  Tokenize_unterminated_string "print \"hello" 6 [⟨TOKEN_PRINT, "print"⟩]
    (ScanReaches.step (c := ' ') (r := (none, 6))
      (ScanReaches.step (c := 'p') (r := (some ⟨TOKEN_PRINT, "print"⟩, 5))
        ScanReaches.start (by decide) (by decide))
      (by decide) (by decide))
    (by decide) (by decide)

/-! ## Returning runs of the statement parser -/

theorem parseAssignment_returns {tokens : List Token} {pos q : Nat} {t : Token} {e : Expression}
    (ht : tokens[pos]? = some t) (hid : t.Typ = TOKEN_IDENT)
    (has : tagAt tokens (pos + 1) = some TOKEN_ASSIGN)
    (he : Returns (fun F => parseExpression F tokens (pos + 2)) (.ok (e, q)))
    (hs : tagAt tokens q = some TOKEN_SEMICOLON) :
    Returns (fun F => parseStatement F tokens pos)
      (.ok (some (.AssignmentStatement t.Value e), q + 1)) := by
  obtain ⟨_, F₁, h₁⟩ := he
  beta_reduce at h₁
  refine ⟨nofun, F₁ + 2, fun F hF => ?_⟩
  obtain ⟨F', rfl⟩ : ∃ F', F = F' + 2 := ⟨F - 2, by omega⟩
  show parseStatement (F' + 1 + 1) tokens pos = _
  rw [parseStatement_succ_ident (by simp [tagAt, ht, hid]), parseAssignment]
  simp only [tokenAt, ht, Res.bind_ok]
  rw [expect_ok has, Res.bind_ok, h₁ F' (by omega), Res.bind_ok, expect_ok hs, Res.bind_ok,
    Res.bind_ok]

theorem parsePrintStatement_returns {tokens : List Token} {pos q : Nat} {e : Expression}
    (hpr : tagAt tokens pos = some TOKEN_PRINT)
    (he : Returns (fun F => parseExpression F tokens (pos + 1)) (.ok (e, q)))
    (hs : tagAt tokens q = some TOKEN_SEMICOLON) :
    Returns (fun F => parseStatement F tokens pos) (.ok (some (.PrintStatement e), q + 1)) := by
  obtain ⟨_, F₁, h₁⟩ := he
  beta_reduce at h₁
  refine ⟨nofun, F₁ + 2, fun F hF => ?_⟩
  obtain ⟨F', rfl⟩ : ∃ F', F = F' + 2 := ⟨F - 2, by omega⟩
  show parseStatement (F' + 1 + 1) tokens pos = _
  rw [parseStatement_succ_print hpr, parsePrintStatement, h₁ F' (by omega), Res.bind_ok,
    expect_ok hs, Res.bind_ok, Res.bind_ok]

theorem parseBlockLoop_returns_stop {tokens : List Token} {pos : Nat}
    (h : tagAt tokens pos = some TOKEN_RBRACE) (stmts : List Statement) :
    Returns (fun F => parseBlockLoop F tokens pos stmts) (.ok (stmts, pos)) := by
  obtain ⟨t, ht, hty⟩ := tagAt_eq_some h
  refine ⟨nofun, 1, fun F hF => ?_⟩
  obtain ⟨F', rfl⟩ : ∃ F', F = F' + 1 := ⟨F - 1, by omega⟩
  show parseBlockLoop (F' + 1) tokens pos stmts = _
  rw [parseBlockLoop]
  simp only [ht, hty, if_true]

theorem parseBlockLoop_returns_step {tokens : List Token} {pos pos' : Nat} {ty : TokenType}
    {s : Option Statement} {stmts : List Statement} {r : Res (List Statement × Nat)}
    (h : tagAt tokens pos = some ty) (hne : ty ≠ TOKEN_RBRACE)
    (hs : Returns (fun F => parseStatement F tokens pos) (.ok (s, pos')))
    (hl : Returns (fun F => parseBlockLoop F tokens pos' (appendStmt stmts s)) r) :
    Returns (fun F => parseBlockLoop F tokens pos stmts) r :=
  Returns.bind_of_ok 1 (fun F => parseBlockLoop_succ_enter h hne F stmts) hs hl

theorem parseBlock_returns {tokens : List Token} {pos q : Nat} {stmts : List Statement}
    (h : tagAt tokens pos = some TOKEN_LBRACE)
    (hl : Returns (fun F => parseBlockLoop F tokens (pos + 1) []) (.ok (stmts, q))) :
    Returns (fun F => parseBlock F tokens pos) (.ok (stmts, q + 1)) := by
  obtain ⟨_, F₁, h₁⟩ := hl
  beta_reduce at h₁
  refine ⟨nofun, F₁ + 1, fun F hF => ?_⟩
  obtain ⟨F', rfl⟩ : ∃ F', F = F' + 1 := ⟨F - 1, by omega⟩
  show parseBlock (F' + 1) tokens pos = _
  rw [parseBlock, expect_ok h, Res.bind_ok, h₁ F' (by omega), Res.bind_ok]

theorem parseWhileStatement_returns {tokens : List Token} {pos q q' : Nat} {c : Expression}
    {body : List Statement}
    (hwh : tagAt tokens pos = some TOKEN_WHILE)
    (hlp : tagAt tokens (pos + 1) = some TOKEN_LPAREN)
    (hc : Returns (fun F => parseExpression F tokens (pos + 2)) (.ok (c, q)))
    (hrp : tagAt tokens q = some TOKEN_RPAREN)
    (hb : Returns (fun F => parseBlock F tokens (q + 1)) (.ok (body, q'))) :
    Returns (fun F => parseStatement F tokens pos)
      (.ok (some (.WhileStatement c (some body)), q')) := by
  obtain ⟨_, F₁, h₁⟩ := hc
  obtain ⟨_, F₂, h₂⟩ := hb
  beta_reduce at h₁ h₂
  refine ⟨nofun, max F₁ F₂ + 2, fun F hF => ?_⟩
  obtain ⟨F', rfl⟩ : ∃ F', F = F' + 2 := ⟨F - 2, by omega⟩
  show parseStatement (F' + 1 + 1) tokens pos = _
  rw [parseStatement_succ_while hwh, parseWhileStatement, expect_ok hlp, Res.bind_ok,
    h₁ F' (by omega), Res.bind_ok, expect_ok hrp, Res.bind_ok, h₂ F' (by omega), Res.bind_ok,
    Res.bind_ok]

theorem parseIfStatement_returns {tokens : List Token} {pos q q' : Nat} {c : Expression}
    {th : List Statement}
    (hif : tagAt tokens pos = some TOKEN_IF)
    (hlp : tagAt tokens (pos + 1) = some TOKEN_LPAREN)
    (hc : Returns (fun F => parseExpression F tokens (pos + 2)) (.ok (c, q)))
    (hrp : tagAt tokens q = some TOKEN_RPAREN)
    (hb : Returns (fun F => parseBlock F tokens (q + 1)) (.ok (th, q')))
    (hel : tagAt tokens q' ≠ some TOKEN_ELSE) :
    Returns (fun F => parseStatement F tokens pos)
      (.ok (some (.IfStatement c (some th) none), q')) := by
  obtain ⟨_, F₁, h₁⟩ := hc
  obtain ⟨_, F₂, h₂⟩ := hb
  beta_reduce at h₁ h₂
  refine ⟨nofun, max F₁ F₂ + 2, fun F hF => ?_⟩
  obtain ⟨F', rfl⟩ : ∃ F', F = F' + 2 := ⟨F - 2, by omega⟩
  show parseStatement (F' + 1 + 1) tokens pos = _
  rw [parseStatement_succ_if hif, parseIfStatement, expect_ok hlp, Res.bind_ok,
    h₁ F' (by omega), Res.bind_ok, expect_ok hrp, Res.bind_ok, h₂ F' (by omega), Res.bind_ok]
  cases ht : tokens[q']? with
  | none => rfl
  | some t =>
    have : t.Typ ≠ TOKEN_ELSE := fun h => hel (by simp [tagAt, ht, h])
    simp only [this, if_false, Res.bind_ok]

theorem parseIfStatement_returns_else {tokens : List Token} {pos q q' q'' : Nat}
    {c : Expression} {th el : List Statement}
    (hif : tagAt tokens pos = some TOKEN_IF)
    (hlp : tagAt tokens (pos + 1) = some TOKEN_LPAREN)
    (hc : Returns (fun F => parseExpression F tokens (pos + 2)) (.ok (c, q)))
    (hrp : tagAt tokens q = some TOKEN_RPAREN)
    (hb : Returns (fun F => parseBlock F tokens (q + 1)) (.ok (th, q')))
    (hel : tagAt tokens q' = some TOKEN_ELSE)
    (he : Returns (fun F => parseBlock F tokens (q' + 1)) (.ok (el, q''))) :
    Returns (fun F => parseStatement F tokens pos)
      (.ok (some (.IfStatement c (some th) (some el)), q'')) := by
  obtain ⟨_, F₁, h₁⟩ := hc
  obtain ⟨_, F₂, h₂⟩ := hb
  obtain ⟨_, F₃, h₃⟩ := he
  obtain ⟨t, ht, hty⟩ := tagAt_eq_some hel
  beta_reduce at h₁ h₂ h₃
  refine ⟨nofun, max F₁ (max F₂ F₃) + 2, fun F hF => ?_⟩
  obtain ⟨F', rfl⟩ : ∃ F', F = F' + 2 := ⟨F - 2, by omega⟩
  show parseStatement (F' + 1 + 1) tokens pos = _
  rw [parseStatement_succ_if hif, parseIfStatement, expect_ok hlp, Res.bind_ok,
    h₁ F' (by omega), Res.bind_ok, expect_ok hrp, Res.bind_ok, h₂ F' (by omega), Res.bind_ok]
  simp only [ht, hty, if_true]
  rw [h₃ F' (by omega), Res.bind_ok, Res.bind_ok]

theorem parseLoop_returns_stop {tokens : List Token} {pos : Nat}
    (h : tagAt tokens pos = some TOKEN_EOF) (stmts : List Statement) :
    Returns (fun F => parseLoop F tokens pos stmts) (.ok ⟨stmts⟩) := by
  obtain ⟨t, ht, hty⟩ := tagAt_eq_some h
  refine ⟨nofun, 1, fun F hF => ?_⟩
  obtain ⟨F', rfl⟩ : ∃ F', F = F' + 1 := ⟨F - 1, by omega⟩
  show parseLoop (F' + 1) tokens pos stmts = _
  rw [parseLoop]
  simp only [ht, hty, if_true]

theorem parseLoop_returns_step {tokens : List Token} {pos pos' : Nat} {ty : TokenType}
    {s : Option Statement} {stmts : List Statement} {r : Res Program}
    (h : tagAt tokens pos = some ty) (hne : ty ≠ TOKEN_EOF)
    (hs : Returns (fun F => parseStatement F tokens pos) (.ok (s, pos')))
    (hl : Returns (fun F => parseLoop F tokens pos' (appendStmt stmts s)) r) :
    Returns (fun F => parseLoop F tokens pos stmts) r :=
  Returns.bind_of_ok 1 (fun F => parseLoop_succ_enter h hne F stmts) hs hl

/-! ## End to end -/

/-- The tokens of the end-to-end example parse to its program. -/
theorem Parse_while_example :
    Returns (fun F => Parse F whileExampleTokens) (.ok whileExampleProgram) := by
  have e1 : Returns (fun F => parseExpression F whileExampleTokens 2)
      (.ok (.NumberLiteral 1, 3)) :=
    Returns.of_eq (parseExpression_mono _ _) (f := 8) (by decide) nofun
  have e2 : Returns (fun F => parseExpression F whileExampleTokens 6)
      (.ok (.BinaryExpression (.Identifier "x") TOKEN_LT (.NumberLiteral 3), 9)) :=
    Returns.of_eq (parseExpression_mono _ _) (f := 9) (by decide) nofun
  have e3 : Returns (fun F => parseExpression F whileExampleTokens 12)
      (.ok (.Identifier "x", 13)) :=
    Returns.of_eq (parseExpression_mono _ _) (f := 8) (by decide) nofun
  have e4 : Returns (fun F => parseExpression F whileExampleTokens 16)
      (.ok (.BinaryExpression (.Identifier "x") TOKEN_PLUS (.NumberLiteral 1), 19)) :=
    Returns.of_eq (parseExpression_mono _ _) (f := 9) (by decide) nofun
  have s1 := parseAssignment_returns (t := ⟨TOKEN_IDENT, "x"⟩)
    (show whileExampleTokens[0]? = _ by decide) (by decide) (by decide) e1 (by decide)
  have s3 := parsePrintStatement_returns
    (show tagAt whileExampleTokens 11 = _ by decide) e3 (by decide)
  have s4 := parseAssignment_returns (t := ⟨TOKEN_IDENT, "x"⟩)
    (show whileExampleTokens[14]? = _ by decide) (by decide) (by decide) e4 (by decide)
  have b := parseBlock_returns (show tagAt whileExampleTokens 10 = _ by decide)
    (parseBlockLoop_returns_step (show tagAt _ 11 = some TOKEN_PRINT by decide) (by decide) s3
      (parseBlockLoop_returns_step (show tagAt _ 14 = some TOKEN_IDENT by decide) (by decide)
        s4 (parseBlockLoop_returns_stop (by decide) _)))
  have s2 := parseWhileStatement_returns (show tagAt whileExampleTokens 4 = _ by decide)
    (by decide) e2 (by decide) b
  exact parseLoop_returns_step (show tagAt _ 0 = some TOKEN_IDENT by decide) (by decide) s1
    (parseLoop_returns_step (show tagAt _ 4 = some TOKEN_WHILE by decide) (by decide) s2
      (parseLoop_returns_stop (by decide) _))

/-- C10. End to end: on the source `x = 1; while (x < 3) { print x; x = x + 1; }` and the
platform `linux` the pipeline returns the 22 lines of `whileExampleLines`, and these contain,
in this order, the start label, the comparison with the loop bound, the conditional exit jump,
the print call, the increment, the back jump and the exit sequence of linux. -/
theorem compileSourceLines_while_example (arch : String) :
    Returns (fun F => compileSourceLines F whileExampleSource "linux" arch)
      (.ok whileExampleLines) ∧
    List.Sublist ["label_1:", "    cmp eax, 3", "    je label_2", "    call print_int",
      "    add eax, 1", "    jmp label_1", "    mov eax, 60", "    xor edi, edi",
      "    syscall"] whileExampleLines := by
  refine ⟨?_, by decide⟩
  have hTok : Tokenize whileExampleSource = .ok whileExampleTokens := by decide
  obtain ⟨_, F₀, hF⟩ := Parse_while_example
  beta_reduce at hF
  refine ⟨nofun, F₀, fun F hle => ?_⟩
  show ((Tokenize whileExampleSource).bind fun tokens => (Parse F tokens).bind fun program =>
    (compileProgram (NewCompiler "linux" arch) program).bind fun c => .ok c.code) = _
  rw [hTok, Res.bind_ok, hF F hle, Res.bind_ok]
  simp only [compileProgram, generatePrologue, prologueLines, NewCompiler, Compiler.emitAll,
    compileStatements, compileStatement, compileAssignment, compileExpression, declare,
    compilePrint, compileBlock, nextLabel, compileOperator, Compiler.emit, generateEpilogue,
    epilogueLines, whileExampleProgram, Res.bind_ok, if_true, List.lookup, List.nil_append,
    List.append_assoc, List.cons_append]
  decide

/-! ## The code generator: labels and variable slots -/


theorem Res.bind_eq_ok {α β : Type} {x : Res α} {k : α → Res β} {b : β}
    (h : x.bind k = .ok b) : ∃ a, x = .ok a ∧ k a = .ok b := by
  cases x with
  | ok a => exact ⟨a, rfl, h⟩
  | fail e => cases h
  | outOfFuel => cases h

theorem digitChar_toNat : ∀ m, m < 10 → (Nat.digitChar m).toNat - 48 = m := by decide

theorem foldl_toDigitsCore (fuel : Nat) : ∀ (n : Nat) (ds : List Char), n < fuel →
    (Nat.toDigitsCore 10 fuel n ds).foldl (fun acc c => acc * 10 + (c.toNat - 48)) 0 =
      ds.foldl (fun acc c => acc * 10 + (c.toNat - 48)) n := by
  induction fuel with
  | zero => intro n ds h; omega
  | succ fuel ih =>
    intro n ds h
    rw [Nat.toDigitsCore]
    have hd := digitChar_toNat (n % 10) (Nat.mod_lt _ (by decide))
    split
    · rename_i h0
      simp only [List.foldl_cons, hd]
      congr 1
      omega
    · rename_i h0
      rw [ih (n / 10) _ (by omega)]
      simp only [List.foldl_cons, hd]
      congr 1
      omega

theorem digitsValue_repr (n : Nat) : digitsValue (Nat.repr n).data = n := by
  unfold digitsValue Nat.repr Nat.toDigits
  simp only [List.asString]
  rw [foldl_toDigitsCore (n + 1) n [] (Nat.lt_succ_self n)]
  rfl

theorem toString_nat_injective {m n : Nat} (h : toString m = toString n) : m = n := by
  have h' : Nat.repr m = Nat.repr n := h
  rw [← digitsValue_repr m, ← digitsValue_repr n, h']

theorem labelName_injective {m n : Nat} (h : labelName m = labelName n) : m = n := by
  unfold labelName at h
  apply toString_nat_injective
  have := congrArg String.data h
  simp only [String.data_append] at this
  exact String.ext (List.append_cancel_left this)

theorem labelLine_injective {m n : Nat} (h : labelLine m = labelLine n) : m = n := by
  unfold labelLine at h
  apply labelName_injective
  have := congrArg String.data h
  simp only [String.data_append] at this
  exact String.ext (List.append_cancel_right this)

theorem firstChar_labelLine (k : Nat) : firstChar (labelLine k) = some 'l' := rfl

theorem labelHits_nil (k : Nat) : labelHits k [] = 0 := rfl

theorem labelHits_append (k : Nat) (a b : List String) :
    labelHits k (a ++ b) = labelHits k a + labelHits k b := by
  simp [labelHits, List.count_append]

theorem labelHits_cons_label (k j : Nat) (l : List String) :
    labelHits k ((labelName j ++ ":") :: l) = (if j = k then 1 else 0) + labelHits k l := by
  unfold labelHits
  rw [List.count_cons]
  by_cases h : j = k
  · subst h
    simp [labelLine]
    omega
  · have : (labelName j ++ ":" == labelLine k) = false := by
      simp only [beq_eq_false_iff_ne]
      exact fun h' => h (labelLine_injective h')
    simp [this, h]

theorem labelHits_cons_other {x : String} {c : Char} (h : firstChar x = some c)
    (hc : c ≠ 'l') (k : Nat) (l : List String) : labelHits k (x :: l) = labelHits k l := by
  unfold labelHits
  rw [List.count_cons]
  have : (x == labelLine k) = false := by
    simp only [beq_eq_false_iff_ne]
    intro h'
    rw [h', firstChar_labelLine] at h
    cases h
    exact hc rfl
  simp [this]

theorem labelHits_cons_space {x : String} (h : firstChar x = some ' ') (k : Nat)
    (l : List String) : labelHits k (x :: l) = labelHits k l :=
  labelHits_cons_other h (by decide) k l


theorem Step.refl (c : Compiler) : Step c c [] 0 :=
  ⟨rfl, rfl, rfl, rfl, [], by simp, fun k => by
    rw [labelHits_nil, if_neg]; omega⟩

theorem Step.trans {c c₁ c₂ : Compiler} {names₁ names₂ : List String} {n₁ n₂ : Nat}
    (h₁ : Step c c₁ names₁ n₁) (h₂ : Step c₁ c₂ names₂ n₂) :
    Step c c₂ (names₁ ++ names₂) (n₁ + n₂) := by
  obtain ⟨new₁, hc₁, hl₁⟩ := h₁.code
  obtain ⟨new₂, hc₂, hl₂⟩ := h₂.code
  refine ⟨h₂.os.trans h₁.os, h₂.arch.trans h₁.arch, ?_, ?_, new₁ ++ new₂, ?_, fun k => ?_⟩
  · rw [h₂.vars, h₁.vars, List.foldl_append]
  · rw [h₂.labels, h₁.labels]; omega
  · rw [hc₂, hc₁, List.append_assoc]
  · rw [labelHits_append, hl₁ k, hl₂ k, h₁.labels]
    split_ifs <;> omega

/-- Taking `n` labels and appending lines that define exactly these labels. -/
theorem Step.of_lines {c c' : Compiler} (n : Nat) (lines : List String)
    (hv : c'.vars = c.vars) (hc : c'.code = c.code ++ lines)
    (hl : c'.labelCount = c.labelCount + n) (hos : c'.os = c.os) (harch : c'.arch = c.arch)
    (h : ∀ k, labelHits k lines = if c.labelCount < k ∧ k ≤ c.labelCount + n then 1 else 0) :
    Step c c' [] n :=
  ⟨hos, harch, hv, hl, lines, hc, h⟩

theorem compileOperator_step {c c' : Compiler} {op : TokenType} {right : String}
    (h : compileOperator c op right = .ok c') : Step c c' [] (operatorLabels 1 2 op) := by
  cases op
  all_goals first
    | (cases h; done)
    | skip
  all_goals
    cases h
    refine Step.of_lines _ _ rfl rfl rfl rfl rfl fun k => ?_
    repeat first
      | rw [labelHits_cons_space (by rfl)]
      | rw [labelHits_cons_label]
      | rw [labelHits_nil]
    simp only [operatorLabels, reduceCtorEq, if_true, if_false]
    split_ifs <;> omega

theorem compileExpression_step : ∀ (e : Expression) (c c' : Compiler) (v : String),
    compileExpression c e = .ok (v, c') → Step c c' [] (e.weigh 1 2)
  | .NumberLiteral _, c, c', v, h => by cases h; exact Step.refl c
  | .StringLiteral _, c, c', v, h => by cases h; exact Step.refl c
  | .BooleanLiteral _, c, c', v, h => by cases h; exact Step.refl c
  | .Identifier _, c, c', v, h => by cases h; exact Step.refl c
  | .nil, c, c', v, h => by cases h
  | .BinaryExpression l op r, c, c', v, h => by
    rw [compileExpression] at h
    obtain ⟨⟨vl, c₁⟩, hl, h⟩ := Res.bind_eq_ok h
    obtain ⟨⟨vr, c₂⟩, hr, h⟩ := Res.bind_eq_ok h
    obtain ⟨c₃, hop, h⟩ := Res.bind_eq_ok h
    cases h
    have s₁ := compileExpression_step l c c₁ vl hl
    have s₂ := compileExpression_step r c₁ c₂ vr hr
    have s₃ : Step c₂ (c₂.emit ("    mov eax, " ++ vl)) [] 0 :=
      Step.of_lines 0 _ rfl rfl rfl rfl rfl fun k => by
        rw [labelHits_cons_space (by rfl), labelHits_nil, if_neg]; omega
    have s₄ := compileOperator_step hop
    have := (s₁.trans s₂).trans (s₃.trans s₄)
    simpa [Expression.weigh, Nat.add_assoc] using this


theorem compileAssignment_step {c c' : Compiler} {ident : String} {value : Expression}
    (h : compileAssignment c ident value = .ok c') : Step c c' [ident] (value.weigh 1 2) := by
  unfold compileAssignment at h
  obtain ⟨⟨v, c₁⟩, hv, h⟩ := Res.bind_eq_ok h
  cases h
  have s₁ := compileExpression_step value c c₁ v hv
  obtain ⟨new, hc, hl⟩ := s₁.code
  refine ⟨s₁.os, s₁.arch, ?_, s₁.labels, new ++ ["    mov [var_" ++ ident ++ "], " ++ v], ?_,
    fun k => ?_⟩
  · show declare c₁.vars ident = _
    rw [s₁.vars]
    rfl
  · show c₁.code ++ _ = _
    rw [hc, List.append_assoc]
  · rw [labelHits_append, hl k, labelHits_cons_space (by rfl), labelHits_nil]
    rfl

theorem compilePrint_step {c c' : Compiler} {e : Expression}
    (h : compilePrint c e = .ok c') : Step c c' [] (e.weigh 1 2) := by
  unfold compilePrint at h
  obtain ⟨⟨v, c₁⟩, hv, h⟩ := Res.bind_eq_ok h
  cases h
  have s₁ := compileExpression_step e c c₁ v hv
  have s₂ : Step c₁ (c₁.emitAll ["    push " ++ v, "    call print_int", "    add esp, 4"])
      [] 0 :=
    Step.of_lines 0 _ rfl rfl rfl rfl rfl fun k => by
      rw [labelHits_cons_space (by rfl), labelHits_cons_space (by rfl),
        labelHits_cons_space (by rfl), labelHits_nil, if_neg]
      omega
  simpa using s₁.trans s₂

mutual

theorem compileStatement_step : ∀ (s : Statement) (c c' : Compiler),
    compileStatement c s = .ok c' → Step c c' s.assigned (s.weigh 2 2 1 2)
  | .AssignmentStatement ident value, c, c', h => by
    rw [compileStatement] at h
    simpa [Statement.assigned, Statement.weigh] using compileAssignment_step h
  | .PrintStatement e, c, c', h => by
    rw [compileStatement] at h
    simpa [Statement.assigned, Statement.weigh] using compilePrint_step h
  | .IfStatement cond t e, c, c', h => by
    rw [compileStatement] at h
    obtain ⟨⟨v, c₁⟩, hv, h⟩ := Res.bind_eq_ok h
    obtain ⟨c₅, hT, h⟩ := Res.bind_eq_ok h
    obtain ⟨c₇, hE, h⟩ := Res.bind_eq_ok h
    cases h
    have s₁ := compileExpression_step cond c c₁ v hv
    have sT := compileBlock_step t _ c₅ hT
    have sE := compileElse_step e _ c₇ hE
    obtain ⟨new₁, hc₁, hl₁⟩ := s₁.code
    obtain ⟨newT, hcT, hlT⟩ := sT.code
    obtain ⟨newE, hcE, hlE⟩ := sE.code
    have h1 := s₁.labels
    have hT' := sT.labels
    have hE' := sE.labels
    have hv1 := s₁.vars
    have hvT := sT.vars
    have hvE := sE.vars
    simp only [nextLabel, Compiler.emitAll, Compiler.emit] at *
    refine ⟨sE.os.trans (sT.os.trans s₁.os), sE.arch.trans (sT.arch.trans s₁.arch), ?_, ?_,
      new₁ ++ (["    cmp " ++ v ++ ", 0", "    je " ++ labelName (c₁.labelCount + 1)] ++
        (newT ++ (["    jmp " ++ labelName (c₁.labelCount + 1 + 1),
          labelName (c₁.labelCount + 1) ++ ":"] ++
            (newE ++ [labelName (c₁.labelCount + 1 + 1) ++ ":"])))), ?_, fun k => ?_⟩
    · show c₇.vars = _
      rw [Statement.assigned, List.foldl_append, hvE, hvT, hv1]
      rfl
    · show c₇.labelCount = _
      rw [Statement.weigh]
      omega
    · show c₇.code ++ _ = _
      rw [hcE, hcT, hc₁]
      simp only [List.append_assoc]
    · simp only [labelHits_append]
      rw [labelHits_cons_space (by rfl), labelHits_cons_space (by rfl), labelHits_nil,
        labelHits_cons_space (by rfl), labelHits_cons_label, labelHits_nil,
        labelHits_cons_label, labelHits_nil, hl₁ k, hlT k, hlE k, Statement.weigh]
      split_ifs <;> omega
  | .WhileStatement cond body, c, c', h => by
    rw [compileStatement] at h
    obtain ⟨⟨v, c₁⟩, hv, h⟩ := Res.bind_eq_ok h
    obtain ⟨c₅, hB, h⟩ := Res.bind_eq_ok h
    cases h
    have s₁ := compileExpression_step cond _ c₁ v hv
    have sB := compileBlock_step body _ c₅ hB
    obtain ⟨new₁, hc₁, hl₁⟩ := s₁.code
    obtain ⟨newB, hcB, hlB⟩ := sB.code
    have h1 := s₁.labels
    have hB' := sB.labels
    have hv1 := s₁.vars
    have hvB := sB.vars
    simp only [nextLabel, Compiler.emitAll, Compiler.emit] at *
    refine ⟨sB.os.trans s₁.os, sB.arch.trans s₁.arch, ?_, ?_,
      [labelName (c.labelCount + 1) ++ ":"] ++ (new₁ ++ (["    cmp " ++ v ++ ", 0",
        "    je " ++ labelName (c.labelCount + 1 + 1)] ++
          (newB ++ ["    jmp " ++ labelName (c.labelCount + 1),
            labelName (c.labelCount + 1 + 1) ++ ":"]))), ?_, fun k => ?_⟩
    · show c₅.vars = _
      rw [Statement.assigned, hvB, hv1]
      rfl
    · show c₅.labelCount = _
      rw [Statement.weigh]
      omega
    · show c₅.code ++ _ = _
      rw [hcB, hc₁]
      simp only [List.append_assoc]
    · simp only [labelHits_append]
      rw [labelHits_cons_label, labelHits_nil, labelHits_cons_space (by rfl),
        labelHits_cons_space (by rfl), labelHits_nil, labelHits_cons_space (by rfl),
        labelHits_cons_label, labelHits_nil, hl₁ k, hlB k, Statement.weigh]
      split_ifs <;> omega
  | .Block stmts, c, c', h => by
    rw [compileStatement] at h
    simpa [Statement.assigned, Statement.weigh] using compileStatements_step stmts c c' h

theorem compileBlock_step : ∀ (b : Option (List Statement)) (c c' : Compiler),
    compileBlock c b = .ok c' → Step c c' (assignedBlock b) (weighBlock 2 2 1 2 b)
  | none, c, c', h => by cases h
  | some stmts, c, c', h => by
    rw [compileBlock] at h
    simpa [assignedBlock, weighBlock] using compileStatements_step stmts c c' h

theorem compileElse_step : ∀ (b : Option (List Statement)) (c c' : Compiler),
    compileElse c b = .ok c' → Step c c' (assignedBlock b) (weighBlock 2 2 1 2 b)
  | none, c, c', h => by
    cases h
    exact Step.refl c
  | some stmts, c, c', h => by
    rw [compileElse] at h
    simpa [assignedBlock, weighBlock] using compileStatements_step stmts c c' h

theorem compileStatements_step : ∀ (l : List Statement) (c c' : Compiler),
    compileStatements c l = .ok c' → Step c c' (assignedList l) (weighList 2 2 1 2 l)
  | [], c, c', h => by
    cases h
    exact Step.refl c
  | s :: rest, c, c', h => by
    rw [compileStatements] at h
    obtain ⟨c₁, h₁, h⟩ := Res.bind_eq_ok h
    have := (compileStatement_step s c c₁ h₁).trans (compileStatements_step rest c₁ c' h)
    simpa [assignedList, weighList] using this

end


theorem lookup_zip_isSome (x : String) : ∀ (keys : List String) (vals : List Nat),
    keys.length ≤ vals.length → (((keys.zip vals).lookup x).isSome ↔ x ∈ keys)
  | [], _, _ => by simp
  | k :: keys, [], h => by simp at h
  | k :: keys, v :: vals, h => by
    rw [List.zip_cons_cons, List.lookup_cons]
    by_cases hx : x = k
    · subst hx
      simp
    · have : (x == k) = false := by simpa using hx
      rw [this]
      simp only [List.mem_cons, hx, false_or]
      exact lookup_zip_isSome x keys vals (by simpa using h)

theorem slotsOf_append_singleton (keys : List String) (x : String) :
    slotsOf (keys ++ [x]) = slotsOf keys ++ [(x, keys.length)] := by
  unfold slotsOf
  rw [List.length_append, List.length_singleton, List.range_succ,
    List.zip_append (by simp)]
  rfl

theorem length_slotsOf (keys : List String) : (slotsOf keys).length = keys.length := by
  simp [slotsOf]

theorem declare_slotsOf (keys : List String) (x : String) :
    declare (slotsOf keys) x = slotsOf (if x ∈ keys then keys else keys ++ [x]) := by
  have h : ((slotsOf keys).lookup x).isSome ↔ x ∈ keys :=
    lookup_zip_isSome x keys (List.range keys.length) (by simp)
  unfold declare
  by_cases hx : x ∈ keys
  · rw [if_pos hx]
    obtain ⟨v, hv⟩ := Option.isSome_iff_exists.1 (h.2 hx)
    rw [hv]
  · rw [if_neg hx]
    cases hl : (slotsOf keys).lookup x with
    | none =>
      simp only
      rw [slotsOf_append_singleton, length_slotsOf]
    | some v =>
      rw [hl] at h
      exact absurd (h.1 rfl) hx

theorem foldl_declare_slotsOf (names : List String) : ∀ acc : List String,
    names.foldl declare (slotsOf acc) =
      slotsOf (names.foldl (fun acc x => if x ∈ acc then acc else acc ++ [x]) acc) := by
  induction names with
  | nil => intro acc; rfl
  | cons x rest ih =>
    intro acc
    rw [List.foldl_cons, List.foldl_cons, declare_slotsOf, ih]

theorem foldl_first_spec (names : List String) : ∀ acc : List String, acc.Nodup →
    (names.foldl (fun acc x => if x ∈ acc then acc else acc ++ [x]) acc).Nodup ∧
    ∀ x, x ∈ names.foldl (fun acc x => if x ∈ acc then acc else acc ++ [x]) acc ↔
      x ∈ acc ∨ x ∈ names := by
  induction names with
  | nil => intro acc h; simp [h]
  | cons y rest ih =>
    intro acc h
    rw [List.foldl_cons]
    by_cases hy : y ∈ acc
    · rw [if_pos hy]
      refine ⟨(ih acc h).1, fun x => ?_⟩
      rw [(ih acc h).2 x, List.mem_cons]
      constructor
      · rintro (h1 | h1)
        · exact Or.inl h1
        · exact Or.inr (Or.inr h1)
      · rintro (h1 | h1 | h1)
        · exact Or.inl h1
        · exact Or.inl (h1 ▸ hy)
        · exact Or.inr h1
    · rw [if_neg hy]
      have hn : (acc ++ [y]).Nodup := by
        rw [List.nodup_append]
        exact ⟨h, List.nodup_singleton y, by
          intro a ha hb
          rw [List.mem_singleton] at hb
          exact hy (hb ▸ ha)⟩
      refine ⟨(ih _ hn).1, fun x => ?_⟩
      rw [(ih _ hn).2 x, List.mem_append, List.mem_singleton, List.mem_cons]
      tauto

theorem lookup_isSome_of_mem (name : String) : ∀ (vars : List (String × Nat)),
    name ∈ vars.map Prod.fst → (vars.lookup name).isSome
  | [], h => by cases h
  | (k, v) :: rest, h => by
    rw [List.lookup_cons]
    by_cases hk : name = k
    · subst hk
      simp
    · have hb : (name == k) = false := by simpa using hk
      rw [hb]
      rw [List.map_cons, List.mem_cons] at h
      rcases h with h | h
      · exact absurd h hk
      · exact lookup_isSome_of_mem name rest h

theorem declare_of_mem {vars : List (String × Nat)} {name : String}
    (h : name ∈ vars.map Prod.fst) : declare vars name = vars := by
  unfold declare
  obtain ⟨v, hv⟩ := Option.isSome_iff_exists.1 (lookup_isSome_of_mem name vars h)
  rw [hv]


theorem labelHits_prologueLines (os : String) (k : Nat) :
    labelHits k (prologueLines os) = 0 := by
  unfold prologueLines
  split_ifs
  · rw [labelHits_cons_other (c := 'g') (by rfl) (by decide),
      labelHits_cons_other (c := 's') (by rfl) (by decide),
      labelHits_cons_other (c := '_') (by rfl) (by decide), labelHits_nil]
  · rw [labelHits_cons_other (c := 'g') (by rfl) (by decide),
      labelHits_cons_other (c := 's') (by rfl) (by decide),
      labelHits_cons_other (c := 's') (by rfl) (by decide), labelHits_nil]
  · rw [labelHits_cons_other (c := 'g') (by rfl) (by decide),
      labelHits_cons_other (c := 'e') (by rfl) (by decide),
      labelHits_cons_other (c := 's') (by rfl) (by decide),
      labelHits_cons_other (c := 'm') (by rfl) (by decide), labelHits_nil]
  · rfl

theorem labelHits_epilogueLines (os : String) (k : Nat) :
    labelHits k (epilogueLines os) = 0 := by
  unfold epilogueLines
  split_ifs
  · rw [labelHits_cons_space (by rfl), labelHits_cons_space (by rfl),
      labelHits_cons_space (by rfl), labelHits_nil]
  · rw [labelHits_cons_space (by rfl), labelHits_cons_space (by rfl),
      labelHits_cons_space (by rfl), labelHits_nil]
  · rw [labelHits_cons_space (by rfl), labelHits_cons_space (by rfl), labelHits_nil]
  · rfl

theorem Expression.weigh_zero : ∀ e : Expression, e.weigh 0 0 = 0
  | .NumberLiteral _ => rfl
  | .StringLiteral _ => rfl
  | .BooleanLiteral _ => rfl
  | .Identifier _ => rfl
  | .nil => rfl
  | .BinaryExpression l op r => by
    rw [Expression.weigh, Expression.weigh_zero l, Expression.weigh_zero r]
    simp [operatorLabels]

theorem Expression.weigh_one_two : ∀ e : Expression,
    e.weigh 1 2 = e.weigh 1 0 + 2 * e.weigh 0 1
  | .NumberLiteral _ => rfl
  | .StringLiteral _ => rfl
  | .BooleanLiteral _ => rfl
  | .Identifier _ => rfl
  | .nil => rfl
  | .BinaryExpression l op r => by
    rw [Expression.weigh, Expression.weigh, Expression.weigh, Expression.weigh_one_two l,
      Expression.weigh_one_two r]
    simp only [operatorLabels]
    split_ifs <;> omega

mutual

theorem Statement.weigh_split : ∀ s : Statement,
    s.weigh 2 2 1 2 =
      2 * (s.weigh 1 0 0 0 + s.weigh 0 1 0 0) + s.weigh 0 0 1 0 + 2 * s.weigh 0 0 0 1
  | .AssignmentStatement _ v => by
    simp only [Statement.weigh, Expression.weigh_zero, Expression.weigh_one_two v]
    omega
  | .PrintStatement e => by
    simp only [Statement.weigh, Expression.weigh_zero, Expression.weigh_one_two e]
    omega
  | .IfStatement c t e => by
    simp only [Statement.weigh, Expression.weigh_zero, Expression.weigh_one_two c,
      weighBlock_split t, weighBlock_split e]
    omega
  | .WhileStatement c b => by
    simp only [Statement.weigh, Expression.weigh_zero, Expression.weigh_one_two c,
      weighBlock_split b]
    omega
  | .Block stmts => by
    simp only [Statement.weigh, weighList_split stmts]

theorem weighBlock_split : ∀ b : Option (List Statement),
    weighBlock 2 2 1 2 b =
      2 * (weighBlock 1 0 0 0 b + weighBlock 0 1 0 0 b) + weighBlock 0 0 1 0 b +
        2 * weighBlock 0 0 0 1 b
  | none => rfl
  | some stmts => by
    simp only [weighBlock, weighList_split stmts]

theorem weighList_split : ∀ l : List Statement,
    weighList 2 2 1 2 l =
      2 * (weighList 1 0 0 0 l + weighList 0 1 0 0 l) + weighList 0 0 1 0 l +
        2 * weighList 0 0 0 1 l
  | [] => rfl
  | s :: rest => by
    simp only [weighList, Statement.weigh_split s, weighList_split rest]
    omega

end

/-- The run of `Compile` on a fresh compiler as one step between the prologue and the
epilogue. -/
theorem compileProgram_step {os arch : String} {p : Program} {c' : Compiler}
    (h : compileProgram (NewCompiler os arch) p = .ok c') :
    ∃ c₁, Step (generatePrologue (NewCompiler os arch)) c₁ p.assigned
        (weighList 2 2 1 2 p.Statements) ∧
      c' = generateEpilogue c₁ := by
  unfold compileProgram at h
  obtain ⟨c₁, h₁, h⟩ := Res.bind_eq_ok h
  cases h
  exact ⟨c₁, compileStatements_step _ _ _ h₁, rfl⟩

/-- C4. Label uniqueness and count: when `Compile` on a fresh compiler completes, the label
counter equals `n = 2 * (if statements + while statements) + (&& expressions) +
2 * (|| expressions)` of the program, and among the emitted lines the line `label_k:` occurs
exactly once for every `k` from 1 to `n` and not at all for any other `k`. -/
theorem compileProgram_label_definitions (os arch : String) (p : Program) (c' : Compiler)
    (h : compileProgram (NewCompiler os arch) p = .ok c') :
    c'.labelCount =
      2 * (p.ifStatements + p.whileStatements) + p.andExpressions + 2 * p.orExpressions ∧
    ∀ k, c'.code.count (labelName k ++ ":") =
      if 1 ≤ k ∧
        k ≤ 2 * (p.ifStatements + p.whileStatements) + p.andExpressions + 2 * p.orExpressions
      then 1 else 0 := by
  obtain ⟨c₁, hs, rfl⟩ := compileProgram_step h
  obtain ⟨new, hc, hl⟩ := hs.code
  have hn := weighList_split p.Statements
  have hcount : c₁.labelCount = weighList 2 2 1 2 p.Statements := by
    rw [hs.labels]
    show 0 + _ = _
    omega
  refine ⟨?_, fun k => ?_⟩
  · show c₁.labelCount = _
    rw [hcount, hn]
    rfl
  · show labelHits k (c₁.code ++ epilogueLines c₁.os) = _
    rw [hc]
    show labelHits k (([] ++ prologueLines os) ++ new ++ epilogueLines c₁.os) = _
    rw [labelHits_append, labelHits_append, labelHits_append, labelHits_nil,
      labelHits_prologueLines, labelHits_epilogueLines, hl k]
    show (0 + 0 + (if 0 < k ∧ k ≤ 0 + _ then 1 else 0) + 0) = _
    simp only [Program.ifStatements, Program.whileStatements, Program.andExpressions,
      Program.orExpressions]
    split_ifs <;> omega

/-- C3. Variable slots: when `Compile` on a fresh compiler completes, the variable table
holds the distinct assigned names of the program in the order of their first assignment, with
the slots 0, 1, 2, ... in that order; and an assignment to a name that is in the table leaves
the table as it is. -/
theorem compileProgram_variable_slots (os arch : String) (p : Program) (c' : Compiler)
    (h : compileProgram (NewCompiler os arch) p = .ok c') :
    c'.vars = (firstAssigned p.assigned).zip (List.range (firstAssigned p.assigned).length) ∧
    (firstAssigned p.assigned).Nodup ∧
    (∀ x, x ∈ firstAssigned p.assigned ↔ x ∈ p.assigned) ∧
    ∀ (c c₁ : Compiler) (ident : String) (value : Expression),
      compileAssignment c ident value = .ok c₁ → ident ∈ c.vars.map Prod.fst →
      c₁.vars = c.vars := by
  obtain ⟨c₁, hs, rfl⟩ := compileProgram_step h
  refine ⟨?_, (foldl_first_spec p.assigned [] List.nodup_nil).1, fun x => ?_, ?_⟩
  · show c₁.vars = slotsOf (firstAssigned p.assigned)
    rw [hs.vars]
    exact foldl_declare_slotsOf p.assigned []
  · rw [firstAssigned, (foldl_first_spec p.assigned [] List.nodup_nil).2 x]
    simp
  · intro c c₁ ident value hc hmem
    have hstep := compileAssignment_step hc
    rw [hstep.vars]
    exact declare_of_mem hmem

/-- C4 at `if (false && x) {}` and `if (true || x) {}`: three and four labels, each defined
exactly once. -/
theorem compileProgram_label_definitions_witness :
    (compileProgram (NewCompiler "linux" "amd64") ifAndProgram = .ok ifAndFinal ∧
      ifAndFinal.labelCount = 3 ∧
      ∀ k, ifAndFinal.code.count (labelName k ++ ":") = if 1 ≤ k ∧ k ≤ 3 then 1 else 0) ∧
    (compileProgram (NewCompiler "linux" "amd64") ifOrProgram = .ok ifOrFinal ∧
      ifOrFinal.labelCount = 4 ∧
      ∀ k, ifOrFinal.code.count (labelName k ++ ":") = if 1 ≤ k ∧ k ≤ 4 then 1 else 0) :=
  ⟨⟨by decide, by decide,
      (compileProgram_label_definitions "linux" "amd64" ifAndProgram ifAndFinal
        (by decide)).2⟩,
    ⟨by decide, by decide,
      (compileProgram_label_definitions "linux" "amd64" ifOrProgram ifOrFinal
        (by decide)).2⟩⟩

/-- C3 at `a = 1; b = 2; a = 3;`: two slots, `a` at 0 and `b` at 1. -/
theorem compileProgram_variable_slots_witness :
    compileProgram (NewCompiler "linux" "amd64") slotExampleProgram = .ok slotExampleFinal ∧
    slotExampleFinal.vars = [("a", 0), ("b", 1)] ∧
    slotExampleFinal.vars =
      (firstAssigned slotExampleProgram.assigned).zip
        (List.range (firstAssigned slotExampleProgram.assigned).length) :=
  ⟨by decide, by decide,
    (compileProgram_variable_slots "linux" "amd64" slotExampleProgram slotExampleFinal
      (by decide)).1⟩

/-! ## The lexer: end marker and two-character operators -/

theorem keywordType_ne_eof (value : String) : keywordType value ≠ TOKEN_EOF := by
  unfold keywordType
  split_ifs <;> decide

/-- No iteration of the loop of `Tokenize` produces an end marker. -/
theorem lexStep_token_ne_eof {input : List Char} {pos : Nat} {c : Char} {t : Token} {p : Nat}
    (h : lexStep input pos c = .ok (some t, p)) : t.Typ ≠ TOKEN_EOF := by
  unfold lexStep at h
  refine ite_cases h (fun _ h => ?_) (fun _ h => ?_)
  · cases h
  refine ite_cases h (fun _ h => ?_) (fun _ h => ?_)
  · cases h
    exact keywordType_ne_eof _
  refine ite_cases h (fun _ h => ?_) (fun _ h => ?_)
  · cases h
    exact nofun
  refine ite_cases h (fun _ h => ?_) (fun _ h => ?_)
  · unfold readString at h
    by_cases hs : scanWhile (fun c => c != '"') input (input.length - (pos + 1)) (pos + 1) =
        input.length
    · simp only [hs, if_true] at h
      cases h
    · simp only [hs, if_false] at h
      cases h
      exact nofun
  repeat' refine ite_cases h (fun _ h => ?_) (fun _ h => ?_)
  all_goals first
    | (cases h; done)
    | (cases h; decide)

/-- The loop of `Tokenize` returns the tokens gathered, the tokens it reads, and one end
marker. -/
theorem tokenizeLoop_ok (input : List Char) (fuel : Nat) :
    ∀ (pos : Nat) (tokens result : List Token),
      tokenizeLoop input fuel pos tokens = .ok result →
      ∃ more, result = tokens ++ more ++ [⟨TOKEN_EOF, ""⟩] ∧
        ∀ t ∈ more, t.Typ ≠ TOKEN_EOF := by
  induction fuel with
  | zero =>
    intro pos tokens result h
    rw [tokenizeLoop] at h
    split at h
    · cases h
      exact ⟨[], by simp, by simp⟩
    · cases h
  | succ fuel ih =>
    intro pos tokens result h
    rw [tokenizeLoop] at h
    split at h
    · cases h
      exact ⟨[], by simp, by simp⟩
    · rename_i c hc
      cases hstep : lexStep input pos c with
      | fail e => rw [hstep] at h; cases h
      | outOfFuel => rw [hstep] at h; cases h
      | ok r =>
        rw [hstep] at h
        obtain ⟨more, hres, hmore⟩ := ih _ _ _ h
        obtain ⟨tok, p⟩ := r
        cases tok with
        | none => exact ⟨more, hres, hmore⟩
        | some t =>
          refine ⟨t :: more, by simpa [appendToken] using hres, fun t' ht' => ?_⟩
          rcases List.mem_cons.1 ht' with h1 | h1
          · subst h1
            exact lexStep_token_ne_eof hstep
          · exact hmore t' h1

/-- C14. End marker invariant: when `Tokenize` succeeds, the token sequence is not empty, its
last token is the end marker, and no token before the last is an end marker; the empty source
gives the end marker alone. -/
theorem Tokenize_end_marker (input : String) (tokens : List Token)
    (h : Tokenize input = .ok tokens) :
    tokens ≠ [] ∧ tokens.getLast? = some ⟨TOKEN_EOF, ""⟩ ∧
    (∀ t ∈ tokens.dropLast, t.Typ ≠ TOKEN_EOF) ∧
    Tokenize "" = .ok [⟨TOKEN_EOF, ""⟩] := by
  obtain ⟨more, hres, hmore⟩ := tokenizeLoop_ok _ _ _ _ _ h
  rw [List.nil_append] at hres
  subst hres
  refine ⟨by simp, by simp, ?_, by decide⟩
  rw [List.dropLast_concat]
  exact hmore

/-- C14 at the source `x = 5`: three tokens and the end marker. -/
theorem Tokenize_end_marker_witness :
    tokensNoSemicolon ≠ [] ∧ tokensNoSemicolon.getLast? = some ⟨TOKEN_EOF, ""⟩ ∧
    (∀ t ∈ tokensNoSemicolon.dropLast, t.Typ ≠ TOKEN_EOF) ∧
    Tokenize "" = .ok [⟨TOKEN_EOF, ""⟩] :=
  Tokenize_end_marker "x = 5" tokensNoSemicolon (by decide)

/-- A panic of an iteration at a state the scan reaches is the failure of `Tokenize`. -/
theorem ScanReaches.tokenize_fails {input : String} {pos : Nat} {tokens : List Token}
    {c : Char} {e : Failure} (hreach : ScanReaches input.data pos tokens)
    (hc : input.data[pos]? = some c) (hstep : lexStep input.data pos c = .fail e) :
    Tokenize input = .fail e := by
  have hlt : pos < input.data.length := by
    by_contra hge
    rw [List.getElem?_eq_none_iff.2 (by omega)] at hc
    cases hc
  obtain ⟨k, hk, hF⟩ := hreach.loop_eq
  obtain ⟨n, hn⟩ : ∃ n, input.data.length = (n + 1) + k :=
    ⟨input.data.length - k - 1, by omega⟩
  unfold Tokenize
  rw [hn, hF (n + 1), tokenizeLoop]
  simp only [hc, hstep]

theorem peekNext_eq_iff {input : List Char} {pos : Nat} {c : Char} (hc : c ≠ Char.ofNat 0) :
    peekNext input pos = c ↔ input[pos + 1]? = some c := by
  unfold peekNext
  cases input[pos + 1]? with
  | none =>
    simp only
    constructor
    · intro h; exact absurd h.symm hc
    · intro h; cases h
  | some d => simp

/-- The iteration of the loop of `Tokenize` on the bytes `=`, `!`, `&` and `|`. -/
theorem lexStep_operators (input : List Char) (pos : Nat) :
    lexStep input pos '=' =
      (if input[pos + 1]? = some '=' then .ok (some ⟨TOKEN_EQ, "=="⟩, pos + 2)
        else .ok (some ⟨TOKEN_ASSIGN, "="⟩, pos + 1)) ∧
    lexStep input pos '!' =
      (if input[pos + 1]? = some '=' then .ok (some ⟨TOKEN_NEQ, "!="⟩, pos + 2)
        else .fail (.LexError "Unexpected character: !")) ∧
    lexStep input pos '&' =
      (if input[pos + 1]? = some '&' then .ok (some ⟨TOKEN_AND, "&&"⟩, pos + 2)
        else .fail (.LexError "Unexpected character: &")) ∧
    lexStep input pos '|' =
      (if input[pos + 1]? = some '|' then .ok (some ⟨TOKEN_OR, "||"⟩, pos + 2)
        else .fail (.LexError "Unexpected character: |")) := by
  have e1 : (peekNext input pos = '=') = (input[pos + 1]? = some '=') :=
    propext (peekNext_eq_iff (by decide))
  have e2 : (peekNext input pos = '&') = (input[pos + 1]? = some '&') :=
    propext (peekNext_eq_iff (by decide))
  have e3 : (peekNext input pos = '|') = (input[pos + 1]? = some '|') :=
    propext (peekNext_eq_iff (by decide))
  refine ⟨?_, ?_, ?_, ?_⟩
  · have h1 : isSpace '=' = false := by decide
    have h2 : isLetter '=' = false := by decide
    have h3 : isDigit '=' = false := by decide
    simp only [lexStep, h1, h2, h3, Bool.false_eq_true, if_false, if_true, e1]
    simp
  · have h1 : isSpace '!' = false := by decide
    have h2 : isLetter '!' = false := by decide
    have h3 : isDigit '!' = false := by decide
    simp only [lexStep, h1, h2, h3, Bool.false_eq_true, if_false, if_true, e1]
    simp
    rfl
  · have h1 : isSpace '&' = false := by decide
    have h2 : isLetter '&' = false := by decide
    have h3 : isDigit '&' = false := by decide
    simp only [lexStep, h1, h2, h3, Bool.false_eq_true, if_false, if_true, e2]
    simp
    rfl
  · have h1 : isSpace '|' = false := by decide
    have h2 : isLetter '|' = false := by decide
    have h3 : isDigit '|' = false := by decide
    simp only [lexStep, h1, h2, h3, Bool.false_eq_true, if_false, if_true, e3]
    simp
    rfl

/-- A result of the loop of `Tokenize` stays the result with a larger budget. -/
theorem tokenizeLoop_ok_add (input : List Char) (fuel : Nat) :
    ∀ (pos : Nat) (tokens result : List Token) (k : Nat),
      tokenizeLoop input fuel pos tokens = .ok result →
      tokenizeLoop input (fuel + k) pos tokens = .ok result := by
  induction fuel with
  | zero =>
    intro pos tokens result k h
    rw [tokenizeLoop] at h
    cases hc : input[pos]? with
    | none =>
      simp only [hc] at h
      cases k <;> rw [Nat.zero_add, tokenizeLoop] <;> simp only [hc] <;> exact h
    | some c =>
      simp only [hc] at h
      cases h
  | succ fuel ih =>
    intro pos tokens result k h
    rw [tokenizeLoop] at h
    rw [Nat.add_right_comm, tokenizeLoop]
    cases hc : input[pos]? with
    | none =>
      simp only [hc] at h ⊢
      exact h
    | some c =>
      simp only [hc] at h ⊢
      cases hstep : lexStep input pos c with
      | fail e => rw [hstep] at h; cases h
      | outOfFuel => rw [hstep] at h; cases h
      | ok r =>
        simp only [hstep] at h ⊢
        exact ih _ _ _ k h

/-- No iteration of the loop of `Tokenize` needs a budget of its own. -/
theorem lexStep_ne_outOfFuel (input : List Char) (pos : Nat) (c : Char) :
    lexStep input pos c ≠ .outOfFuel := by
  intro h
  unfold lexStep at h
  refine ite_cases h (fun _ h => ?_) (fun _ h => ?_)
  · cases h
  refine ite_cases h (fun _ h => ?_) (fun _ h => ?_)
  · cases h
  refine ite_cases h (fun _ h => ?_) (fun _ h => ?_)
  · cases h
  refine ite_cases h (fun _ h => ?_) (fun _ h => ?_)
  · unfold readString at h
    by_cases hs : scanWhile (fun c => c != '"') input (input.length - (pos + 1)) (pos + 1) =
        input.length
    · simp only [hs, if_true] at h
      cases h
    · simp only [hs, if_false] at h
      cases h
  repeat' refine ite_cases h (fun _ h => ?_) (fun _ h => ?_)
  all_goals cases h

/-- The loop of `Tokenize` never exhausts a budget that covers the rest of the input: the
source loop ends on every input. -/
theorem tokenizeLoop_total (input : List Char) (fuel : Nat) :
    ∀ (pos : Nat) (tokens : List Token), input.length ≤ pos + fuel →
      tokenizeLoop input fuel pos tokens ≠ .outOfFuel := by
  induction fuel with
  | zero =>
    intro pos tokens hlen
    rw [tokenizeLoop, List.getElem?_eq_none_iff.2 (by omega)]
    exact nofun
  | succ fuel ih =>
    intro pos tokens hlen
    rw [tokenizeLoop]
    cases hc : input[pos]? with
    | none => exact nofun
    | some c =>
      simp only
      cases hstep : lexStep input pos c with
      | fail e => exact nofun
      | outOfFuel => exact absurd hstep (lexStep_ne_outOfFuel _ _ _)
      | ok r =>
        have := lexStep_advances hc hstep
        exact ih r.2 _ (by omega)

/-- The function `Tokenize` returns on every source text: a token sequence or a panic. -/
theorem Tokenize_total (input : String) : Tokenize input ≠ .outOfFuel :=
  tokenizeLoop_total _ _ _ _ (by omega)

/-- Every token sequence that `Tokenize` returns continues the tokens of each state the scan
reaches. -/
theorem ScanReaches.continued_by_ok {input : String} {pos : Nat} {tokens result : List Token}
    (hreach : ScanReaches input.data pos tokens) (h : Tokenize input = .ok result) :
    ∃ more, result = tokens ++ more := by
  obtain ⟨k, hk, hF⟩ := hreach.loop_eq
  unfold Tokenize at h
  have h2 := tokenizeLoop_ok_add _ _ _ _ _ k h
  rw [hF] at h2
  obtain ⟨more, hres, -⟩ := tokenizeLoop_ok _ _ _ _ _ h2
  exact ⟨more ++ [⟨TOKEN_EOF, ""⟩], by rw [hres, List.append_assoc]⟩

theorem ScanReaches.yields {input : String} {pos : Nat} {tokens : List Token} {c : Char}
    {t : Token} {width : Nat} (hreach : ScanReaches input.data pos tokens)
    (hc : input.data[pos]? = some c) (hstep : lexStep input.data pos c = .ok (some t, pos + width)) :
    ScanYields input pos tokens t width := by
  have hnext := ScanReaches.step hreach hc hstep
  refine ⟨hnext, fun result h => ?_⟩
  obtain ⟨more, hmore⟩ := ScanReaches.continued_by_ok hnext h
  exact ⟨more, by rw [hmore]; simp [appendToken]⟩

/-- C15. Two-character operators: where the loop of `Tokenize` stands on `=`, a following `=`
gives the single token EQ and anything else, also the end of the input, gives ASSIGN; `!=`,
`&&` and `||` give the single tokens NEQ, AND and OR; and `!` without `=` after it, `&`
without `&`, `|` without `|` make `Tokenize` fail with a `LexError`. -/
theorem Tokenize_two_char_operators (input : String) (pos : Nat) (tokens : List Token)
    (hreach : ScanReaches input.data pos tokens) :
    (input.data[pos]? = some '=' → input.data[pos + 1]? = some '=' →
      ScanYields input pos tokens ⟨TOKEN_EQ, "=="⟩ 2) ∧
    (input.data[pos]? = some '=' → input.data[pos + 1]? ≠ some '=' →
      ScanYields input pos tokens ⟨TOKEN_ASSIGN, "="⟩ 1) ∧
    (input.data[pos]? = some '!' → input.data[pos + 1]? = some '=' →
      ScanYields input pos tokens ⟨TOKEN_NEQ, "!="⟩ 2) ∧
    (input.data[pos]? = some '&' → input.data[pos + 1]? = some '&' →
      ScanYields input pos tokens ⟨TOKEN_AND, "&&"⟩ 2) ∧
    (input.data[pos]? = some '|' → input.data[pos + 1]? = some '|' →
      ScanYields input pos tokens ⟨TOKEN_OR, "||"⟩ 2) ∧
    (input.data[pos]? = some '!' → input.data[pos + 1]? ≠ some '=' →
      Tokenize input = .fail (.LexError "Unexpected character: !")) ∧
    (input.data[pos]? = some '&' → input.data[pos + 1]? ≠ some '&' →
      Tokenize input = .fail (.LexError "Unexpected character: &")) ∧
    (input.data[pos]? = some '|' → input.data[pos + 1]? ≠ some '|' →
      Tokenize input = .fail (.LexError "Unexpected character: |")) := by
  obtain ⟨heq, hbang, hamp, hbar⟩ := lexStep_operators input.data pos
  refine ⟨fun hc hn => ?_, fun hc hn => ?_, fun hc hn => ?_, fun hc hn => ?_, fun hc hn => ?_,
    fun hc hn => ?_, fun hc hn => ?_, fun hc hn => ?_⟩
  · exact hreach.yields hc (by rw [heq, if_pos hn])
  · exact hreach.yields hc (by rw [heq, if_neg hn])
  · exact hreach.yields hc (by rw [hbang, if_pos hn])
  · exact hreach.yields hc (by rw [hamp, if_pos hn])
  · exact hreach.yields hc (by rw [hbar, if_pos hn])
  · exact hreach.tokenize_fails hc (by rw [hbang, if_neg hn])
  · exact hreach.tokenize_fails hc (by rw [hamp, if_neg hn])
  · exact hreach.tokenize_fails hc (by rw [hbar, if_neg hn])

/-- C15 at the source `a=`, where the scan stands on the `=` at cursor 1 with the identifier
gathered: the `=` at the end of the input gives ASSIGN. -/
theorem Tokenize_two_char_operators_witness :
    ScanYields "a=" 1 [⟨TOKEN_IDENT, "a"⟩] ⟨TOKEN_ASSIGN, "="⟩ 1 :=
  (Tokenize_two_char_operators "a=" 1 [⟨TOKEN_IDENT, "a"⟩]
    (ScanReaches.step (c := 'a') (r := (some ⟨TOKEN_IDENT, "a"⟩, 1))
      ScanReaches.start (by decide) (by decide))).2.1 (by decide) (by decide)

/-! ## The platform reaches the prologue and the epilogue only -/

theorem Compiler.rebase_emit (c : Compiler) (pre : List String) (os arch line : String) :
    (c.rebase pre os arch).emit line = (c.emit line).rebase pre os arch := by
  simp [Compiler.rebase, Compiler.emit, List.append_assoc]

theorem Compiler.rebase_emitAll (c : Compiler) (pre : List String) (os arch : String)
    (lines : List String) :
    (c.rebase pre os arch).emitAll lines = (c.emitAll lines).rebase pre os arch := by
  simp [Compiler.rebase, Compiler.emitAll, List.append_assoc]

theorem compileOperator_rebase (c : Compiler) (pre : List String) (os arch : String)
    (op : TokenType) (right : String) :
    compileOperator (c.rebase pre os arch) op right =
      (compileOperator c op right).bind fun c' => .ok (c'.rebase pre os arch) := by
  cases op <;>
    simp [compileOperator, Compiler.rebase, Compiler.emit, Compiler.emitAll, nextLabel,
      List.append_assoc]

theorem compileExpression_rebase (pre : List String) (os arch : String) :
    ∀ (e : Expression) (c : Compiler),
      compileExpression (c.rebase pre os arch) e =
        (compileExpression c e).bind fun r => .ok (r.1, r.2.rebase pre os arch)
  | .NumberLiteral v, c => rfl
  | .StringLiteral _, c => rfl
  | .BooleanLiteral v, c => rfl
  | .Identifier name, c => rfl
  | .nil, c => rfl
  | .BinaryExpression l op r, c => by
    rw [compileExpression, compileExpression, compileExpression_rebase pre os arch l c]
    cases hl : compileExpression c l with
    | fail e => rfl
    | outOfFuel => rfl
    | ok left =>
      simp only [Res.bind_ok]
      rw [compileExpression_rebase pre os arch r left.2]
      cases hr : compileExpression left.2 r with
      | fail e => rfl
      | outOfFuel => rfl
      | ok right =>
        simp only [Res.bind_ok]
        rw [Compiler.rebase_emit, compileOperator_rebase]
        cases compileOperator (right.2.emit ("    mov eax, " ++ left.1)) op right.1 <;> rfl

theorem compileAssignment_rebase (pre : List String) (os arch : String) (c : Compiler)
    (ident : String) (value : Expression) :
    compileAssignment (c.rebase pre os arch) ident value =
      (compileAssignment c ident value).bind fun c' => .ok (c'.rebase pre os arch) := by
  rw [compileAssignment, compileAssignment, compileExpression_rebase]
  cases compileExpression c value with
  | fail e => rfl
  | outOfFuel => rfl
  | ok v => simp [Compiler.rebase, Compiler.emit, List.append_assoc]

theorem compilePrint_rebase (pre : List String) (os arch : String) (c : Compiler)
    (e : Expression) :
    compilePrint (c.rebase pre os arch) e =
      (compilePrint c e).bind fun c' => .ok (c'.rebase pre os arch) := by
  rw [compilePrint, compilePrint, compileExpression_rebase]
  cases compileExpression c e with
  | fail e => rfl
  | outOfFuel => rfl
  | ok v => simp [Compiler.rebase, Compiler.emitAll, List.append_assoc]

mutual

theorem compileStatement_rebase (pre : List String) (os arch : String) :
    ∀ (s : Statement) (c : Compiler),
      compileStatement (c.rebase pre os arch) s =
        (compileStatement c s).bind fun c' => .ok (c'.rebase pre os arch)
  | .AssignmentStatement ident value, c => by
    rw [compileStatement, compileStatement, compileAssignment_rebase]
  | .PrintStatement e, c => by
    rw [compileStatement, compileStatement, compilePrint_rebase]
  | .IfStatement cond t e, c => by
    rw [compileStatement, compileStatement, compileExpression_rebase]
    cases compileExpression c cond with
    | fail e => rfl
    | outOfFuel => rfl
    | ok v =>
      simp only [Res.bind_ok]
      have h1 : ((nextLabel (nextLabel (v.2.rebase pre os arch)).2).2.emitAll
          ["    cmp " ++ v.1 ++ ", 0", "    je " ++ (nextLabel (v.2.rebase pre os arch)).1]) =
          ((nextLabel (nextLabel v.2).2).2.emitAll
            ["    cmp " ++ v.1 ++ ", 0", "    je " ++ (nextLabel v.2).1]).rebase pre os arch := by
        simp [Compiler.rebase, Compiler.emitAll, nextLabel, List.append_assoc]
      have h2 : (nextLabel (v.2.rebase pre os arch)).1 = (nextLabel v.2).1 := rfl
      have h3 : (nextLabel (nextLabel (v.2.rebase pre os arch)).2).1 =
          (nextLabel (nextLabel v.2).2).1 := rfl
      rw [h1, h2, h3, compileBlock_rebase pre os arch t]
      cases compileBlock ((nextLabel (nextLabel v.2).2).2.emitAll
            ["    cmp " ++ v.1 ++ ", 0", "    je " ++ (nextLabel v.2).1]) t with
      | fail e => rfl
      | outOfFuel => rfl
      | ok c₅ =>
        simp only [Res.bind_ok]
        rw [Compiler.rebase_emitAll, compileElse_rebase pre os arch e]
        cases compileElse (c₅.emitAll ["    jmp " ++ (nextLabel (nextLabel v.2).2).1,
            (nextLabel v.2).1 ++ ":"]) e with
        | fail e => rfl
        | outOfFuel => rfl
        | ok c₇ =>
          simp only [Res.bind_ok]
          rw [Compiler.rebase_emit]
  | .WhileStatement cond body, c => by
    rw [compileStatement, compileStatement]
    have h1 : ((nextLabel (nextLabel (c.rebase pre os arch)).2).2.emit
        ((nextLabel (c.rebase pre os arch)).1 ++ ":")) =
        ((nextLabel (nextLabel c).2).2.emit ((nextLabel c).1 ++ ":")).rebase pre os arch := by
      simp [Compiler.rebase, Compiler.emit, nextLabel, List.append_assoc]
    have h2 : (nextLabel (c.rebase pre os arch)).1 = (nextLabel c).1 := rfl
    have h3 : (nextLabel (nextLabel (c.rebase pre os arch)).2).1 =
        (nextLabel (nextLabel c).2).1 := rfl
    rw [h2] at h1
    simp only [h1, h2, h3]
    rw [compileExpression_rebase]
    cases compileExpression ((nextLabel (nextLabel c).2).2.emit ((nextLabel c).1 ++ ":"))
        cond with
    | fail e => rfl
    | outOfFuel => rfl
    | ok v =>
      simp only [Res.bind_ok]
      rw [Compiler.rebase_emitAll, compileBlock_rebase pre os arch body]
      cases compileBlock (v.2.emitAll ["    cmp " ++ v.1 ++ ", 0",
          "    je " ++ (nextLabel (nextLabel c).2).1]) body with
      | fail e => rfl
      | outOfFuel => rfl
      | ok c₅ =>
        simp only [Res.bind_ok]
        rw [Compiler.rebase_emitAll]
  | .Block stmts, c => by
    rw [compileStatement, compileStatement, compileStatements_rebase pre os arch stmts]

theorem compileBlock_rebase (pre : List String) (os arch : String) :
    ∀ (b : Option (List Statement)) (c : Compiler),
      compileBlock (c.rebase pre os arch) b =
        (compileBlock c b).bind fun c' => .ok (c'.rebase pre os arch)
  | none, c => rfl
  | some stmts, c => by
    rw [compileBlock, compileBlock, compileStatements_rebase pre os arch stmts]

theorem compileElse_rebase (pre : List String) (os arch : String) :
    ∀ (b : Option (List Statement)) (c : Compiler),
      compileElse (c.rebase pre os arch) b =
        (compileElse c b).bind fun c' => .ok (c'.rebase pre os arch)
  | none, c => rfl
  | some stmts, c => by
    rw [compileElse, compileElse, compileStatements_rebase pre os arch stmts]

theorem compileStatements_rebase (pre : List String) (os arch : String) :
    ∀ (l : List Statement) (c : Compiler),
      compileStatements (c.rebase pre os arch) l =
        (compileStatements c l).bind fun c' => .ok (c'.rebase pre os arch)
  | [], c => rfl
  | s :: rest, c => by
    rw [compileStatements, compileStatements, compileStatement_rebase pre os arch s]
    cases compileStatement c s with
    | fail e => rfl
    | outOfFuel => rfl
    | ok c₁ =>
      simp only [Res.bind_ok]
      rw [compileStatements_rebase pre os arch rest]

end

/-- The state at the `return` of `Compile` on a fresh compiler: the state of the statement
loop run alone, with the prologue before its lines and the epilogue after them. -/
theorem compileProgram_rebase (program : Program) (os arch : String) :
    compileProgram (NewCompiler os arch) program =
      (compileStatements (NewCompiler "" "") program.Statements).bind fun c =>
        .ok ⟨c.vars, prologueLines os ++ c.code ++ epilogueLines os, c.labelCount, os, arch⟩ := by
  have h0 : generatePrologue (NewCompiler os arch) =
      (NewCompiler "" "").rebase (prologueLines os) os arch := by
    simp [generatePrologue, NewCompiler, Compiler.rebase, Compiler.emitAll]
  rw [compileProgram, h0, compileStatements_rebase]
  cases compileStatements (NewCompiler "" "") program.Statements with
  | fail e => rfl
  | outOfFuel => rfl
  | ok c => rfl

/-- C11. Platform affects prologue and epilogue only: the lines emitted by `Compile` on a fresh
compiler are the prologue of the platform, the lines of the statement loop, which depend on
the program alone, and the epilogue of the platform; a panic of the statement loop is the
panic of `Compile` on every platform. The prologue and epilogue are the fixed sequences for
`linux`, `darwin` and `windows`, and both are empty for every other identifier, so that the
empty program compiles to the empty text there. -/
theorem Compile_platform (program : Program) (os arch : String) :
    ((compileProgram (NewCompiler os arch) program).bind fun c => .ok c.code) =
      ((bodyLines program).bind fun body =>
        .ok (prologueLines os ++ body ++ epilogueLines os)) ∧
    Compile (NewCompiler os arch) program =
      ((bodyLines program).bind fun body =>
        .ok ("\n".intercalate (prologueLines os ++ body ++ epilogueLines os))) ∧
    prologueLines "linux" = ["global _start", "section .text", "_start:"] ∧
    epilogueLines "linux" = ["    mov eax, 60", "    xor edi, edi", "    syscall"] ∧
    prologueLines "darwin" = ["global start", "section .text", "start:"] ∧
    epilogueLines "darwin" = ["    mov rax, 0x2000001", "    xor rdi, rdi", "    syscall"] ∧
    prologueLines "windows" =
      ["global main", "extern ExitProcess", "section .text", "main:"] ∧
    epilogueLines "windows" = ["    push 0", "    call ExitProcess"] ∧
    (os ≠ "linux" → os ≠ "darwin" → os ≠ "windows" →
      prologueLines os = [] ∧ epilogueLines os = [] ∧
      Compile (NewCompiler os arch) ⟨[]⟩ = .ok "") := by
  refine ⟨?_, ?_, by decide, by decide, by decide, by decide, by decide, by decide,
    fun h1 h2 h3 => ?_⟩
  · rw [compileProgram_rebase, bodyLines]
    cases compileStatements (NewCompiler "" "") program.Statements <;> rfl
  · rw [Compile, compileProgram_rebase, bodyLines]
    cases compileStatements (NewCompiler "" "") program.Statements <;> rfl
  · have hp : prologueLines os = [] := by simp [prologueLines, h1, h2, h3]
    have he : epilogueLines os = [] := by simp [epilogueLines, h1, h2, h3]
    refine ⟨hp, he, ?_⟩
    rw [Compile, compileProgram_rebase, hp, he]
    rfl

/-- C11 at the empty program under the platform identifier `plan9`: the empty text. -/
theorem Compile_platform_witness :
    Compile (NewCompiler "plan9" "amd64") ⟨[]⟩ = .ok "" :=
  ((Compile_platform ⟨[]⟩ "plan9" "amd64").2.2.2.2.2.2.2.2
    (by decide) (by decide) (by decide)).2.2

/-- C12. The compiled text depends on the program and the platform identifier only: on fresh
compilers for the same platform and any two architecture identifiers `Compile` returns the same
text or the same panic, each fresh compiler starting with the label counter 0 and an empty
variable table. -/
theorem Compile_arch_independent (program : Program) (os arch1 arch2 : String) :
    Compile (NewCompiler os arch1) program = Compile (NewCompiler os arch2) program ∧
    (NewCompiler os arch1).labelCount = 0 ∧ (NewCompiler os arch1).vars = [] ∧
    (NewCompiler os arch2).labelCount = 0 ∧ (NewCompiler os arch2).vars = [] := by
  refine ⟨?_, rfl, rfl, rfl, rfl⟩
  rw [Compile, Compile, compileProgram_rebase, compileProgram_rebase]
  cases compileStatements (NewCompiler "" "") program.Statements <;> rfl

/-! ## Binary operators whose right operand is a binary expression -/

/-- The tokens of `x = 1 + 2 * 3;` parse to the sum of `1` and the product. -/
theorem Parse_nested_right :
    Returns (fun F => Parse F nestedRightTokens) (.ok nestedRightProgram) := by
  have e1 : Returns (fun F => parseExpression F nestedRightTokens 2)
      (.ok (.BinaryExpression (.NumberLiteral 1) TOKEN_PLUS
        (.BinaryExpression (.NumberLiteral 2) TOKEN_MULTIPLY (.NumberLiteral 3)), 7)) :=
    Returns.of_eq (parseExpression_mono _ _) (f := 10) (by decide) nofun
  have s1 := parseAssignment_returns (t := ⟨TOKEN_IDENT, "x"⟩)
    (show nestedRightTokens[0]? = _ by decide) (by decide) (by decide) e1 (by decide)
  exact parseLoop_returns_step (show tagAt _ 0 = some TOKEN_IDENT by decide) (by decide) s1
    (parseLoop_returns_stop (by decide) _)

/-- C16. The operands of a binary operator are compiled before the left operand is loaded: on
the source `x = 1 + 2 * 3;` the pipeline returns, between the prologue and the epilogue of
linux, the two lines of the product `2 * 3`, then the load of `1` into `eax`, which overwrites
the product, then the addition of `eax` to itself, then the store. -/
theorem compileSourceLines_nested_right (arch : String) :
    Returns (fun F => compileSourceLines F nestedRightSource "linux" arch)
      (.ok ["global _start", "section .text", "_start:",
        "    mov eax, 2", "    imul eax, 3", "    mov eax, 1", "    add eax, eax",
        "    mov [var_x], eax",
        "    mov eax, 60", "    xor edi, edi", "    syscall"]) := by
  have hTok : Tokenize nestedRightSource = .ok nestedRightTokens := by decide
  obtain ⟨_, F₀, hF⟩ := Parse_nested_right
  beta_reduce at hF
  refine ⟨nofun, F₀, fun F hle => ?_⟩
  show ((Tokenize nestedRightSource).bind fun tokens => (Parse F tokens).bind fun program =>
    (compileProgram (NewCompiler "linux" arch) program).bind fun c => .ok c.code) = _
  rw [hTok, Res.bind_ok, hF F hle, Res.bind_ok]
  simp only [compileProgram, generatePrologue, prologueLines, NewCompiler, Compiler.emitAll,
    compileStatements, compileStatement, compileAssignment, compileExpression, declare,
    compilePrint, compileBlock, nextLabel, compileOperator, Compiler.emit, generateEpilogue,
    epilogueLines, nestedRightProgram, Res.bind_ok, if_true, List.lookup, List.nil_append,
    List.append_assoc, List.cons_append]
  decide

/-! ## The lines of an if statement and of a while statement -/

/-- C17. If codegen: when `compileStatement` returns on an if statement, the statement has a
then-block, and the lines appended are the lines of the condition, `cmp <cond>, 0`,
`je <else-label>`, the lines that the statement loop appends for the statements of the
then-block, `jmp <end-label>`, `<else-label>:`, the lines that the statement loop appends for
the statements of the else-block (none without an else branch) and `<end-label>:`. The two
labels are taken after the condition, also without an else branch, they differ, their
numbers lie above the counter at entry, and each is defined exactly once in the appended
lines. -/
theorem compileStatement_if_lines (cond : Expression) (t e : Option (List Statement))
    (c c' : Compiler) (h : compileStatement c (.IfStatement cond t e) = .ok c') :
    ∃ (v : String) (c₁ c₂ c₃ : Compiler) (thenStmts : List Statement)
      (condCode thenCode elseCode : List String),
      t = some thenStmts ∧
      compileExpression c cond = .ok (v, c₁) ∧ c₁.code = c.code ++ condCode ∧
      compileStatements ({ c₁ with labelCount := c₁.labelCount + 2 }.emitAll
        ["    cmp " ++ v ++ ", 0", "    je " ++ labelName (c₁.labelCount + 1)])
        thenStmts = .ok c₂ ∧
      c₂.code = c₁.code ++ ["    cmp " ++ v ++ ", 0", "    je " ++ labelName (c₁.labelCount + 1)]
        ++ thenCode ∧
      (∀ elseStmts, e = some elseStmts →
        compileStatements (c₂.emitAll ["    jmp " ++ labelName (c₁.labelCount + 2),
          labelName (c₁.labelCount + 1) ++ ":"]) elseStmts = .ok c₃) ∧
      (e = none → c₃ = c₂.emitAll ["    jmp " ++ labelName (c₁.labelCount + 2),
        labelName (c₁.labelCount + 1) ++ ":"]) ∧
      c₃.code = c₂.code ++ ["    jmp " ++ labelName (c₁.labelCount + 2),
        labelName (c₁.labelCount + 1) ++ ":"] ++ elseCode ∧
      (e = none → elseCode = []) ∧
      c' = c₃.emit (labelName (c₁.labelCount + 2) ++ ":") ∧
      c'.code = c.code ++ (condCode ++
        ["    cmp " ++ v ++ ", 0", "    je " ++ labelName (c₁.labelCount + 1)] ++ thenCode ++
        ["    jmp " ++ labelName (c₁.labelCount + 2), labelName (c₁.labelCount + 1) ++ ":"] ++
        elseCode ++ [labelName (c₁.labelCount + 2) ++ ":"]) ∧
      labelName (c₁.labelCount + 1) ≠ labelName (c₁.labelCount + 2) ∧
      c.labelCount ≤ c₁.labelCount ∧
      labelHits (c₁.labelCount + 1) (c'.code.drop c.code.length) = 1 ∧
      labelHits (c₁.labelCount + 2) (c'.code.drop c.code.length) = 1 := by
  have hstep := compileStatement_step _ c c' h
  rw [compileStatement] at h
  obtain ⟨⟨v, c₁⟩, hv, h⟩ := Res.bind_eq_ok h
  obtain ⟨c₂, hT, h⟩ := Res.bind_eq_ok h
  obtain ⟨c₃, hE, h⟩ := Res.bind_eq_ok h
  cases h
  have s₁ := compileExpression_step cond c c₁ v hv
  have sT := compileBlock_step t _ c₂ hT
  have sE := compileElse_step e _ c₃ hE
  obtain ⟨new₁, hc₁, hl₁⟩ := s₁.code
  obtain ⟨newT, hcT, hlT⟩ := sT.code
  obtain ⟨newE, hcE, hlE⟩ := sE.code
  obtain ⟨new, hc, hl⟩ := hstep.code
  have h1 := s₁.labels
  have hT' := sT.labels
  have hE' := sE.labels
  simp only [nextLabel, Compiler.emitAll, Compiler.emit] at *
  have hdrop : List.drop c.code.length (c₃.code ++ [labelName (c₁.labelCount + 1 + 1) ++ ":"])
      = new := by
    rw [hc, List.drop_left]
  obtain ⟨thenStmts, rfl⟩ : ∃ thenStmts, t = some thenStmts := by
    cases t with
    | none => cases hT
    | some stmts => exact ⟨stmts, rfl⟩
  rw [compileBlock] at hT
  refine ⟨v, c₁, c₂, c₃, thenStmts, new₁, newT, newE, rfl, hv, hc₁, hT, ?_, ?_, ?_, ?_, ?_, rfl,
    ?_, ?_, ?_, ?_, ?_⟩
  · rw [hcT, List.append_assoc]
  · rintro elseStmts rfl
    rw [compileElse] at hE
    exact hE
  · rintro rfl
    cases hE
    rfl
  · rw [hcE, List.append_assoc]
  · rintro rfl
    cases hE
    exact List.append_cancel_left (by rw [← hcE, List.append_nil])
  · rw [hcE, hcT, hc₁]
    simp only [List.append_assoc]
  · intro heq
    have := labelName_injective heq
    omega
  · omega
  · rw [hdrop, hl, if_pos]
    rw [Statement.weigh]
    omega
  · rw [hdrop, hl, if_pos]
    rw [Statement.weigh]
    omega

/-- C17 at `if (x) \x7b print 1; \x7d else \x7b print 2; \x7d` and at `if (x) \x7b print 1; \x7d`
on a fresh compiler: the labels `label_1` and `label_2` are taken in both, the lines of
`print 2` stand between `label_1:` and `label_2:` in the first, and nothing stands between
them in the second. -/
theorem compileStatement_if_lines_witness :
    (compileStatement (NewCompiler "linux" "amd64")
      (.IfStatement (.Identifier "x") ifExampleThen ifElseExampleElse) =
        .ok ifElseExampleResult ∧
      ∃ (v : String) (c₁ c₂ c₃ : Compiler) (thenStmts : List Statement)
        (condCode thenCode elseCode : List String),
        ifExampleThen = some thenStmts ∧
        compileExpression (NewCompiler "linux" "amd64") (.Identifier "x") = .ok (v, c₁) ∧ c₁.code = (NewCompiler "linux" "amd64").code ++ condCode ∧
        compileStatements ({ c₁ with labelCount := c₁.labelCount + 2 }.emitAll
          ["    cmp " ++ v ++ ", 0", "    je " ++ labelName (c₁.labelCount + 1)])
          thenStmts = .ok c₂ ∧
        c₂.code = c₁.code ++ ["    cmp " ++ v ++ ", 0", "    je " ++ labelName (c₁.labelCount + 1)]
          ++ thenCode ∧
        (∀ elseStmts, ifElseExampleElse = some elseStmts →
          compileStatements (c₂.emitAll ["    jmp " ++ labelName (c₁.labelCount + 2),
            labelName (c₁.labelCount + 1) ++ ":"]) elseStmts = .ok c₃) ∧
        (ifElseExampleElse = none → c₃ = c₂.emitAll ["    jmp " ++ labelName (c₁.labelCount + 2),
          labelName (c₁.labelCount + 1) ++ ":"]) ∧
        c₃.code = c₂.code ++ ["    jmp " ++ labelName (c₁.labelCount + 2),
          labelName (c₁.labelCount + 1) ++ ":"] ++ elseCode ∧
        (ifElseExampleElse = none → elseCode = []) ∧
        ifElseExampleResult = c₃.emit (labelName (c₁.labelCount + 2) ++ ":") ∧
        ifElseExampleResult.code = (NewCompiler "linux" "amd64").code ++ (condCode ++
          ["    cmp " ++ v ++ ", 0", "    je " ++ labelName (c₁.labelCount + 1)] ++ thenCode ++
          ["    jmp " ++ labelName (c₁.labelCount + 2), labelName (c₁.labelCount + 1) ++ ":"] ++
          elseCode ++ [labelName (c₁.labelCount + 2) ++ ":"]) ∧
        labelName (c₁.labelCount + 1) ≠ labelName (c₁.labelCount + 2) ∧
        (NewCompiler "linux" "amd64").labelCount ≤ c₁.labelCount ∧
        labelHits (c₁.labelCount + 1) (ifElseExampleResult.code.drop (NewCompiler "linux" "amd64").code.length) = 1 ∧
        labelHits (c₁.labelCount + 2) (ifElseExampleResult.code.drop (NewCompiler "linux" "amd64").code.length) = 1) ∧
    (compileStatement (NewCompiler "linux" "amd64")
      (.IfStatement (.Identifier "x") ifExampleThen none) = .ok ifExampleResult ∧
      ∃ (v : String) (c₁ c₂ c₃ : Compiler) (thenStmts : List Statement)
        (condCode thenCode elseCode : List String),
        ifExampleThen = some thenStmts ∧
        compileExpression (NewCompiler "linux" "amd64") (.Identifier "x") = .ok (v, c₁) ∧ c₁.code = (NewCompiler "linux" "amd64").code ++ condCode ∧
        compileStatements ({ c₁ with labelCount := c₁.labelCount + 2 }.emitAll
          ["    cmp " ++ v ++ ", 0", "    je " ++ labelName (c₁.labelCount + 1)])
          thenStmts = .ok c₂ ∧
        c₂.code = c₁.code ++ ["    cmp " ++ v ++ ", 0", "    je " ++ labelName (c₁.labelCount + 1)]
          ++ thenCode ∧
        (∀ elseStmts, (none : Option (List Statement)) = some elseStmts →
          compileStatements (c₂.emitAll ["    jmp " ++ labelName (c₁.labelCount + 2),
            labelName (c₁.labelCount + 1) ++ ":"]) elseStmts = .ok c₃) ∧
        ((none : Option (List Statement)) = none → c₃ = c₂.emitAll ["    jmp " ++ labelName (c₁.labelCount + 2),
          labelName (c₁.labelCount + 1) ++ ":"]) ∧
        c₃.code = c₂.code ++ ["    jmp " ++ labelName (c₁.labelCount + 2),
          labelName (c₁.labelCount + 1) ++ ":"] ++ elseCode ∧
        ((none : Option (List Statement)) = none → elseCode = []) ∧
        ifExampleResult = c₃.emit (labelName (c₁.labelCount + 2) ++ ":") ∧
        ifExampleResult.code = (NewCompiler "linux" "amd64").code ++ (condCode ++
          ["    cmp " ++ v ++ ", 0", "    je " ++ labelName (c₁.labelCount + 1)] ++ thenCode ++
          ["    jmp " ++ labelName (c₁.labelCount + 2), labelName (c₁.labelCount + 1) ++ ":"] ++
          elseCode ++ [labelName (c₁.labelCount + 2) ++ ":"]) ∧
        labelName (c₁.labelCount + 1) ≠ labelName (c₁.labelCount + 2) ∧
        (NewCompiler "linux" "amd64").labelCount ≤ c₁.labelCount ∧
        labelHits (c₁.labelCount + 1) (ifExampleResult.code.drop (NewCompiler "linux" "amd64").code.length) = 1 ∧
        labelHits (c₁.labelCount + 2) (ifExampleResult.code.drop (NewCompiler "linux" "amd64").code.length) = 1) :=
  ⟨⟨rfl, compileStatement_if_lines (.Identifier "x") ifExampleThen ifElseExampleElse
      (NewCompiler "linux" "amd64") ifElseExampleResult rfl⟩,
    ⟨rfl, compileStatement_if_lines (.Identifier "x") ifExampleThen none
      (NewCompiler "linux" "amd64") ifExampleResult rfl⟩⟩

/-- C18. While codegen: when `compileStatement` returns on a while statement, the lines it
appended are `<start-label>:`, the lines of the condition, `cmp <cond>, 0`, `je <end-label>`,
the lines of the body, `jmp <start-label>` and `<end-label>:`. The two labels are the next two
of the counter at entry, they differ, and each is defined exactly once in the appended
lines. -/
theorem compileStatement_while_lines (cond : Expression) (body : Option (List Statement))
    (c c' : Compiler) (h : compileStatement c (.WhileStatement cond body) = .ok c') :
    ∃ (v : String) (c₁ c₂ : Compiler) (condCode bodyCode : List String),
      compileExpression ({ c with labelCount := c.labelCount + 2 }.emit
        (labelName (c.labelCount + 1) ++ ":")) cond = .ok (v, c₁) ∧
      c₁.code = c.code ++ [labelName (c.labelCount + 1) ++ ":"] ++ condCode ∧
      compileBlock (c₁.emitAll
        ["    cmp " ++ v ++ ", 0", "    je " ++ labelName (c.labelCount + 2)]) body = .ok c₂ ∧
      c₂.code = c₁.code ++ ["    cmp " ++ v ++ ", 0", "    je " ++ labelName (c.labelCount + 2)]
        ++ bodyCode ∧
      c'.code = c.code ++ ([labelName (c.labelCount + 1) ++ ":"] ++ condCode ++
        ["    cmp " ++ v ++ ", 0", "    je " ++ labelName (c.labelCount + 2)] ++ bodyCode ++
        ["    jmp " ++ labelName (c.labelCount + 1), labelName (c.labelCount + 2) ++ ":"]) ∧
      labelName (c.labelCount + 1) ≠ labelName (c.labelCount + 2) ∧
      labelHits (c.labelCount + 1) (c'.code.drop c.code.length) = 1 ∧
      labelHits (c.labelCount + 2) (c'.code.drop c.code.length) = 1 := by
  have hstep := compileStatement_step _ c c' h
  rw [compileStatement] at h
  obtain ⟨⟨v, c₁⟩, hv, h⟩ := Res.bind_eq_ok h
  obtain ⟨c₂, hB, h⟩ := Res.bind_eq_ok h
  cases h
  have s₁ := compileExpression_step cond _ c₁ v hv
  have sB := compileBlock_step body _ c₂ hB
  obtain ⟨new₁, hc₁, hl₁⟩ := s₁.code
  obtain ⟨newB, hcB, hlB⟩ := sB.code
  obtain ⟨new, hc, hl⟩ := hstep.code
  simp only [nextLabel, Compiler.emitAll, Compiler.emit] at *
  have hdrop : List.drop c.code.length (c₂.code ++ ["    jmp " ++ labelName (c.labelCount + 1),
      labelName (c.labelCount + 1 + 1) ++ ":"]) = new := by
    rw [hc, List.drop_left]
  refine ⟨v, c₁, c₂, new₁, newB, hv, hc₁, hB, ?_, ?_, ?_, ?_, ?_⟩
  · rw [hcB, List.append_assoc]
  · rw [hcB, hc₁]
    simp only [List.append_assoc]
  · intro heq
    have := labelName_injective heq
    omega
  · rw [hdrop, hl, if_pos]
    rw [Statement.weigh]
    omega
  · rw [hdrop, hl, if_pos]
    rw [Statement.weigh]
    omega

/-- C18 at `while (x) \x7b x = 0; \x7d` on a fresh compiler: the labels `label_1` and `label_2`
are taken. -/
theorem compileStatement_while_lines_witness :
    ∃ (v : String) (c₁ c₂ : Compiler) (condCode bodyCode : List String),
      compileExpression ({ NewCompiler "linux" "amd64" with
        labelCount := (NewCompiler "linux" "amd64").labelCount + 2 }.emit
        (labelName ((NewCompiler "linux" "amd64").labelCount + 1) ++ ":"))
        (.Identifier "x") = .ok (v, c₁) ∧
      c₁.code = (NewCompiler "linux" "amd64").code ++
        [labelName ((NewCompiler "linux" "amd64").labelCount + 1) ++ ":"] ++ condCode ∧
      compileBlock (c₁.emitAll ["    cmp " ++ v ++ ", 0",
        "    je " ++ labelName ((NewCompiler "linux" "amd64").labelCount + 2)])
        whileBodyExample = .ok c₂ ∧
      c₂.code = c₁.code ++ ["    cmp " ++ v ++ ", 0",
        "    je " ++ labelName ((NewCompiler "linux" "amd64").labelCount + 2)] ++ bodyCode ∧
      whileResultExample.code = (NewCompiler "linux" "amd64").code ++
        ([labelName ((NewCompiler "linux" "amd64").labelCount + 1) ++ ":"] ++ condCode ++
        ["    cmp " ++ v ++ ", 0",
          "    je " ++ labelName ((NewCompiler "linux" "amd64").labelCount + 2)] ++ bodyCode ++
        ["    jmp " ++ labelName ((NewCompiler "linux" "amd64").labelCount + 1),
          labelName ((NewCompiler "linux" "amd64").labelCount + 2) ++ ":"]) ∧
      labelName ((NewCompiler "linux" "amd64").labelCount + 1) ≠
        labelName ((NewCompiler "linux" "amd64").labelCount + 2) ∧
      labelHits ((NewCompiler "linux" "amd64").labelCount + 1)
        (whileResultExample.code.drop (NewCompiler "linux" "amd64").code.length) = 1 ∧
      labelHits ((NewCompiler "linux" "amd64").labelCount + 2)
        (whileResultExample.code.drop (NewCompiler "linux" "amd64").code.length) = 1 :=
  compileStatement_while_lines (.Identifier "x") whileBodyExample
    (NewCompiler "linux" "amd64") whileResultExample rfl

/-! ## Jump targets -/

theorem jumpTarget_of_plainLine {line : String} (h : plainLine line = true) :
    jumpTarget line = none := by
  have key : ∀ (n : Nat) (p : List Char), 4 < n → p[4]? = some 'j' →
      line.data.take n ≠ p := by
    intro n p hn hp heq
    have h4 : (line.data.take n)[4]? = line.data[4]? := by
      rw [List.getElem?_take, if_pos hn]
    rw [heq, hp] at h4
    unfold plainLine at h
    rw [← h4] at h
    exact absurd h (by decide)
  unfold jumpTarget
  rw [if_neg (key 7 _ (by omega) (by decide)), if_neg (key 8 _ (by omega) (by decide)),
    if_neg (key 8 _ (by omega) (by decide))]

theorem jumpTarget_je (x : String) : jumpTarget ("    je " ++ x) = some x := by
  unfold jumpTarget
  have h : ("    je " ++ x).data = "    je ".data ++ x.data := String.data_append _ _
  rw [h, List.take_left' (by decide), if_pos rfl, List.drop_left' (by decide)]

theorem jumpTarget_jne (x : String) : jumpTarget ("    jne " ++ x) = some x := by
  unfold jumpTarget
  have h : ("    jne " ++ x).data = "    jne ".data ++ x.data := String.data_append _ _
  have h7 : List.take 7 ("    jne ".data ++ x.data) = "    jne".data := rfl
  rw [h, h7, if_neg (by decide), List.take_left' (by decide), if_pos rfl,
    List.drop_left' (by decide)]

theorem jumpTarget_jmp (x : String) : jumpTarget ("    jmp " ++ x) = some x := by
  unfold jumpTarget
  have h : ("    jmp " ++ x).data = "    jmp ".data ++ x.data := String.data_append _ _
  have h7 : List.take 7 ("    jmp ".data ++ x.data) = "    jmp".data := rfl
  rw [h, h7, if_neg (by decide), List.take_left' (by decide), if_neg (by decide), if_pos rfl,
    List.drop_left' (by decide)]

theorem JumpsWithin.nil (lo hi : Nat) : JumpsWithin lo hi [] :=
  fun _ h => by cases h

theorem JumpsWithin.append {lo hi : Nat} {a b : List String} (ha : JumpsWithin lo hi a)
    (hb : JumpsWithin lo hi b) : JumpsWithin lo hi (a ++ b) := by
  intro line hl
  rcases List.mem_append.1 hl with h | h
  · exact ha line h
  · exact hb line h

theorem JumpsWithin.mono {lo hi lo' hi' : Nat} {l : List String} (h : JumpsWithin lo hi l)
    (hlo : lo' ≤ lo) (hhi : hi ≤ hi') : JumpsWithin lo' hi' l := by
  intro line hl target ht
  obtain ⟨k, h1, h2, h3⟩ := h line hl target ht
  exact ⟨k, by omega, by omega, h3⟩

theorem JumpsWithin.cons_plain {lo hi : Nat} {x : String} {l : List String}
    (hx : plainLine x = true) (h : JumpsWithin lo hi l) : JumpsWithin lo hi (x :: l) := by
  intro line hl target ht
  rcases List.mem_cons.1 hl with h1 | h1
  · subst h1
    rw [jumpTarget_of_plainLine hx] at ht
    cases ht
  · exact h line h1 target ht

theorem JumpsWithin.cons_target {lo hi k : Nat} {x : String} {l : List String}
    (hx : jumpTarget x = some (labelName k)) (hlo : lo < k) (hhi : k ≤ hi)
    (h : JumpsWithin lo hi l) : JumpsWithin lo hi (x :: l) := by
  intro line hl target ht
  rcases List.mem_cons.1 hl with h1 | h1
  · subst h1
    rw [hx] at ht
    cases ht
    exact ⟨k, hlo, hhi, rfl⟩
  · exact h line h1 target ht

theorem plainLine_labelLine (k : Nat) : plainLine (labelName k ++ ":") = true := rfl

theorem JumpStep.stay (c : Compiler) : JumpStep c c :=
  ⟨le_rfl, [], by simp, JumpsWithin.nil _ _⟩

theorem JumpStep.chain {c c₁ c₂ : Compiler} (h₁ : JumpStep c c₁) (h₂ : JumpStep c₁ c₂) :
    JumpStep c c₂ := by
  obtain ⟨l₁, new₁, hc₁, hj₁⟩ := h₁
  obtain ⟨l₂, new₂, hc₂, hj₂⟩ := h₂
  refine ⟨by omega, new₁ ++ new₂, by rw [hc₂, hc₁, List.append_assoc], ?_⟩
  exact (hj₁.mono le_rfl l₂).append (hj₂.mono l₁ le_rfl)

theorem JumpStep.of_appended {c c' : Compiler} (lines : List String)
    (hc : c'.code = c.code ++ lines) (hl : c.labelCount ≤ c'.labelCount)
    (h : JumpsWithin c.labelCount c'.labelCount lines) : JumpStep c c' :=
  ⟨hl, lines, hc, h⟩

theorem compileOperator_jumps {c c' : Compiler} {op : TokenType} {right : String}
    (h : compileOperator c op right = .ok c') : JumpStep c c' := by
  cases op
  all_goals first
    | (cases h; done)
    | skip
  case TOKEN_AND =>
    cases h
    refine JumpStep.of_appended _ rfl (Nat.le_succ _) ?_
    exact JumpsWithin.cons_plain (by rfl) (JumpsWithin.cons_target (jumpTarget_je _)
      (Nat.lt_succ_self _) le_rfl (JumpsWithin.cons_plain (by rfl) (JumpsWithin.cons_plain
        (by rfl) (JumpsWithin.cons_plain (by rfl) (JumpsWithin.cons_plain (by rfl)
          (JumpsWithin.nil _ _))))))
  case TOKEN_OR =>
    cases h
    refine JumpStep.of_appended _ rfl (Nat.le_add_right _ 2) ?_
    exact JumpsWithin.cons_plain (by rfl) (JumpsWithin.cons_target (jumpTarget_jne _)
      (Nat.lt_succ_self _) (Nat.le_succ _) (JumpsWithin.cons_plain (by rfl)
        (JumpsWithin.cons_plain (by rfl) (JumpsWithin.cons_plain (by rfl)
          (JumpsWithin.cons_target (jumpTarget_jmp _)
            (Nat.lt_succ_of_lt (Nat.lt_succ_self _)) le_rfl
            (JumpsWithin.cons_plain (by rfl) (JumpsWithin.cons_plain (by rfl)
              (JumpsWithin.cons_plain (by rfl) (JumpsWithin.nil _ _)))))))))
  all_goals
    cases h
    refine JumpStep.of_appended _ rfl le_rfl ?_
    repeat first
      | exact JumpsWithin.nil _ _
      | refine JumpsWithin.cons_plain (by rfl) ?_

theorem compileExpression_jumps : ∀ (e : Expression) (c c' : Compiler) (v : String),
    compileExpression c e = .ok (v, c') → JumpStep c c'
  | .NumberLiteral _, c, c', v, h => by cases h; exact JumpStep.stay c
  | .StringLiteral _, c, c', v, h => by cases h; exact JumpStep.stay c
  | .BooleanLiteral _, c, c', v, h => by cases h; exact JumpStep.stay c
  | .Identifier _, c, c', v, h => by cases h; exact JumpStep.stay c
  | .nil, c, c', v, h => by cases h
  | .BinaryExpression l op r, c, c', v, h => by
    rw [compileExpression] at h
    obtain ⟨⟨lv, c₁⟩, hl, h⟩ := Res.bind_eq_ok h
    obtain ⟨⟨rv, c₂⟩, hr, h⟩ := Res.bind_eq_ok h
    obtain ⟨c₃, ho, h⟩ := Res.bind_eq_ok h
    cases h
    have s₁ := compileExpression_jumps l c c₁ lv hl
    have s₂ := compileExpression_jumps r c₁ c₂ rv hr
    have s₃ : JumpStep c₂ (c₂.emit ("    mov eax, " ++ lv)) :=
      JumpStep.of_appended ["    mov eax, " ++ lv] rfl le_rfl
        (JumpsWithin.cons_plain (by rfl) (JumpsWithin.nil _ _))
    exact (s₁.chain s₂).chain (s₃.chain (compileOperator_jumps ho))

theorem compileAssignment_jumps {c c' : Compiler} {ident : String} {value : Expression}
    (h : compileAssignment c ident value = .ok c') : JumpStep c c' := by
  rw [compileAssignment] at h
  obtain ⟨⟨v, c₁⟩, hv, h⟩ := Res.bind_eq_ok h
  cases h
  refine (compileExpression_jumps value c c₁ v hv).chain ?_
  exact JumpStep.of_appended ["    mov [var_" ++ ident ++ "], " ++ v] rfl le_rfl
    (JumpsWithin.cons_plain (by rfl) (JumpsWithin.nil _ _))

theorem compilePrint_jumps {c c' : Compiler} {e : Expression}
    (h : compilePrint c e = .ok c') : JumpStep c c' := by
  rw [compilePrint] at h
  obtain ⟨⟨v, c₁⟩, hv, h⟩ := Res.bind_eq_ok h
  cases h
  refine (compileExpression_jumps e c c₁ v hv).chain ?_
  exact JumpStep.of_appended ["    push " ++ v, "    call print_int", "    add esp, 4"] rfl le_rfl
    (JumpsWithin.cons_plain (by rfl) (JumpsWithin.cons_plain (by rfl)
      (JumpsWithin.cons_plain (by rfl) (JumpsWithin.nil _ _))))

mutual

theorem compileStatement_jumps : ∀ (s : Statement) (c c' : Compiler),
    compileStatement c s = .ok c' → JumpStep c c'
  | .AssignmentStatement ident value, c, c', h => by
    rw [compileStatement] at h
    exact compileAssignment_jumps h
  | .PrintStatement e, c, c', h => by
    rw [compileStatement] at h
    exact compilePrint_jumps h
  | .IfStatement cond t e, c, c', h => by
    rw [compileStatement] at h
    obtain ⟨⟨v, c₁⟩, hv, h⟩ := Res.bind_eq_ok h
    obtain ⟨c₅, hT, h⟩ := Res.bind_eq_ok h
    obtain ⟨c₇, hE, h⟩ := Res.bind_eq_ok h
    cases h
    obtain ⟨l₁, new₁, hc₁, hj₁⟩ := compileExpression_jumps cond c c₁ v hv
    obtain ⟨lT, newT, hcT, hjT⟩ := compileBlock_jumps t _ c₅ hT
    obtain ⟨lE, newE, hcE, hjE⟩ := compileElse_jumps e _ c₇ hE
    simp only [nextLabel, Compiler.emitAll, Compiler.emit] at *
    refine ⟨show c.labelCount ≤ c₇.labelCount by omega, new₁ ++ (["    cmp " ++ v ++ ", 0",
      "    je " ++ labelName (c₁.labelCount + 1)] ++
        (newT ++ (["    jmp " ++ labelName (c₁.labelCount + 1 + 1),
          labelName (c₁.labelCount + 1) ++ ":"] ++
            (newE ++ [labelName (c₁.labelCount + 1 + 1) ++ ":"])))), ?_, ?_⟩
    · show c₇.code ++ _ = _
      rw [hcE, hcT, hc₁]
      simp only [List.append_assoc]
    · show JumpsWithin c.labelCount c₇.labelCount _
      refine (hj₁.mono le_rfl (by omega)).append (JumpsWithin.append ?_
        ((hjT.mono (by omega) (by omega)).append (JumpsWithin.append ?_
          ((hjE.mono (by omega) le_rfl).append ?_))))
      · exact JumpsWithin.cons_plain (by rfl) (JumpsWithin.cons_target (jumpTarget_je _)
          (by omega) (by omega) (JumpsWithin.nil _ _))
      · exact JumpsWithin.cons_target (jumpTarget_jmp _) (by omega) (by omega)
          (JumpsWithin.cons_plain (by rfl) (JumpsWithin.nil _ _))
      · exact JumpsWithin.cons_plain (by rfl) (JumpsWithin.nil _ _)
  | .WhileStatement cond body, c, c', h => by
    rw [compileStatement] at h
    obtain ⟨⟨v, c₁⟩, hv, h⟩ := Res.bind_eq_ok h
    obtain ⟨c₅, hB, h⟩ := Res.bind_eq_ok h
    cases h
    obtain ⟨l₁, new₁, hc₁, hj₁⟩ := compileExpression_jumps cond _ c₁ v hv
    obtain ⟨lB, newB, hcB, hjB⟩ := compileBlock_jumps body _ c₅ hB
    simp only [nextLabel, Compiler.emitAll, Compiler.emit] at *
    refine ⟨show c.labelCount ≤ c₅.labelCount by omega,
      [labelName (c.labelCount + 1) ++ ":"] ++ (new₁ ++
      (["    cmp " ++ v ++ ", 0", "    je " ++ labelName (c.labelCount + 1 + 1)] ++
        (newB ++ ["    jmp " ++ labelName (c.labelCount + 1),
          labelName (c.labelCount + 1 + 1) ++ ":"]))), ?_, ?_⟩
    · show c₅.code ++ _ = _
      rw [hcB, hc₁]
      simp only [List.append_assoc]
    · show JumpsWithin c.labelCount c₅.labelCount _
      refine JumpsWithin.append ?_ ((hj₁.mono (by omega) (by omega)).append
        (JumpsWithin.append ?_ ((hjB.mono (by omega) le_rfl).append ?_)))
      · exact JumpsWithin.cons_plain (by rfl) (JumpsWithin.nil _ _)
      · exact JumpsWithin.cons_plain (by rfl) (JumpsWithin.cons_target (jumpTarget_je _)
          (by omega) (by omega) (JumpsWithin.nil _ _))
      · exact JumpsWithin.cons_target (jumpTarget_jmp _) (by omega) (by omega)
          (JumpsWithin.cons_plain (by rfl) (JumpsWithin.nil _ _))
  | .Block stmts, c, c', h => by
    rw [compileStatement] at h
    exact compileStatements_jumps stmts c c' h

theorem compileBlock_jumps : ∀ (b : Option (List Statement)) (c c' : Compiler),
    compileBlock c b = .ok c' → JumpStep c c'
  | none, c, c', h => by cases h
  | some stmts, c, c', h => by
    rw [compileBlock] at h
    exact compileStatements_jumps stmts c c' h

theorem compileElse_jumps : ∀ (b : Option (List Statement)) (c c' : Compiler),
    compileElse c b = .ok c' → JumpStep c c'
  | none, c, c', h => by
    cases h
    exact JumpStep.stay c
  | some stmts, c, c', h => by
    rw [compileElse] at h
    exact compileStatements_jumps stmts c c' h

theorem compileStatements_jumps : ∀ (l : List Statement) (c c' : Compiler),
    compileStatements c l = .ok c' → JumpStep c c'
  | [], c, c', h => by
    cases h
    exact JumpStep.stay c
  | s :: rest, c, c', h => by
    rw [compileStatements] at h
    obtain ⟨c₁, h₁, h⟩ := Res.bind_eq_ok h
    exact (compileStatement_jumps s c c₁ h₁).chain (compileStatements_jumps rest c₁ c' h)

end

theorem jumpsWithin_prologueLines (os : String) (lo hi : Nat) :
    JumpsWithin lo hi (prologueLines os) := by
  unfold prologueLines
  split_ifs
  all_goals
    repeat first
      | exact JumpsWithin.nil _ _
      | refine JumpsWithin.cons_plain (by rfl) ?_

theorem jumpsWithin_epilogueLines (os : String) (lo hi : Nat) :
    JumpsWithin lo hi (epilogueLines os) := by
  unfold epilogueLines
  split_ifs
  all_goals
    repeat first
      | exact JumpsWithin.nil _ _
      | refine JumpsWithin.cons_plain (by rfl) ?_

/-- C20. Jump targets are defined: when `Compile` on a fresh compiler completes, every `je`,
`jne` and `jmp` instruction among the emitted lines names a label `label_k` whose defining line
`label_k:` occurs exactly once among the emitted lines. -/
theorem compileProgram_jump_targets (os arch : String) (p : Program) (c' : Compiler)
    (h : compileProgram (NewCompiler os arch) p = .ok c') :
    ∀ line ∈ c'.code, ∀ target, jumpTarget line = some target →
      ∃ k, target = labelName k ∧ c'.code.count (labelName k ++ ":") = 1 := by
  unfold compileProgram at h
  obtain ⟨c₁, hrun, h⟩ := Res.bind_eq_ok h
  cases h
  have hs := compileStatements_step _ _ _ hrun
  obtain ⟨new, hc, hl⟩ := hs.code
  obtain ⟨-, new', hc', hj⟩ := compileStatements_jumps _ _ _ hrun
  have hnew : new' = new := List.append_cancel_left (hc'.symm.trans hc)
  rw [hnew] at hj
  have hcode : (generateEpilogue c₁).code =
      prologueLines os ++ new ++ epilogueLines c₁.os := by
    show c₁.code ++ epilogueLines c₁.os = _
    rw [hc]
    rfl
  have hall : JumpsWithin 0 c₁.labelCount (generateEpilogue c₁).code := by
    rw [hcode]
    exact ((jumpsWithin_prologueLines _ _ _).append hj).append (jumpsWithin_epilogueLines _ _ _)
  intro line hline target ht
  obtain ⟨k, hk0, hk1, rfl⟩ := hall line hline target ht
  refine ⟨k, rfl, ?_⟩
  show labelHits k (generateEpilogue c₁).code = 1
  rw [hcode, labelHits_append, labelHits_append, labelHits_prologueLines,
    labelHits_epilogueLines, hl k, if_pos]
  have := hs.labels
  exact ⟨hk0, by omega⟩

/-- C20 at `if (true || x) \x7b\x7d` on linux, for the emitted line `    je label_3`: its
target is `label_3`, which is defined exactly once. -/
theorem compileProgram_jump_targets_witness :
    ∃ k, "label_3" = labelName k ∧ ifOrFinal.code.count (labelName k ++ ":") = 1 :=
  compileProgram_jump_targets "linux" "amd64" ifOrProgram ifOrFinal (by decide)
    "    je label_3" (by decide) "label_3" (by decide)

/-! ## The parser builds programs that the code generator handles -/

theorem isBinaryOperator_of_precedence {op : TokenType} (h : 1 ≤ precedence op) :
    isBinaryOperator op = true := by
  cases op <;> first | rfl | (exact absurd h (by decide))

theorem knownList_append_singleton (l : List Statement) (s : Statement) :
    knownList (l ++ [s]) = (knownList l && s.known) := by
  induction l with
  | nil => simp [knownList]
  | cons x rest ih => simp [knownList, ih, Bool.and_assoc]

theorem knownList_appendStmt {l : List Statement} {s : Option Statement}
    (hl : knownList l = true) (hs : ∀ x, s = some x → x.known = true) :
    knownList (appendStmt l s) = true := by
  cases s with
  | none => exact hl
  | some x =>
    rw [appendStmt, knownList_append_singleton, hl, hs x rfl]
    rfl

/-- The expression parser builds known expressions, at every level. -/
theorem parseAt_known (f : Nat) :
    (∀ level tokens pos e q, parseAt f level tokens pos = .ok (e, q) → e.known = true) ∧
    (∀ level tokens expr pos e q, 1 ≤ level → expr.known = true →
      loopAt f level tokens expr pos = .ok (e, q) → e.known = true) := by
  induction f with
  | zero =>
    refine ⟨fun level tokens pos e q h => ?_, fun level tokens expr pos e q _ _ h => ?_⟩
    · rw [parseAt] at h
      cases h
    · rw [loopAt] at h
      cases h
  | succ f ih =>
    obtain ⟨ihP, ihL⟩ := ih
    refine ⟨fun level tokens pos e q h => ?_, fun level tokens expr pos e q hlev hk h => ?_⟩
    · rw [parseAt] at h
      by_cases h0 : level = 0
      · rw [if_pos h0] at h
        exact ihP _ _ _ _ _ h
      rw [if_neg h0] at h
      by_cases h6 : level ≤ 6
      · rw [if_pos h6] at h
        obtain ⟨⟨e₁, q₁⟩, h₁, h⟩ := Res.bind_eq_ok h
        exact ihL _ _ _ _ _ _ (by omega) (ihP _ _ _ _ _ h₁) h
      rw [if_neg h6] at h
      cases ht : tokens[pos]? with
      | none => rw [ht] at h; cases h
      | some t =>
        rw [ht] at h
        simp only at h
        cases hty : t.Typ <;> rw [hty] at h <;> simp only at h
        all_goals first
          | (cases h; done)
          | (cases h; rfl)
          | skip
        obtain ⟨⟨e₁, q₁⟩, h₁, h⟩ := Res.bind_eq_ok h
        obtain ⟨_, _, h⟩ := Res.bind_eq_ok h
        cases h
        exact ihP _ _ _ _ _ h₁
    · rw [loopAt] at h
      cases ht : tokens[pos]? with
      | none =>
        rw [ht] at h
        cases h
        exact hk
      | some t =>
        rw [ht] at h
        simp only at h
        by_cases hp : precedence t.Typ = level
        · rw [if_pos hp] at h
          obtain ⟨⟨e₁, q₁⟩, h₁, h⟩ := Res.bind_eq_ok h
          refine ihL _ _ _ _ _ _ hlev ?_ h
          show (expr.known && isBinaryOperator t.Typ && e₁.known) = true
          rw [hk, ihP _ _ _ _ _ h₁, isBinaryOperator_of_precedence (by omega)]
          rfl
        · rw [if_neg hp] at h
          cases h
          exact hk

theorem parseExpression_known {f : Nat} {tokens : List Token} {pos q : Nat} {e : Expression}
    (h : parseExpression f tokens pos = .ok (e, q)) : e.known = true := by
  rw [parseExpression_eq_parseAt] at h
  exact (parseAt_known f).1 _ _ _ _ _ h

theorem parseAssignment_known {f : Nat} {tokens : List Token} {pos q : Nat} {s : Statement}
    (h : parseAssignment f tokens pos = .ok (s, q)) : s.known = true := by
  cases f with
  | zero => cases h
  | succ f =>
    rw [parseAssignment] at h
    obtain ⟨ident, _, h⟩ := Res.bind_eq_ok h
    obtain ⟨_, _, h⟩ := Res.bind_eq_ok h
    obtain ⟨⟨e, q₁⟩, he, h⟩ := Res.bind_eq_ok h
    obtain ⟨_, _, h⟩ := Res.bind_eq_ok h
    cases h
    exact parseExpression_known he

theorem parsePrintStatement_known {f : Nat} {tokens : List Token} {pos q : Nat}
    {s : Statement} (h : parsePrintStatement f tokens pos = .ok (s, q)) : s.known = true := by
  cases f with
  | zero => cases h
  | succ f =>
    rw [parsePrintStatement] at h
    obtain ⟨⟨e, q₁⟩, he, h⟩ := Res.bind_eq_ok h
    obtain ⟨_, _, h⟩ := Res.bind_eq_ok h
    cases h
    exact parseExpression_known he

/-- The statement parser builds known statements. -/
theorem parseStatement_known (f : Nat) :
    (∀ tokens pos s q, parseStatement f tokens pos = .ok (some s, q) → s.known = true) ∧
    (∀ tokens pos s q, parseIfStatement f tokens pos = .ok (s, q) → s.known = true) ∧
    (∀ tokens pos s q, parseWhileStatement f tokens pos = .ok (s, q) → s.known = true) ∧
    (∀ tokens pos l q, parseBlock f tokens pos = .ok (l, q) → knownList l = true) ∧
    (∀ tokens pos stmts l q, knownList stmts = true →
      parseBlockLoop f tokens pos stmts = .ok (l, q) → knownList l = true) := by
  induction f with
  | zero =>
    refine ⟨?_, ?_, ?_, ?_, ?_⟩
    · intro tokens pos s q h; rw [parseStatement] at h; cases h
    · intro tokens pos s q h; rw [parseIfStatement] at h; cases h
    · intro tokens pos s q h; rw [parseWhileStatement] at h; cases h
    · intro tokens pos l q h; rw [parseBlock] at h; cases h
    · intro tokens pos stmts l q _ h; rw [parseBlockLoop] at h; cases h
  | succ f ih =>
    obtain ⟨ihS, ihI, ihW, ihB, ihL⟩ := ih
    refine ⟨?_, ?_, ?_, ?_, ?_⟩
    · intro tokens pos s q h
      rw [parseStatement] at h
      cases ht : tokens[pos]? with
      | none => rw [ht] at h; cases h
      | some t =>
        rw [ht] at h
        simp only at h
        cases hty : t.Typ <;> rw [hty] at h <;> simp only at h
        all_goals first
          | cases h
          | skip
        · obtain ⟨⟨s₁, q₁⟩, h₁, h⟩ := Res.bind_eq_ok h
          cases h
          exact parseAssignment_known h₁
        · obtain ⟨⟨s₁, q₁⟩, h₁, h⟩ := Res.bind_eq_ok h
          cases h
          exact parsePrintStatement_known h₁
        · obtain ⟨⟨s₁, q₁⟩, h₁, h⟩ := Res.bind_eq_ok h
          cases h
          exact ihI _ _ _ _ h₁
        · obtain ⟨⟨s₁, q₁⟩, h₁, h⟩ := Res.bind_eq_ok h
          cases h
          exact ihW _ _ _ _ h₁
    · intro tokens pos s q h
      rw [parseIfStatement] at h
      obtain ⟨_, _, h⟩ := Res.bind_eq_ok h
      obtain ⟨⟨c, q₁⟩, hc, h⟩ := Res.bind_eq_ok h
      obtain ⟨_, _, h⟩ := Res.bind_eq_ok h
      obtain ⟨⟨th, q₂⟩, hth, h⟩ := Res.bind_eq_ok h
      have hck := parseExpression_known hc
      have hthk := ihB _ _ _ _ hth
      simp only at h
      cases ht : tokens[q₂]? with
      | none =>
        rw [ht] at h
        cases h
        simp [Statement.known, knownBlock, knownElse, hck, hthk]
      | some t =>
        rw [ht] at h
        simp only at h
        by_cases hel : t.Typ = TOKEN_ELSE
        · rw [if_pos hel] at h
          obtain ⟨⟨el, q₃⟩, hel', h⟩ := Res.bind_eq_ok h
          cases h
          simp [Statement.known, knownBlock, knownElse, hck, hthk, ihB _ _ _ _ hel']
        · rw [if_neg hel] at h
          cases h
          simp [Statement.known, knownBlock, knownElse, hck, hthk]
    · intro tokens pos s q h
      rw [parseWhileStatement] at h
      obtain ⟨_, _, h⟩ := Res.bind_eq_ok h
      obtain ⟨⟨c, q₁⟩, hc, h⟩ := Res.bind_eq_ok h
      obtain ⟨_, _, h⟩ := Res.bind_eq_ok h
      obtain ⟨⟨b, q₂⟩, hb, h⟩ := Res.bind_eq_ok h
      cases h
      simp [Statement.known, knownBlock, parseExpression_known hc, ihB _ _ _ _ hb]
    · intro tokens pos l q h
      rw [parseBlock] at h
      obtain ⟨_, _, h⟩ := Res.bind_eq_ok h
      obtain ⟨⟨l₁, q₁⟩, h₁, h⟩ := Res.bind_eq_ok h
      have hl := ihL tokens (pos + 1) [] l₁ q₁ rfl h₁
      cases h
      exact hl
    · intro tokens pos stmts l q hk h
      rw [parseBlockLoop] at h
      cases ht : tokens[pos]? with
      | none => rw [ht] at h; cases h
      | some t =>
        rw [ht] at h
        simp only at h
        by_cases hr : t.Typ = TOKEN_RBRACE
        · rw [if_pos hr] at h
          cases h
          exact hk
        · rw [if_neg hr] at h
          obtain ⟨⟨s, q₁⟩, hs, h⟩ := Res.bind_eq_ok h
          refine ihL _ _ _ _ _ (knownList_appendStmt hk fun x hx => ?_) h
          simp only at hx
          subst hx
          exact ihS _ _ _ _ hs

theorem parseLoop_known (f : Nat) : ∀ (tokens : List Token) (pos : Nat)
    (stmts : List Statement) (p : Program), knownList stmts = true →
    parseLoop f tokens pos stmts = .ok p → p.known = true := by
  induction f with
  | zero => intro tokens pos stmts p _ h; cases h
  | succ f ih =>
    intro tokens pos stmts p hk h
    rw [parseLoop] at h
    cases ht : tokens[pos]? with
    | none =>
      rw [ht] at h
      cases h
      exact hk
    | some t =>
      rw [ht] at h
      simp only at h
      by_cases he : t.Typ = TOKEN_EOF
      · rw [if_pos he] at h
        cases h
        exact hk
      · rw [if_neg he] at h
        obtain ⟨⟨s, q₁⟩, hs, h⟩ := Res.bind_eq_ok h
        refine ih _ _ _ _ (knownList_appendStmt hk fun x hx => ?_) h
        simp only at hx
        subst hx
        exact (parseStatement_known f).1 _ _ _ _ hs

theorem compileOperator_ok (c : Compiler) {op : TokenType} (right : String)
    (h : isBinaryOperator op = true) : ∃ c', compileOperator c op right = .ok c' := by
  cases op <;> first | exact ⟨_, rfl⟩ | cases h

theorem compileExpression_ok : ∀ (e : Expression) (c : Compiler), e.known = true →
    ∃ r, compileExpression c e = .ok r
  | .NumberLiteral _, c, _ => ⟨_, rfl⟩
  | .StringLiteral _, c, _ => ⟨_, rfl⟩
  | .BooleanLiteral _, c, _ => ⟨_, rfl⟩
  | .Identifier _, c, _ => ⟨_, rfl⟩
  | .nil, c, h => by cases h
  | .BinaryExpression l op r, c, h => by
    simp only [Expression.known, Bool.and_eq_true] at h
    obtain ⟨⟨hl, hop⟩, hr⟩ := h
    obtain ⟨left, hleft⟩ := compileExpression_ok l c hl
    obtain ⟨right, hright⟩ := compileExpression_ok r left.2 hr
    obtain ⟨c', hc'⟩ := compileOperator_ok (right.2.emit ("    mov eax, " ++ left.1)) right.1 hop
    exact ⟨("eax", c'), by rw [compileExpression, hleft, Res.bind_ok, hright, Res.bind_ok, hc',
      Res.bind_ok]⟩

mutual

theorem compileStatement_ok : ∀ (s : Statement) (c : Compiler), s.known = true →
    ∃ c', compileStatement c s = .ok c'
  | .AssignmentStatement ident value, c, h => by
    rw [Statement.known] at h
    obtain ⟨v, hv⟩ := compileExpression_ok value c h
    exact ⟨_, by rw [compileStatement, compileAssignment, hv, Res.bind_ok]⟩
  | .PrintStatement e, c, h => by
    rw [Statement.known] at h
    obtain ⟨v, hv⟩ := compileExpression_ok e c h
    exact ⟨_, by rw [compileStatement, compilePrint, hv, Res.bind_ok]⟩
  | .IfStatement cond t e, c, h => by
    simp only [Statement.known, Bool.and_eq_true] at h
    obtain ⟨⟨hc, ht⟩, he⟩ := h
    obtain ⟨v, hv⟩ := compileExpression_ok cond c hc
    obtain ⟨c₂, h₂⟩ := compileBlock_ok t ((nextLabel (nextLabel v.2).2).2.emitAll
      ["    cmp " ++ v.1 ++ ", 0", "    je " ++ (nextLabel v.2).1]) ht
    obtain ⟨c₃, h₃⟩ := compileElse_ok e (c₂.emitAll
      ["    jmp " ++ (nextLabel (nextLabel v.2).2).1, (nextLabel v.2).1 ++ ":"]) he
    refine ⟨c₃.emit ((nextLabel (nextLabel v.2).2).1 ++ ":"), ?_⟩
    rw [compileStatement, hv, Res.bind_ok]
    simp only []
    rw [h₂, Res.bind_ok, h₃, Res.bind_ok]
  | .WhileStatement cond body, c, h => by
    simp only [Statement.known, Bool.and_eq_true] at h
    obtain ⟨hc, hb⟩ := h
    obtain ⟨v, hv⟩ := compileExpression_ok cond
      ((nextLabel (nextLabel c).2).2.emit ((nextLabel c).1 ++ ":")) hc
    obtain ⟨c₂, h₂⟩ := compileBlock_ok body (v.2.emitAll
      ["    cmp " ++ v.1 ++ ", 0", "    je " ++ (nextLabel (nextLabel c).2).1]) hb
    refine ⟨c₂.emitAll ["    jmp " ++ (nextLabel c).1,
      (nextLabel (nextLabel c).2).1 ++ ":"], ?_⟩
    rw [compileStatement]
    simp only []
    rw [hv, Res.bind_ok, h₂, Res.bind_ok]
  | .Block stmts, c, h => by
    rw [Statement.known] at h
    obtain ⟨c', hc'⟩ := compileStatements_ok stmts c h
    exact ⟨c', by rw [compileStatement, hc']⟩

theorem compileBlock_ok : ∀ (b : Option (List Statement)) (c : Compiler),
    knownBlock b = true → ∃ c', compileBlock c b = .ok c'
  | none, c, h => by cases h
  | some stmts, c, h => by
    rw [knownBlock] at h
    obtain ⟨c', hc'⟩ := compileStatements_ok stmts c h
    exact ⟨c', by rw [compileBlock, hc']⟩

theorem compileElse_ok : ∀ (b : Option (List Statement)) (c : Compiler),
    knownElse b = true → ∃ c', compileElse c b = .ok c'
  | none, c, _ => ⟨c, rfl⟩
  | some stmts, c, h => by
    rw [knownElse] at h
    obtain ⟨c', hc'⟩ := compileStatements_ok stmts c h
    exact ⟨c', by rw [compileElse, hc']⟩

theorem compileStatements_ok : ∀ (l : List Statement) (c : Compiler),
    knownList l = true → ∃ c', compileStatements c l = .ok c'
  | [], c, _ => ⟨c, rfl⟩
  | s :: rest, c, h => by
    simp only [knownList, Bool.and_eq_true] at h
    obtain ⟨c₁, h₁⟩ := compileStatement_ok s c h.1
    obtain ⟨c₂, h₂⟩ := compileStatements_ok rest c₁ h.2
    exact ⟨c₂, by rw [compileStatements, h₁, Res.bind_ok, h₂]⟩

end

/-- C13. No internal error on parser output: when `Parse` returns a program, every expression
node of it is one of the five node types, every operator of a `BinaryExpression` is one of the
ten binary operators, every if statement has a then-block and every while statement a body,
and `Compile` on a fresh compiler for any platform returns a text, with no panic. -/
theorem Compile_of_Parse (fuel : Nat) (tokens : List Token) (p : Program)
    (h : Parse fuel tokens = .ok p) :
    p.known = true ∧ ∀ os arch, ∃ text, Compile (NewCompiler os arch) p = .ok text := by
  have hk : p.known = true := parseLoop_known fuel tokens 0 [] p rfl h
  refine ⟨hk, fun os arch => ?_⟩
  obtain ⟨c', hc'⟩ := compileStatements_ok p.Statements (generatePrologue (NewCompiler os arch)) hk
  exact ⟨_, by rw [Compile, compileProgram, hc', Res.bind_ok, Res.bind_ok]⟩

/-- C13 at the tokens of `x = 5;`. -/
theorem Compile_of_Parse_witness :
    (Program.known ⟨[.AssignmentStatement "x" (.NumberLiteral 5)]⟩) = true ∧
    ∀ os arch, ∃ text, Compile (NewCompiler os arch)
      ⟨[.AssignmentStatement "x" (.NumberLiteral 5)]⟩ = .ok text :=
  Compile_of_Parse 12 [⟨TOKEN_IDENT, "x"⟩, ⟨TOKEN_ASSIGN, "="⟩, ⟨TOKEN_NUMBER, "5"⟩,
    ⟨TOKEN_SEMICOLON, ";"⟩, ⟨TOKEN_EOF, ""⟩] _ rfl

/-! ## The cursor of the parser stays before the end marker -/

theorem InRange.bind {α β : Type} {P : α → Prop} {Q : β → Prop} {r : Res α}
    {k : α → Res β} (hr : InRange P r) (hk : ∀ x, P x → InRange Q (k x)) :
    InRange Q (r.bind k) := by
  cases r with
  | ok x => exact hk x (hr.2 x rfl)
  | fail e =>
    refine ⟨fun h => hr.1 ?_, fun x h => by cases h⟩
    rw [Res.bind_fail] at h
    cases h
    rfl
  | outOfFuel => exact ⟨nofun, fun x h => by cases h⟩

theorem InRange.ok {α : Type} {P : α → Prop} {x : α} (h : P x) : InRange P (.ok x) :=
  ⟨nofun, fun y hy => by cases hy; exact h⟩

theorem InRange.outOfFuel {α : Type} {P : α → Prop} : InRange P (.outOfFuel : Res α) :=
  ⟨nofun, fun y hy => by cases hy⟩

theorem InRange.parseError {α : Type} {P : α → Prop} (msg : String) :
    InRange P (.fail (.ParseError msg) : Res α) :=
  ⟨nofun, fun y hy => by cases hy⟩

theorem InRange.imp {α : Type} {P Q : α → Prop} {r : Res α} (h : InRange P r)
    (hPQ : ∀ x, P x → Q x) : InRange Q r :=
  ⟨h.1, fun x hx => hPQ x (h.2 x hx)⟩

/-- A cursor at or before an end marker is inside the sequence. -/
theorem getElem?_of_le_eof {tokens : List Token} {E pos : Nat} {t₀ : Token}
    (hE : tokens[E]? = some t₀) (hpos : pos ≤ E) : ∃ t, tokens[pos]? = some t := by
  have hlt : E < tokens.length := by
    by_contra hge
    rw [List.getElem?_eq_none_iff.2 (by omega)] at hE
    cases hE
  exact ⟨tokens[pos], List.getElem?_eq_getElem (by omega)⟩

/-- A cursor at or before an end marker that stands on another token is before the end
marker. -/
theorem succ_le_eof {tokens : List Token} {E pos : Nat} {t₀ t : Token}
    (hE : tokens[E]? = some t₀) (h₀ : t₀.Typ = TOKEN_EOF) (hpos : pos ≤ E)
    (ht : tokens[pos]? = some t) (hne : t.Typ ≠ TOKEN_EOF) : pos + 1 ≤ E := by
  by_contra hlt
  have : pos = E := by omega
  subst this
  rw [hE] at ht
  cases ht
  exact hne h₀

theorem expect_inRange {tokens : List Token} {E pos : Nat} {t₀ : Token}
    (hE : tokens[E]? = some t₀) (h₀ : t₀.Typ = TOKEN_EOF) (hpos : pos ≤ E)
    {ty : TokenType} (hty : ty ≠ TOKEN_EOF) (msg : String) :
    InRange (fun _ => pos + 1 ≤ E) (expect tokens pos ty msg) := by
  obtain ⟨t, ht⟩ := getElem?_of_le_eof hE hpos
  unfold expect
  rw [ht]
  simp only
  by_cases h : t.Typ = ty
  · rw [if_pos h]
    exact InRange.ok (succ_le_eof hE h₀ hpos ht (h ▸ hty))
  · rw [if_neg h]
    exact InRange.parseError _

theorem precedence_eof_ne {t : Token} {level : Nat} (h : precedence t.Typ = level)
    (hlev : 1 ≤ level) : t.Typ ≠ TOKEN_EOF := by
  intro he
  rw [he] at h
  have : precedence TOKEN_EOF = 0 := rfl
  omega

/-- The expression parser, started at or before an end marker, reads inside the sequence and
returns a cursor at or before that end marker, at every level. -/
theorem parseAt_inRange {tokens : List Token} {E : Nat} {t₀ : Token}
    (hE : tokens[E]? = some t₀) (h₀ : t₀.Typ = TOKEN_EOF) (f : Nat) :
    (∀ level pos, pos ≤ E → InRange (fun r => r.2 ≤ E) (parseAt f level tokens pos)) ∧
    (∀ level expr pos, 1 ≤ level → pos ≤ E →
      InRange (fun r => r.2 ≤ E) (loopAt f level tokens expr pos)) := by
  induction f with
  | zero =>
    refine ⟨fun level pos _ => ?_, fun level expr pos _ _ => ?_⟩
    · rw [parseAt]
      exact InRange.outOfFuel
    · rw [loopAt]
      exact InRange.outOfFuel
  | succ f ih =>
    obtain ⟨ihP, ihL⟩ := ih
    refine ⟨fun level pos hpos => ?_, fun level expr pos hlev hpos => ?_⟩
    · rw [parseAt]
      by_cases h0 : level = 0
      · rw [if_pos h0]
        exact ihP _ _ hpos
      rw [if_neg h0]
      by_cases h6 : level ≤ 6
      · rw [if_pos h6]
        exact (ihP _ _ hpos).bind fun r hr => ihL _ _ _ (by omega) hr
      rw [if_neg h6]
      obtain ⟨t, ht⟩ := getElem?_of_le_eof hE hpos
      rw [ht]
      simp only
      have hadv : t.Typ ≠ TOKEN_EOF → pos + 1 ≤ E := succ_le_eof hE h₀ hpos ht
      cases hty : t.Typ <;> simp only
      all_goals first
        | exact InRange.parseError _
        | exact InRange.ok (hadv (by rw [hty]; decide))
        | skip
      refine (ihP _ _ (hadv (by rw [hty]; decide))).bind fun r hr => ?_
      exact (expect_inRange hE h₀ hr (by decide) _).bind fun _ h => InRange.ok h
    · rw [loopAt]
      cases ht : tokens[pos]? with
      | none => exact InRange.ok hpos
      | some t =>
        simp only
        by_cases hp : precedence t.Typ = level
        · rw [if_pos hp]
          have hadv := succ_le_eof hE h₀ hpos ht (precedence_eof_ne hp hlev)
          exact (ihP _ _ hadv).bind fun r hr => ihL _ _ _ hlev hr
        · rw [if_neg hp]
          exact InRange.ok hpos

theorem parseExpression_inRange {tokens : List Token} {E : Nat} {t₀ : Token}
    (hE : tokens[E]? = some t₀) (h₀ : t₀.Typ = TOKEN_EOF) (f : Nat) {pos : Nat}
    (hpos : pos ≤ E) : InRange (fun r => r.2 ≤ E) (parseExpression f tokens pos) := by
  rw [parseExpression_eq_parseAt]
  exact (parseAt_inRange hE h₀ f).1 _ _ hpos

theorem parseAssignment_inRange {tokens : List Token} {E : Nat} {t₀ : Token}
    (hE : tokens[E]? = some t₀) (h₀ : t₀.Typ = TOKEN_EOF) (f : Nat) {pos : Nat}
    (hpos : pos + 1 ≤ E) : InRange (fun r => r.2 ≤ E) (parseAssignment f tokens pos) := by
  cases f with
  | zero => exact InRange.outOfFuel
  | succ f =>
    rw [parseAssignment]
    obtain ⟨t, ht⟩ := getElem?_of_le_eof hE (show pos ≤ E by omega)
    have h1 : InRange (fun _ => True) (tokenAt tokens pos) := by
      unfold tokenAt
      rw [ht]
      exact InRange.ok trivial
    refine h1.bind fun ident _ => ?_
    refine (expect_inRange hE h₀ hpos (by decide) _).bind fun _ h2 => ?_
    refine (parseExpression_inRange hE h₀ f h2).bind fun r hr => ?_
    exact (expect_inRange hE h₀ hr (by decide) _).bind fun _ h => InRange.ok h

theorem parsePrintStatement_inRange {tokens : List Token} {E : Nat} {t₀ : Token}
    (hE : tokens[E]? = some t₀) (h₀ : t₀.Typ = TOKEN_EOF) (f : Nat) {pos : Nat}
    (hpos : pos + 1 ≤ E) : InRange (fun r => r.2 ≤ E) (parsePrintStatement f tokens pos) := by
  cases f with
  | zero => exact InRange.outOfFuel
  | succ f =>
    rw [parsePrintStatement]
    refine (parseExpression_inRange hE h₀ f hpos).bind fun r hr => ?_
    exact (expect_inRange hE h₀ hr (by decide) _).bind fun _ h => InRange.ok h

/-- The statement parser, started at or before an end marker, reads inside the sequence and
returns a cursor at or before that end marker; the loop of `parseBlock` returns on a closing
brace, before the end marker. -/
theorem parseStatement_inRange {tokens : List Token} {E : Nat} {t₀ : Token}
    (hE : tokens[E]? = some t₀) (h₀ : t₀.Typ = TOKEN_EOF) (f : Nat) :
    (∀ pos, pos ≤ E → InRange (fun r => r.2 ≤ E) (parseStatement f tokens pos)) ∧
    (∀ pos, pos + 1 ≤ E → InRange (fun r => r.2 ≤ E) (parseIfStatement f tokens pos)) ∧
    (∀ pos, pos + 1 ≤ E → InRange (fun r => r.2 ≤ E) (parseWhileStatement f tokens pos)) ∧
    (∀ pos, pos ≤ E → InRange (fun r => r.2 ≤ E) (parseBlock f tokens pos)) ∧
    (∀ pos stmts, pos ≤ E →
      InRange (fun r => r.2 + 1 ≤ E) (parseBlockLoop f tokens pos stmts)) := by
  induction f with
  | zero =>
    refine ⟨?_, ?_, ?_, ?_, ?_⟩
    · intro pos _; rw [parseStatement]; exact InRange.outOfFuel
    · intro pos _; rw [parseIfStatement]; exact InRange.outOfFuel
    · intro pos _; rw [parseWhileStatement]; exact InRange.outOfFuel
    · intro pos _; rw [parseBlock]; exact InRange.outOfFuel
    · intro pos stmts _; rw [parseBlockLoop]; exact InRange.outOfFuel
  | succ f ih =>
    obtain ⟨ihS, ihI, ihW, ihB, ihL⟩ := ih
    refine ⟨?_, ?_, ?_, ?_, ?_⟩
    · intro pos hpos
      rw [parseStatement]
      obtain ⟨t, ht⟩ := getElem?_of_le_eof hE hpos
      rw [ht]
      simp only
      have hadv : t.Typ ≠ TOKEN_EOF → pos + 1 ≤ E := succ_le_eof hE h₀ hpos ht
      cases hty : t.Typ <;> simp only
      all_goals first
        | exact InRange.ok hpos
        | skip
      · exact (parseAssignment_inRange hE h₀ f (hadv (by rw [hty]; decide))).bind
          fun r hr => InRange.ok hr
      · exact (parsePrintStatement_inRange hE h₀ f (hadv (by rw [hty]; decide))).bind
          fun r hr => InRange.ok hr
      · exact (ihI _ (hadv (by rw [hty]; decide))).bind fun r hr => InRange.ok hr
      · exact (ihW _ (hadv (by rw [hty]; decide))).bind fun r hr => InRange.ok hr
    · intro pos hpos
      rw [parseIfStatement]
      refine (expect_inRange hE h₀ hpos (by decide) _).bind fun _ h1 => ?_
      refine (parseExpression_inRange hE h₀ f h1).bind fun c hc => ?_
      refine (expect_inRange hE h₀ hc (by decide) _).bind fun _ h2 => ?_
      refine (ihB _ h2).bind fun th hth => ?_
      cases ht : tokens[th.2]? with
      | none => exact InRange.ok hth
      | some t =>
        simp only
        by_cases hel : t.Typ = TOKEN_ELSE
        · rw [if_pos hel]
          have hadv := succ_le_eof hE h₀ hth ht (by rw [hel]; decide)
          exact (ihB _ hadv).bind fun el h => InRange.ok h
        · rw [if_neg hel]
          exact InRange.ok hth
    · intro pos hpos
      rw [parseWhileStatement]
      refine (expect_inRange hE h₀ hpos (by decide) _).bind fun _ h1 => ?_
      refine (parseExpression_inRange hE h₀ f h1).bind fun c hc => ?_
      refine (expect_inRange hE h₀ hc (by decide) _).bind fun _ h2 => ?_
      exact (ihB _ h2).bind fun b hb => InRange.ok hb
    · intro pos hpos
      rw [parseBlock]
      refine (expect_inRange hE h₀ hpos (by decide) _).bind fun _ h1 => ?_
      exact (ihL _ _ h1).bind fun r hr => InRange.ok hr
    · intro pos stmts hpos
      rw [parseBlockLoop]
      obtain ⟨t, ht⟩ := getElem?_of_le_eof hE hpos
      rw [ht]
      simp only
      by_cases hr : t.Typ = TOKEN_RBRACE
      · rw [if_pos hr]
        exact InRange.ok (succ_le_eof hE h₀ hpos ht (by rw [hr]; decide))
      · rw [if_neg hr]
        exact (ihS _ hpos).bind fun r h => ihL _ _ h

theorem parseLoop_inRange {tokens : List Token} {E : Nat} {t₀ : Token}
    (hE : tokens[E]? = some t₀) (h₀ : t₀.Typ = TOKEN_EOF) (f : Nat) :
    ∀ pos stmts, pos ≤ E → parseLoop f tokens pos stmts ≠ .fail .IndexOutOfRange := by
  induction f with
  | zero => intro pos stmts _; exact nofun
  | succ f ih =>
    intro pos stmts hpos
    rw [parseLoop]
    cases ht : tokens[pos]? with
    | none => exact nofun
    | some t =>
      simp only
      by_cases he : t.Typ = TOKEN_EOF
      · rw [if_pos he]
        exact nofun
      · rw [if_neg he]
        have hS := (parseStatement_inRange hE h₀ f).1 pos hpos
        cases hs : parseStatement f tokens pos with
        | ok r => exact ih _ _ (hS.2 r hs)
        | fail e =>
          intro h
          rw [Res.bind_fail] at h
          rw [hs] at hS
          cases h
          exact hS.1 rfl
        | outOfFuel => exact nofun

/-- The first end marker of a sequence whose last token is an end marker. -/
theorem firstEof_spec {tokens : List Token} {last : Token}
    (hlast : tokens.getLast? = some last) (heof : last.Typ = TOKEN_EOF) :
    ∃ t₀, tokens[firstEof tokens]? = some t₀ ∧ t₀.Typ = TOKEN_EOF := by
  have hmem : last ∈ tokens := by
    obtain ⟨ys, rfl⟩ := List.getLast?_eq_some_iff.1 hlast
    simp
  have hlt : firstEof tokens < tokens.length :=
    List.findIdx_lt_length_of_exists ⟨last, hmem, by simpa using heof⟩
  refine ⟨tokens[firstEof tokens], List.getElem?_eq_getElem hlt, ?_⟩
  have := @List.findIdx_getElem Token (fun t : Token => decide (t.Typ = TOKEN_EOF)) tokens hlt
  simpa using this

theorem succ_le_eof_of_tag {tokens : List Token} {E pos : Nat} {t₀ : Token}
    (hE : tokens[E]? = some t₀) (h₀ : t₀.Typ = TOKEN_EOF) (hpos : pos ≤ E)
    {ty : TokenType} (ht : tagAt tokens pos = some ty) (hne : ty ≠ TOKEN_EOF) :
    pos + 1 ≤ E := by
  obtain ⟨t, ht', hty⟩ := tagAt_eq_some ht
  exact succ_le_eof hE h₀ hpos ht' (by rw [hty]; exact hne)

/-- The cursors of the statement loops stay at or before every end marker. -/
theorem StmtPos.le_eof {tokens : List Token} {E : Nat} {t₀ : Token}
    (hE : tokens[E]? = some t₀) (h₀ : t₀.Typ = TOKEN_EOF) {kind : LoopKind} {pos : Nat}
    (h : StmtPos tokens kind pos) : pos ≤ E := by
  induction h with
  | start => exact Nat.zero_le _
  | next _ _ _ hret ih =>
    obtain ⟨_, F, hF⟩ := hret
    exact ((parseStatement_inRange hE h₀ F).1 _ ih).2 _ (hF F le_rfl)
  | thenBlock _ hif hlp hret hrp hlb ih =>
    obtain ⟨_, F, hF⟩ := hret
    have h1 := succ_le_eof_of_tag hE h₀ ih hif (by decide)
    have h2 := succ_le_eof_of_tag hE h₀ h1 hlp (by decide)
    have h3 := (parseExpression_inRange hE h₀ F h2).2 _ (hF F le_rfl)
    have h4 := succ_le_eof_of_tag hE h₀ h3 hrp (by decide)
    exact succ_le_eof_of_tag hE h₀ h4 hlb (by decide)
  | elseBlock _ hif hlp hret hrp hblock hel hlb ih =>
    obtain ⟨_, F, hF⟩ := hret
    obtain ⟨_, G, hG⟩ := hblock
    have h1 := succ_le_eof_of_tag hE h₀ ih hif (by decide)
    have h2 := succ_le_eof_of_tag hE h₀ h1 hlp (by decide)
    have h3 := (parseExpression_inRange hE h₀ F h2).2 _ (hF F le_rfl)
    have h4 := succ_le_eof_of_tag hE h₀ h3 hrp (by decide)
    have h5 := ((parseStatement_inRange hE h₀ G).2.2.2.1 _ h4).2 _ (hG G le_rfl)
    have h6 := succ_le_eof_of_tag hE h₀ h5 hel (by decide)
    exact succ_le_eof_of_tag hE h₀ h6 hlb (by decide)
  | whileBody _ hw hlp hret hrp hlb ih =>
    obtain ⟨_, F, hF⟩ := hret
    have h1 := succ_le_eof_of_tag hE h₀ ih hw (by decide)
    have h2 := succ_le_eof_of_tag hE h₀ h1 hlp (by decide)
    have h3 := (parseExpression_inRange hE h₀ F h2).2 _ (hF F le_rfl)
    have h4 := succ_le_eof_of_tag hE h₀ h3 hrp (by decide)
    exact succ_le_eof_of_tag hE h₀ h4 hlb (by decide)

/-- C19. Parser index safety: on a token sequence whose last token is the end marker, `Parse`
never fails on a read outside the sequence, whatever the recursion budget; the cursors at which
the statement loops come to stand, and the cursors that `parseStatement` and
`parseExpression` return when started at or before the first end marker, are at or before
the first end marker. -/
theorem Parse_index_safe (tokens : List Token) (last : Token)
    (hlast : tokens.getLast? = some last) (heof : last.Typ = TOKEN_EOF) :
    (∀ F, Parse F tokens ≠ .fail .IndexOutOfRange) ∧
    (∀ kind pos, StmtPos tokens kind pos → pos ≤ firstEof tokens) ∧
    (∀ F pos, pos ≤ firstEof tokens →
      parseStatement F tokens pos ≠ .fail .IndexOutOfRange ∧
      ∀ s q, parseStatement F tokens pos = .ok (s, q) → q ≤ firstEof tokens) ∧
    (∀ F pos, pos ≤ firstEof tokens →
      parseExpression F tokens pos ≠ .fail .IndexOutOfRange ∧
      ∀ e q, parseExpression F tokens pos = .ok (e, q) → q ≤ firstEof tokens) := by
  obtain ⟨t₀, hE, h₀⟩ := firstEof_spec hlast heof
  refine ⟨fun F => parseLoop_inRange hE h₀ F 0 [] (Nat.zero_le _),
    fun kind pos h => h.le_eof hE h₀, fun F pos hpos => ?_, fun F pos hpos => ?_⟩
  · have := (parseStatement_inRange hE h₀ F).1 pos hpos
    exact ⟨this.1, fun s q h => this.2 _ h⟩
  · have := parseExpression_inRange hE h₀ F hpos
    exact ⟨this.1, fun e q h => this.2 _ h⟩

/-- C19 at the tokens of `x = 5`, where the parser panics on the missing semicolon and not on a
read outside the sequence. -/
theorem Parse_index_safe_witness :
    (∀ F, Parse F tokensNoSemicolon ≠ .fail .IndexOutOfRange) ∧
    (∀ kind pos, StmtPos tokensNoSemicolon kind pos → pos ≤ firstEof tokensNoSemicolon) ∧
    (∀ F pos, pos ≤ firstEof tokensNoSemicolon →
      parseStatement F tokensNoSemicolon pos ≠ .fail .IndexOutOfRange ∧
      ∀ s q, parseStatement F tokensNoSemicolon pos = .ok (s, q) →
        q ≤ firstEof tokensNoSemicolon) ∧
    (∀ F pos, pos ≤ firstEof tokensNoSemicolon →
      parseExpression F tokensNoSemicolon pos ≠ .fail .IndexOutOfRange ∧
      ∀ e q, parseExpression F tokensNoSemicolon pos = .ok (e, q) →
        q ≤ firstEof tokensNoSemicolon) :=
  Parse_index_safe tokensNoSemicolon ⟨TOKEN_EOF, ""⟩ (by decide) rfl

/-! ## Parsing the parenthesised rendering of an expression -/

theorem isDigit_digitChar : ∀ m, m < 10 → isDigit (Nat.digitChar m) = true := by decide

theorem isDigit_toDigitsCore (fuel : Nat) : ∀ (n : Nat) (ds : List Char),
    (∀ c ∈ ds, isDigit c = true) → ∀ c ∈ Nat.toDigitsCore 10 fuel n ds, isDigit c = true := by
  induction fuel with
  | zero => intro n ds h; exact h
  | succ fuel ih =>
    intro n ds h
    have hd := isDigit_digitChar (n % 10) (Nat.mod_lt _ (by decide))
    have hcons : ∀ c ∈ Nat.digitChar (n % 10) :: ds, isDigit c = true := by
      intro c hc
      rcases List.mem_cons.1 hc with h1 | h1
      · rw [h1]; exact hd
      · exact h c h1
    rw [Nat.toDigitsCore]
    split
    · exact hcons
    · exact ih _ _ hcons

theorem toDigitsCore_ne_nil (fuel : Nat) : ∀ (n : Nat) (ds : List Char),
    ds ≠ [] ∨ 0 < fuel → Nat.toDigitsCore 10 fuel n ds ≠ [] := by
  induction fuel with
  | zero =>
    intro n ds h
    rcases h with h | h
    · exact h
    · omega
  | succ fuel ih =>
    intro n ds _
    rw [Nat.toDigitsCore]
    split
    · exact List.cons_ne_nil _ _
    · exact ih _ _ (Or.inl (List.cons_ne_nil _ _))

/-- The value of a digit sequence read after the number `acc`. -/
theorem foldl_digits_ge (ds : List Char) : ∀ acc : Nat,
    acc ≤ ds.foldl (fun a c => a * 10 + (c.toNat - 48)) acc := by
  induction ds with
  | nil => intro acc; exact le_rfl
  | cons c cs ih =>
    intro acc
    rw [List.foldl_cons]
    have := ih (acc * 10 + (c.toNat - 48))
    omega

/-- The digit loop of `strconv.ParseUint` returns the value of a digit sequence that stays in
the unsigned 64-bit range. -/
theorem parseUintLoop_digits (ds : List Char) : ∀ acc : Nat,
    (∀ c ∈ ds, isDigit c = true) →
    ds.foldl (fun a c => a * 10 + (c.toNat - 48)) acc ≤ 2 ^ 64 - 1 →
    parseUintLoop ds acc = some (ds.foldl (fun a c => a * 10 + (c.toNat - 48)) acc) := by
  induction ds with
  | nil => intro acc _ _; rfl
  | cons c cs ih =>
    intro acc hd hle
    rw [List.foldl_cons] at hle ⊢
    have hge := foldl_digits_ge cs (acc * 10 + (c.toNat - 48))
    rw [parseUintLoop, if_pos (hd c (List.mem_cons_self _ _)),
      if_neg (by omega), if_neg (by omega)]
    exact ih _ (fun x hx => hd x (List.mem_cons_of_mem _ hx)) hle

/-- The call `strconv.Atoi` reads back the decimal text of a number of the `int` range. -/
theorem Atoi_toString (n : Nat) (h : n < 2 ^ 63) : Atoi (toString n) = (n : Int) := by
  have hdata : (toString n).data = Nat.toDigits 10 n := rfl
  have hdig : ∀ c ∈ Nat.toDigits 10 n, isDigit c = true :=
    isDigit_toDigitsCore _ _ _ (fun c hc => by cases hc)
  have hne : Nat.toDigits 10 n ≠ [] := toDigitsCore_ne_nil _ _ _ (Or.inr (Nat.succ_pos n))
  have hval : (Nat.toDigits 10 n).foldl (fun a c => a * 10 + (c.toNat - 48)) 0 = n :=
    digitsValue_repr n
  unfold Atoi
  rw [hdata]
  cases hds : Nat.toDigits 10 n with
  | nil => exact absurd hds hne
  | cons c rest =>
    rw [hds] at hdig hval
    have hc : isDigit c = true := hdig c (List.mem_cons_self _ _)
    have hminus : c ≠ '-' := by rintro rfl; exact absurd hc (by decide)
    have hplus : c ≠ '+' := by rintro rfl; exact absurd hc (by decide)
    have hloop := parseUintLoop_digits (c :: rest) 0 hdig (by rw [hval]; omega)
    rw [hval] at hloop
    simp only [hminus, hplus, or_self, if_false, List.cons_ne_nil, hloop]
    rw [if_neg (by omega)]

theorem toString_int_of_nonneg (v : Int) (h : 0 ≤ v) : toString v = toString v.toNat := by
  cases v with
  | ofNat m => rfl
  | negSucc m => exact absurd h (by simp)

theorem getElem?_append_cons {α : Type} (a : List α) (x : α) (b : List α) {n : Nat}
    (h : n = a.length) : (a ++ x :: b)[n]? = some x := by
  subst h
  rw [List.getElem?_append_right (le_refl _), Nat.sub_self]
  exact List.getElem?_cons_zero

theorem precedence_of_isBinaryOperator {op : TokenType} (h : isBinaryOperator op = true) :
    1 ≤ precedence op ∧ precedence op ≤ 6 := by
  cases op <;> first | (cases h; done) | decide

/-- The function `parsePrimary` on a token that is a literal or an identifier. -/
theorem parsePrimary_returns_leaf {tokens : List Token} {pos : Nat} {t : Token}
    (ht : tokens[pos]? = some t) :
    (t.Typ = TOKEN_NUMBER → Returns (fun F => parsePrimary F tokens pos)
      (.ok (.NumberLiteral (Atoi t.Value), pos + 1))) ∧
    (t.Typ = TOKEN_STRING → Returns (fun F => parsePrimary F tokens pos)
      (.ok (.StringLiteral t.Value, pos + 1))) ∧
    (t.Typ = TOKEN_TRUE → Returns (fun F => parsePrimary F tokens pos)
      (.ok (.BooleanLiteral true, pos + 1))) ∧
    (t.Typ = TOKEN_FALSE → Returns (fun F => parsePrimary F tokens pos)
      (.ok (.BooleanLiteral false, pos + 1))) ∧
    (t.Typ = TOKEN_IDENT → Returns (fun F => parsePrimary F tokens pos)
      (.ok (.Identifier t.Value, pos + 1))) := by
  refine ⟨fun hty => ?_, fun hty => ?_, fun hty => ?_, fun hty => ?_, fun hty => ?_⟩
  all_goals
    refine ⟨nofun, 1, fun F hF => ?_⟩
    obtain ⟨F', rfl⟩ : ∃ F', F = F' + 1 := ⟨F - 1, by omega⟩
    show parsePrimary (F' + 1) tokens pos = _
    rw [parsePrimary]
    simp only [ht, hty]

/-- The function `parsePrimary` on `(`: the expression between the parentheses. -/
theorem parsePrimary_returns_group {tokens : List Token} {pos q : Nat} {e : Expression}
    (hl : tagAt tokens pos = some TOKEN_LPAREN)
    (he : Returns (fun F => parseExpression F tokens (pos + 1)) (.ok (e, q)))
    (hr : tagAt tokens q = some TOKEN_RPAREN) :
    Returns (fun F => parsePrimary F tokens pos) (.ok (e, q + 1)) := by
  obtain ⟨t, ht, hty⟩ := tagAt_eq_some hl
  obtain ⟨_, F₁, h₁⟩ := he
  beta_reduce at h₁
  refine ⟨nofun, F₁ + 1, fun F hF => ?_⟩
  obtain ⟨F', rfl⟩ : ∃ F', F = F' + 1 := ⟨F - 1, by omega⟩
  show parsePrimary (F' + 1) tokens pos = _
  rw [parsePrimary]
  simp only [ht, hty]
  rw [h₁ F' (by omega), Res.bind_ok, expect_ok hr, Res.bind_ok]

/-- The function `parsePrimary` reads back the rendering of a renderable expression, wherever
the rendering stands among the tokens. -/
theorem parsePrimary_toks : ∀ (e : Expression), e.renderable = true →
    ∀ (pre post : List Token),
      Returns (fun F => parsePrimary F (pre ++ e.toks ++ post) pre.length)
        (.ok (e, pre.length + e.toks.length))
  | .NumberLiteral v, h, pre, post => by
    simp only [Expression.renderable, Bool.and_eq_true, decide_eq_true_eq] at h
    have ht : (pre ++ (Expression.NumberLiteral v).toks ++ post)[pre.length]? =
        some ⟨TOKEN_NUMBER, toString v⟩ :=
      by
      rw [List.append_assoc]
      exact getElem?_append_cons pre _ post rfl
    have := (parsePrimary_returns_leaf ht).1 rfl
    have hv : Atoi (toString v) = v := by
      rw [toString_int_of_nonneg v h.1, Atoi_toString _ (by omega)]
      omega
    simp only [hv] at this
    exact this
  | .StringLiteral s, _, pre, post => by
    have ht : (pre ++ (Expression.StringLiteral s).toks ++ post)[pre.length]? =
        some ⟨TOKEN_STRING, s⟩ :=
      by
      rw [List.append_assoc]
      exact getElem?_append_cons pre _ post rfl
    exact (parsePrimary_returns_leaf ht).2.1 rfl
  | .BooleanLiteral true, _, pre, post => by
    have ht : (pre ++ (Expression.BooleanLiteral true).toks ++ post)[pre.length]? =
        some ⟨TOKEN_TRUE, "true"⟩ :=
      by
      rw [List.append_assoc]
      exact getElem?_append_cons pre _ post rfl
    exact (parsePrimary_returns_leaf ht).2.2.1 rfl
  | .BooleanLiteral false, _, pre, post => by
    have ht : (pre ++ (Expression.BooleanLiteral false).toks ++ post)[pre.length]? =
        some ⟨TOKEN_FALSE, "false"⟩ :=
      by
      rw [List.append_assoc]
      exact getElem?_append_cons pre _ post rfl
    exact (parsePrimary_returns_leaf ht).2.2.2.1 rfl
  | .Identifier name, _, pre, post => by
    have ht : (pre ++ (Expression.Identifier name).toks ++ post)[pre.length]? =
        some ⟨TOKEN_IDENT, name⟩ :=
      by
      rw [List.append_assoc]
      exact getElem?_append_cons pre _ post rfl
    exact (parsePrimary_returns_leaf ht).2.2.2.2 rfl
  | .nil, h, _, _ => by cases h
  | .BinaryExpression l op r, h, pre, post => by
    simp only [Expression.renderable, Bool.and_eq_true] at h
    obtain ⟨⟨hl, hop⟩, hr⟩ := h
    obtain ⟨hp1, hp6⟩ := precedence_of_isBinaryOperator hop
    have e0 : pre ++ (Expression.BinaryExpression l op r).toks ++ post =
        pre ++ ⟨TOKEN_LPAREN, "("⟩ :: (l.toks ++ ⟨op, operatorText op⟩ ::
          (r.toks ++ ⟨TOKEN_RPAREN, ")"⟩ :: post)) := by
      simp [Expression.toks]
    have e1 : pre ++ (Expression.BinaryExpression l op r).toks ++ post =
        (pre ++ [⟨TOKEN_LPAREN, "("⟩]) ++ l.toks ++ (⟨op, operatorText op⟩ ::
          (r.toks ++ ⟨TOKEN_RPAREN, ")"⟩ :: post)) := by
      simp [Expression.toks]
    have e2 : pre ++ (Expression.BinaryExpression l op r).toks ++ post =
        (pre ++ [⟨TOKEN_LPAREN, "("⟩] ++ l.toks ++ [⟨op, operatorText op⟩]) ++ r.toks ++
          (⟨TOKEN_RPAREN, ")"⟩ :: post) := by
      simp [Expression.toks]
    have e3 : pre ++ (Expression.BinaryExpression l op r).toks ++ post =
        (pre ++ [⟨TOKEN_LPAREN, "("⟩] ++ l.toks) ++ ⟨op, operatorText op⟩ ::
          (r.toks ++ ⟨TOKEN_RPAREN, ")"⟩ :: post) := by
      simp [Expression.toks]
    have e4 : pre ++ (Expression.BinaryExpression l op r).toks ++ post =
        (pre ++ [⟨TOKEN_LPAREN, "("⟩] ++ l.toks ++ [⟨op, operatorText op⟩] ++ r.toks) ++
          ⟨TOKEN_RPAREN, ")"⟩ :: post := by
      simp [Expression.toks]
    have hL := parsePrimary_toks l hl (pre ++ [⟨TOKEN_LPAREN, "("⟩])
      (⟨op, operatorText op⟩ :: (r.toks ++ ⟨TOKEN_RPAREN, ")"⟩ :: post))
    have hR := parsePrimary_toks r hr
      (pre ++ [⟨TOKEN_LPAREN, "("⟩] ++ l.toks ++ [⟨op, operatorText op⟩])
      (⟨TOKEN_RPAREN, ")"⟩ :: post)
    rw [← e1] at hL
    rw [← e2] at hR
    have t0 : (pre ++ (Expression.BinaryExpression l op r).toks ++ post)[pre.length]? =
        some ⟨TOKEN_LPAREN, "("⟩ := by
      rw [e0]
      exact getElem?_append_cons _ _ _ rfl
    have t1 : (pre ++ (Expression.BinaryExpression l op r).toks ++ post)[
        pre.length + 1 + l.toks.length]? = some ⟨op, operatorText op⟩ := by
      rw [e3]
      refine getElem?_append_cons _ _ _ ?_
      simp only [List.length_append, List.length_singleton]
    have t2 : (pre ++ (Expression.BinaryExpression l op r).toks ++ post)[
        pre.length + 1 + l.toks.length + 1 + r.toks.length]? = some ⟨TOKEN_RPAREN, ")"⟩ := by
      rw [e4]
      refine getElem?_append_cons _ _ _ ?_
      simp only [List.length_append, List.length_singleton]
    simp only [List.length_append, List.length_singleton] at hL hR
    have hbin : Returns (fun F => parseAt F (precedence op)
        (pre ++ (Expression.BinaryExpression l op r).toks ++ post) (pre.length + 1))
        (.ok (.BinaryExpression l op r,
          pre.length + 1 + l.toks.length + 1 + r.toks.length)) :=
      parseAt_returns_binary (t := ⟨op, operatorText op⟩) hp1 hp6
        (parseAt_returns_primary (by omega) (by omega) hL fun t ht => by
          rw [t1] at ht
          cases ht
          show precedence op < precedence op + 1
          omega)
        t1 rfl
        (parseAt_returns_primary (by omega) (by omega) hR fun t ht => by
          rw [t2] at ht
          cases ht
          show precedence TOKEN_RPAREN < precedence op + 1
          have : precedence TOKEN_RPAREN = 0 := rfl
          omega)
        (fun t ht => by
          rw [t2] at ht
          cases ht
          show precedence TOKEN_RPAREN ≠ precedence op
          have : precedence TOKEN_RPAREN = 0 := rfl
          omega)
    have hexpr := parseExpression_returns_of_level_one
      (parseAt_returns_lift (precedence op - 1) 1 (precedence op) (by omega) le_rfl
        (by omega) hbin (fun t ht => Or.inl (by
          rw [t2] at ht
          cases ht
          show precedence TOKEN_RPAREN < 1
          decide)))
    have hgroup := parsePrimary_returns_group (by unfold tagAt; rw [t0]; rfl) hexpr
      (by unfold tagAt; rw [t2]; rfl)
    have hlen : pre.length + (Expression.BinaryExpression l op r).toks.length =
        pre.length + 1 + l.toks.length + 1 + r.toks.length + 1 := by
      rw [Expression.toks]
      simp only [List.length_append, List.length_singleton]
      omega
    rw [hlen]
    exact hgroup

/-- C21. Parenthesised round trip: for every expression built from number literals between 0
and the largest `int`, string literals, boolean literals, identifiers and binary expressions
over the ten binary operators, `parseExpression` on the fully parenthesised rendering of the
expression followed by `;` and the end marker returns the expression itself, with the cursor
on the `;`. -/
theorem parseExpression_round_trip (e : Expression) (h : e.renderable = true) :
    Returns
      (fun F => parseExpression F (e.toks ++ [⟨TOKEN_SEMICOLON, ";"⟩, ⟨TOKEN_EOF, ""⟩]) 0)
      (.ok (e, e.toks.length)) ∧
    (e.toks ++ [⟨TOKEN_SEMICOLON, ";"⟩, ⟨TOKEN_EOF, ""⟩])[e.toks.length]? =
      some ⟨TOKEN_SEMICOLON, ";"⟩ := by
  have hsemi : (e.toks ++ [⟨TOKEN_SEMICOLON, ";"⟩, ⟨TOKEN_EOF, ""⟩])[e.toks.length]? =
      some ⟨TOKEN_SEMICOLON, ";"⟩ := getElem?_append_cons _ _ _ rfl
  refine ⟨?_, hsemi⟩
  have hp := parsePrimary_toks e h [] [⟨TOKEN_SEMICOLON, ";"⟩, ⟨TOKEN_EOF, ""⟩]
  simp only [List.nil_append, List.length_nil, Nat.zero_add] at hp
  exact parseExpression_returns_of_level_one
    (parseAt_returns_primary le_rfl (by omega) hp fun t ht => by
      rw [hsemi] at ht
      cases ht
      decide)

/-- C21 at `(1 + (2 * x))`: nine tokens, and `parseExpression` returns the sum with the cursor
at index 9, on the `;`. -/
theorem parseExpression_round_trip_witness :
    roundTripExample.toks =
      [⟨TOKEN_LPAREN, "("⟩, ⟨TOKEN_NUMBER, "1"⟩, ⟨TOKEN_PLUS, "+"⟩, ⟨TOKEN_LPAREN, "("⟩,
        ⟨TOKEN_NUMBER, "2"⟩, ⟨TOKEN_MULTIPLY, "*"⟩, ⟨TOKEN_IDENT, "x"⟩, ⟨TOKEN_RPAREN, ")"⟩,
        ⟨TOKEN_RPAREN, ")"⟩] ∧
    Returns
      (fun F => parseExpression F
        (roundTripExample.toks ++ [⟨TOKEN_SEMICOLON, ";"⟩, ⟨TOKEN_EOF, ""⟩]) 0)
      (.ok (roundTripExample, roundTripExample.toks.length)) ∧
    (roundTripExample.toks ++ [⟨TOKEN_SEMICOLON, ";"⟩, ⟨TOKEN_EOF, ""⟩])[
      roundTripExample.toks.length]? = some ⟨TOKEN_SEMICOLON, ";"⟩ :=
  ⟨by decide, parseExpression_round_trip roundTripExample (by decide)⟩

end KS
